import Mathlib

/-!
# AgriVoice: speech transcript to form fields

A shallow embedding of `src/js/voice-recognition.js` and of the distance and
registry code of `src/js/location-manager.js`.

JavaScript strings are modelled as `List Char`.  Every pattern, keyword and
dictionary entry of the program lies in the Basic Multilingual Plane, so
searching over code points and over UTF-16 code units agree.  JavaScript numbers
are a parameter: the code of `location-manager.js` is written over a number
arithmetic `Arith`, and what a statement needs of the arithmetic is a hypothesis;
`binary64` is the arithmetic of IEEE 754 doubles, on which the program runs.
-/

namespace AgriVoice

/-- A JavaScript string. -/
abbrev Str := List Char

/-! ## String primitives used by the source -/

/-- `String.prototype.includes`: does `pat` occur in `s` as a contiguous substring. -/
def includes : Str → Str → Bool
  | [], pat => pat.isEmpty
  | c :: cs, pat => pat.isPrefixOf (c :: cs) || includes cs pat

/-- `String.prototype.toLowerCase`, carried for the ASCII letters; kana, CJK
ideographs, digits and punctuation have no case and are kept as they are. -/
def toLowerCase (s : Str) : Str := s.map Char.toLower

/-- The character canonicalisation a regular expression with the `i` flag
applies to both the pattern and the input (upper-casing), carried for the
ASCII letters. -/
def canonicalize (c : Char) : Char := c.toUpper

/-- Does the literal pattern `pat` match at the head of `s` under the `i` flag. -/
def matchesAtCI : Str → Str → Bool
  | [], _ => true
  | _ :: _, [] => false
  | p :: ps, c :: cs => canonicalize p == canonicalize c && matchesAtCI ps cs

/-- The scan of `text.replace(new RegExp(pat, 'gi'), rep)` for a non-empty literal
pattern: `skip` counts the characters of the current match still to be consumed. -/
def replaceScan (pat rep : Str) : Nat → Str → Str
  | _, [] => []
  | skip + 1, _ :: cs => replaceScan pat rep skip cs
  | 0, c :: cs =>
    if matchesAtCI pat (c :: cs) then rep ++ replaceScan pat rep (pat.length - 1) cs
    else c :: replaceScan pat rep 0 cs

/-- `text.replace(new RegExp(pat, 'gi'), rep)`: every non-overlapping occurrence of
`pat`, found left to right, is replaced by `rep`.  The empty pattern matches the
empty string at every index, so `rep` is inserted around every character. -/
def replaceAllCI (pat rep : Str) (text : Str) : Str :=
  match pat with
  | [] => rep ++ text.flatMap (fun c => c :: rep)
  | _ :: _ => replaceScan pat rep 0 text

/-! ## The dictionary of `loadAgriculturalTerms` -/

/-- The `category` tag of a dictionary entry. -/
inductive Category
  | crop | work | disease | pest | unit
  deriving DecidableEq, Repr

/-- One entry `{ term, normalized, category }`. -/
structure TermEntry where
  term : Str
  normalized : Str
  category : Category
  deriving DecidableEq, Repr

/-- The table assigned to `this.agriculturalTerms`, in declaration order. -/
def agriculturalTerms : List TermEntry :=
  [ ⟨"いね".toList, "稲".toList, .crop⟩,
    ⟨"こめ".toList, "稲".toList, .crop⟩,
    ⟨"むぎ".toList, "麦".toList, .crop⟩,
    ⟨"とうもろこし".toList, "トウモロコシ".toList, .crop⟩,
    ⟨"だいず".toList, "大豆".toList, .crop⟩,
    ⟨"じゃがいも".toList, "ジャガイモ".toList, .crop⟩,
    ⟨"とまと".toList, "トマト".toList, .crop⟩,
    ⟨"きゃべつ".toList, "キャベツ".toList, .crop⟩,
    ⟨"れたす".toList, "レタス".toList, .crop⟩,
    ⟨"はしゅ".toList, "播種".toList, .work⟩,
    ⟨"たねまき".toList, "播種".toList, .work⟩,
    ⟨"うえつけ".toList, "植付".toList, .work⟩,
    ⟨"しひ".toList, "施肥".toList, .work⟩,
    ⟨"ひりょう".toList, "施肥".toList, .work⟩,
    ⟨"のうやく".toList, "農薬散布".toList, .work⟩,
    ⟨"さんぷ".toList, "農薬散布".toList, .work⟩,
    ⟨"じょそう".toList, "除草".toList, .work⟩,
    ⟨"くさとり".toList, "除草".toList, .work⟩,
    ⟨"しゅうかく".toList, "収穫".toList, .work⟩,
    ⟨"かり".toList, "収穫".toList, .work⟩,
    ⟨"てんけん".toList, "点検".toList, .work⟩,
    ⟨"いもち".toList, "いもち病".toList, .disease⟩,
    ⟨"あぶらむし".toList, "アブラムシ".toList, .pest⟩,
    ⟨"うどんこ".toList, "うどんこ病".toList, .disease⟩,
    ⟨"あかだに".toList, "ハダニ".toList, .pest⟩,
    ⟨"きろ".toList, "kg".toList, .unit⟩,
    ⟨"キロ".toList, "kg".toList, .unit⟩,
    ⟨"へくたーる".toList, "ha".toList, .unit⟩,
    ⟨"アール".toList, "a".toList, .unit⟩,
    ⟨"たん".toList, "反".toList, .unit⟩,
    ⟨"つぼ".toList, "坪".toList, .unit⟩ ]

/-- The value of `processedText` after the `forEach` of `processAgriculturalTerms`
over the entries `terms`: each entry rewrites the text left by the entries before it. -/
def normalizeWith (terms : List TermEntry) (text : Str) : Str :=
  terms.foldl (fun processedText t => replaceAllCI t.term t.normalized processedText) text

/-- The normalised text `processAgriculturalTerms` computes for `text`. -/
def normalize (text : Str) : Str := normalizeWith agriculturalTerms text

/-! ## The regular expressions of `autoFillForm` -/

/-- The search of `String.prototype.match` with a regular expression without the
`g` flag: the pattern, given by its matcher `matchAt` at one position, is tried at
every start index from left to right (the end of the input included), and the first
position that matches gives the result. -/
def regexSearch {α : Type} (matchAt : Str → Option α) : Str → Option α
  | [] => matchAt []
  | c :: cs =>
    match matchAt (c :: cs) with
    | some r => some r
    | none => regexSearch matchAt cs

/-- The class `\d`: the ASCII digits. -/
def isDigit (c : Char) : Bool := 0x30 ≤ c.toNat && c.toNat ≤ 0x39

/-- The class `\s`: the white-space and line-terminator code points of ECMAScript. -/
def isWhiteSpace (c : Char) : Bool :=
  let n := c.toNat
  n == 0x9 || n == 0xA || n == 0xB || n == 0xC || n == 0xD || n == 0x20 || n == 0xA0 ||
  n == 0x1680 || (0x2000 ≤ n && n ≤ 0x200A) || n == 0x2028 || n == 0x2029 ||
  n == 0x202F || n == 0x205F || n == 0x3000 || n == 0xFEFF

/-- The bracket expression `[号圃場|圃場|号]`: a class, so one character out of
`号`, `圃`, `場` and `|`. -/
def isFieldMarker (c : Char) : Bool :=
  c == '号' || c == '圃' || c == '場' || c == '|' || c == '圃' || c == '場' || c == '|' || c == '号'

/-- `/(\d+)([号圃場|圃場|号])/` tried at the head of the input; the result is capture
group 1.  The greedy `\d+` first tries to take one more digit and gives it back when
the rest of the pattern fails. -/
def fieldMatchAt : Str → Option Str
  | [] => none
  | c :: cs =>
    if isDigit c then
      match fieldMatchAt cs with
      | some ds => some (c :: ds)
      | none =>
        match cs with
        | m :: _ => if isFieldMarker m then some [c] else none
        | [] => none
    else none

/-- `text.match(/(\d+)([号圃場|圃場|号])/)`: capture group 1 of the first start
position, from the left, at which the pattern matches. -/
def fieldMatch (text : Str) : Option Str := regexSearch fieldMatchAt text

/-- The alternation `(kg|キロ|ha|ヘクタール|a|アール|反|坪)`, in its order. -/
def quantityUnits : List Str :=
  ["kg".toList, "キロ".toList, "ha".toList, "ヘクタール".toList, "a".toList,
   "アール".toList, "反".toList, "坪".toList]

/-- The alternation tried at the head of the input: the first alternative that is a
prefix of the input. -/
def unitAt (s : Str) : Option Str := quantityUnits.find? (fun u => u.isPrefixOf s)

/-- `\s*(kg|...|坪)` at the head of the input; the result is the unit captured. -/
def spaceUnitAt : Str → Option Str
  | [] => unitAt []
  | c :: cs =>
    if isWhiteSpace c then
      match spaceUnitAt cs with
      | some u => some u
      | none => unitAt (c :: cs)
    else unitAt (c :: cs)

/-- `\d+\s*(kg|...|坪)` at the head of the input: the digits taken and the unit. -/
def digitsSpaceUnitAt : Str → Option (Str × Str)
  | [] => none
  | c :: cs =>
    if isDigit c then
      match digitsSpaceUnitAt cs with
      | some (ds, u) => some (c :: ds, u)
      | none => (spaceUnitAt cs).map (fun u => ([c], u))
    else none

/-- `(?:\.\d+)?\s*(kg|...|坪)` at the head of the input: the optional group is tried
first and skipped when the rest fails with it.  The result is the text the group
took and the unit. -/
def fractionSpaceUnitAt : Str → Option (Str × Str)
  | [] => (spaceUnitAt []).map (fun u => ([], u))
  | c :: rest =>
    if c = '.' then
      match digitsSpaceUnitAt rest with
      | some (ds, u) => some ('.' :: ds, u)
      | none => (spaceUnitAt (c :: rest)).map (fun u => ([], u))
    else (spaceUnitAt (c :: rest)).map (fun u => ([], u))

/-- `/(\d+(?:\.\d+)?)\s*(kg|キロ|ha|ヘクタール|a|アール|反|坪)/` at the head of the input:
capture groups 1 and 2. -/
def quantityMatchAt : Str → Option (Str × Str)
  | [] => none
  | c :: cs =>
    if isDigit c then
      match quantityMatchAt cs with
      | some (num, u) => some (c :: num, u)
      | none => (fractionSpaceUnitAt cs).map (fun r => (c :: r.1, r.2))
    else none

/-- `text.match(/(\d+(?:\.\d+)?)\s*(kg|...|坪)/)`: capture groups 1 and 2 of the first
start position, from the left, at which the pattern matches. -/
def quantityMatch (text : Str) : Option (Str × Str) := regexSearch quantityMatchAt text

/-- `String.prototype.trim`: white space is removed from both ends. -/
def trim (s : Str) : Str :=
  ((s.dropWhile isWhiteSpace).reverse.dropWhile isWhiteSpace).reverse

/-! ## The form and `autoFillForm` -/

/-- The `value` of the five form controls `autoFillForm` writes to: the elements
`workType`, `cropType`, `fieldName`, `quantity` and `workDetails` of the page, which
`document.getElementById` is taken to find. -/
structure Form where
  workType : Str
  cropType : Str
  fieldName : Str
  quantity : Str
  workDetails : Str
  deriving DecidableEq, Repr

/-- The block `作業種類の自動推定`: the `if … else if` chain over `lowerText` that
writes the `workType` control. -/
def inferWorkType (lowerText : Str) (form : Form) : Form :=
  if includes lowerText "播種".toList || includes lowerText "種まき".toList then
    { form with workType := "seeding".toList }
  else if includes lowerText "植付".toList || includes lowerText "植え付け".toList then
    { form with workType := "planting".toList }
  else if includes lowerText "施肥".toList || includes lowerText "肥料".toList then
    { form with workType := "fertilizing".toList }
  else if includes lowerText "農薬".toList || includes lowerText "散布".toList then
    { form with workType := "pesticide".toList }
  else if includes lowerText "除草".toList || includes lowerText "草取り".toList then
    { form with workType := "weeding".toList }
  else if includes lowerText "収穫".toList || includes lowerText "刈り".toList then
    { form with workType := "harvesting".toList }
  else if includes lowerText "点検".toList || includes lowerText "確認".toList then
    { form with workType := "inspection".toList }
  else form

/-- The block `作物の自動推定`: the `if … else if` chain over `lowerText` that writes
the `cropType` control. -/
def inferCropType (lowerText : Str) (form : Form) : Form :=
  if includes lowerText "稲".toList || includes lowerText "米".toList then
    { form with cropType := "rice".toList }
  else if includes lowerText "麦".toList then
    { form with cropType := "wheat".toList }
  else if includes lowerText "トウモロコシ".toList then
    { form with cropType := "corn".toList }
  else if includes lowerText "大豆".toList then
    { form with cropType := "soybean".toList }
  else if includes lowerText "ジャガイモ".toList then
    { form with cropType := "potato".toList }
  else if includes lowerText "トマト".toList then
    { form with cropType := "tomato".toList }
  else if includes lowerText "キャベツ".toList then
    { form with cropType := "cabbage".toList }
  else if includes lowerText "レタス".toList then
    { form with cropType := "lettuce".toList }
  else form

/-- The block `圃場名の抽出`: on a match the `fieldName` control receives the template
string built around capture group 1. -/
def extractFieldName (text : Str) (form : Form) : Form :=
  match fieldMatch text with
  | some n => { form with fieldName := "第".toList ++ n ++ "圃場".toList }
  | none => form

/-- The block `数量の抽出`: on a match the `quantity` control receives capture groups 1
and 2, one after the other. -/
def extractQuantity (text : Str) (form : Form) : Form :=
  match quantityMatch text with
  | some (num, u) => { form with quantity := num ++ u }
  | none => form

/-- The block `作業詳細に音声認識結果を設定`: the `workDetails` control receives `text`
when its trimmed value is the empty string. -/
def fillWorkDetails (text : Str) (form : Form) : Form :=
  if trim form.workDetails = [] then { form with workDetails := text } else form

/-- The form after `autoFillForm(text)`: the five blocks of the method, in order. -/
def autoFillForm (text : Str) (form : Form) : Form :=
  let lowerText := toLowerCase text
  let form := inferWorkType lowerText form
  let form := inferCropType lowerText form
  let form := extractFieldName text form
  let form := extractQuantity text form
  fillWorkDetails text form

/-! ## The recogniser state and its `onresult` handler -/

/-- One entry of `event.results`: the transcript of its first alternative and its
`isFinal` flag. -/
structure SpeechResult where
  transcript : Str
  isFinal : Bool
  deriving DecidableEq, Repr

/-- A result event of the speech engine. -/
structure ResultEvent where
  resultIndex : Nat
  results : List SpeechResult
  deriving DecidableEq, Repr

/-- The state the handlers read and write: the fields `isRecording` and `currentText`
of the recogniser, the text of the `recognizedText` element, the `active` class of the
listening indicator, and the form. -/
structure State where
  isRecording : Bool
  currentText : Str
  recognizedText : Str
  listening : Bool
  form : Form
  deriving DecidableEq, Repr

/-- The placeholder `displayRecognitionResult` shows for an empty text. -/
def placeholderText : Str := "ここに音声認識結果が表示されます".toList

/-- `displayRecognitionResult(text)`: the element shows `text || placeholder`. -/
def displayRecognitionResult (text : Str) (s : State) : State :=
  { s with recognizedText := if text.isEmpty then placeholderText else text }

/-- `processAgriculturalTerms(text)`: the normalised text goes to `currentText` and to
the display when it differs from `text`; nothing is returned. -/
def processAgriculturalTerms (text : Str) (s : State) : State :=
  let processedText := normalize text
  if processedText ≠ text then
    displayRecognitionResult processedText { s with currentText := processedText }
  else s

/-- The `for` loop of `onresult`: the pair `(interimText, finalText)` accumulated over
the results from `resultIndex` on. -/
def collectTranscripts (event : ResultEvent) : Str × Str :=
  (event.results.drop event.resultIndex).foldl
    (fun acc r => if r.isFinal then (acc.1, acc.2 ++ r.transcript) else (acc.1 ++ r.transcript, acc.2))
    ([], [])

/-- The `recognition.onresult` handler. -/
def onresult (event : ResultEvent) (s : State) : State :=
  let (interimText, finalText) := collectTranscripts event
  let s := { s with currentText := finalText }
  let s := displayRecognitionResult (finalText ++ interimText) s
  if !finalText.isEmpty then
    let s := processAgriculturalTerms finalText s
    { s with form := autoFillForm finalText s.form }
  else s

/-! ## The recogniser's other handlers and methods -/

/-- `showListeningIndicator()`: the indicator receives the class `active`. -/
def showListeningIndicator (s : State) : State := { s with listening := true }

/-- `hideListeningIndicator()`: the indicator loses the class `active`. -/
def hideListeningIndicator (s : State) : State := { s with listening := false }

/-- The `recognition.onstart` handler.  The tone of `playAudioFeedback` touches none of
the state modelled here. -/
def onstart (s : State) : State := showListeningIndicator { s with isRecording := true }

/-- The `recognition.onend` handler. -/
def onend (s : State) : State := hideListeningIndicator { s with isRecording := false }

/-- The text every message of `handleRecognitionError` starts with. -/
def errorPrefix : Str := "音声認識エラーが発生しました: ".toList

/-- `handleRecognitionError(error)`: the `switch` appends the text of the error code to
the message, which is displayed, and the listening indicator is hidden. -/
def handleRecognitionError (error : Str) (s : State) : State :=
  let message := errorPrefix ++
    (if error = "no-speech".toList then "音声が検出されませんでした。".toList
     else if error = "audio-capture".toList then "マイクへのアクセスができませんでした。".toList
     else if error = "not-allowed".toList then "マイクの使用が許可されていません。".toList
     else if error = "network".toList then "ネットワークエラーが発生しました。".toList
     else error)
  hideListeningIndicator (displayRecognitionResult message s)

/-- The `recognition.onerror` handler, on the code `event.error`. -/
def onerror (error : Str) (s : State) : State := handleRecognitionError error s

/-- The two fields `init` sets once: `isSupported`, and whether `recognition` holds an
engine object rather than `null`. -/
structure Engine where
  isSupported : Bool
  recognition : Bool
  deriving DecidableEq, Repr

/-- `init()`: an engine object is created when the window offers
`webkitSpeechRecognition` or `SpeechRecognition`. -/
def init (webkitSpeechRecognition speechRecognition : Bool) : Engine :=
  if webkitSpeechRecognition then ⟨true, true⟩
  else if speechRecognition then ⟨true, true⟩
  else ⟨false, false⟩

/-- The text of `showUnsupportedMessage`. -/
def unsupportedMessage : Str :=
  "このブラウザでは音声認識がサポートされていません。Chrome、Safari、Edgeをご利用ください。".toList

/-- `showUnsupportedMessage()`. -/
def showUnsupportedMessage (s : State) : State := { s with recognizedText := unsupportedMessage }

/-- The state after the constructor has run over the page `page`: `isRecording` is
`false`, `currentText` is empty, and `init` shows the message of an unsupported
browser. -/
def construct (env : Engine) (page : State) : State :=
  let s := { page with isRecording := false, currentText := [] }
  if env.isSupported then s else showUnsupportedMessage s

/-- A call of a method of the engine object. -/
inductive EngineCall
  | start
  | stop
  deriving DecidableEq, Repr

/-- `startRecording()`: the state after the call and the call made to the engine. -/
def startRecording (env : Engine) (s : State) : State × Option EngineCall :=
  if !env.isSupported then (showUnsupportedMessage s, none)
  else if !s.isRecording && env.recognition then
    ({ s with currentText := [] }, some EngineCall.start)
  else (s, none)

/-- `stopRecording()`: the state after the call and the call made to the engine. -/
def stopRecording (env : Engine) (s : State) : State × Option EngineCall :=
  if s.isRecording && env.recognition then (s, some EngineCall.stop) else (s, none)

/-! ## Distances: `calculateDistance` -/

/-- The number arithmetic `calculateDistance` and `findNearestField` run on: the
operators, the functions of `Math`, the literals and the comparison `<`. -/
structure Arith (F : Type) where
  add : F → F → F
  sub : F → F → F
  mul : F → F → F
  div : F → F → F
  sin : F → F
  cos : F → F
  sqrt : F → F
  atan2 : F → F → F
  lit : Nat → F
  pi : F
  tenth : F
  infinity : F
  lt : F → F → Bool

/-- `toRad(degrees)`. -/
def toRad {F : Type} (A : Arith F) (degrees : F) : F :=
  A.mul degrees (A.div A.pi (A.lit 180))

/-- `calculateDistance(lat1, lng1, lat2, lng2)`. -/
def calculateDistance {F : Type} (A : Arith F) (lat1 lng1 lat2 lng2 : F) : F :=
  let R := A.lit 6371
  let dLat := toRad A (A.sub lat2 lat1)
  let dLng := toRad A (A.sub lng2 lng1)
  let a := A.add
    (A.mul (A.sin (A.div dLat (A.lit 2))) (A.sin (A.div dLat (A.lit 2))))
    (A.mul (A.mul (A.mul (A.cos (toRad A lat1)) (A.cos (toRad A lat2)))
      (A.sin (A.div dLng (A.lit 2)))) (A.sin (A.div dLng (A.lit 2))))
  let c := A.mul (A.lit 2) (A.atan2 (A.sqrt a) (A.sqrt (A.sub (A.lit 1) a)))
  A.mul R c

/-! ## The registry of known fields -/

/-- A location object `{ lat, lng, accuracy, timestamp }`. -/
structure Location (F : Type) where
  lat : F
  lng : F
  accuracy : F
  timestamp : Str

/-- A registry entry `{ name, location }`. -/
structure KnownField (F : Type) where
  name : Str
  location : Location F

/-- The item `agri-voice-fields` of `localStorage`: `none` when the item is absent,
else the list its JSON text denotes (`JSON.parse` gives back what `JSON.stringify`
wrote). -/
structure Storage (F : Type) where
  fields : Option (List (KnownField F))

/-- `getKnownFields()`: the list read, and the storage after the read. -/
def getKnownFields {F : Type} (s : Storage F) : List (KnownField F) × Storage F :=
  match s.fields with
  | some fields => (fields, s)
  | none => ([], s)

/-- `Array.prototype.findIndex`: the index of the first element that satisfies `p`;
`none` stands for `-1`. -/
def findIndex {α : Type} (p : α → Bool) : List α → Option Nat
  | [] => none
  | x :: xs => if p x then some 0 else (findIndex p xs).map (fun i => i + 1)

/-- `saveKnownField(fieldName, location)`: the storage after the call. -/
def saveKnownField {F : Type} (fieldName : Str) (location : Location F) (s : Storage F) :
    Storage F :=
  let (fields, s) := getKnownFields s
  let existingIndex := findIndex (fun f => f.name == fieldName) fields
  let fields :=
    match existingIndex with
    | some i => fields.set i ⟨fieldName, location⟩
    | none => fields ++ [⟨fieldName, location⟩]
  { s with fields := some fields }

/-- The `distance` the callback of `findNearestField` computes for `field`. -/
def distanceTo {F : Type} (A : Arith F) (currentLocation : Location F)
    (field : KnownField F) : F :=
  calculateDistance A currentLocation.lat currentLocation.lng
    field.location.lat field.location.lng

/-- The callback of the `forEach` of `findNearestField`, on the pair
`(nearestField, minDistance)`. -/
def nearestStep {F : Type} (A : Arith F) (currentLocation : Location F)
    (acc : Option (KnownField F) × F) (field : KnownField F) : Option (KnownField F) × F :=
  let distance := distanceTo A currentLocation field
  if A.lt distance acc.2 then (some field, distance) else acc

/-- `findNearestField(currentLocation)`: the field returned (`none` for `null`), and the
storage after the call. -/
def findNearestField {F : Type} (A : Arith F) (currentLocation : Location F)
    (s : Storage F) : Option (KnownField F) × Storage F :=
  let (fields, s) := getKnownFields s
  if fields.length = 0 then (none, s)
  else
    let (nearestField, minDistance) :=
      fields.foldl (nearestStep A currentLocation) (none, A.infinity)
    -- 100m以内の圃場を候補とする
    (if A.lt minDistance A.tenth then nearestField else none, s)

/-- `suggestFieldName(location)`: the name returned (`none` for `null`), and the storage
after the call. -/
def suggestFieldName {F : Type} (A : Arith F) (location : Location F) (s : Storage F) :
    Option Str × Storage F :=
  let (nearestField, s) := findNearestField A location s
  match nearestField with
  | some field => (some field.name, s)
  | none => (none, s)

/-! ## The location history -/

/-- An entry `{ location, workType, timestamp }` of the location history. -/
structure HistoryEntry (F : Type) where
  location : Location F
  workType : Str
  timestamp : Str

/-- The item `agri-voice-location-history` of `localStorage`: `none` when the item is
absent, else the list its JSON text denotes. -/
structure HistoryStorage (F : Type) where
  history : Option (List (HistoryEntry F))

/-- `JSON.parse(localStorage.getItem('agri-voice-location-history') || '[]')`. -/
def readHistory {F : Type} (s : HistoryStorage F) : List (HistoryEntry F) :=
  match s.history with
  | some history => history
  | none => []

/-- `recordLocationHistory(location, workType)`, with `now` the text
`new Date().toISOString()` gives at the call: the storage after the call. -/
def recordLocationHistory {F : Type} (location : Location F) (workType : Str) (now : Str)
    (s : HistoryStorage F) : HistoryStorage F :=
  let history := readHistory s
  let history := history ++ [⟨location, workType, now⟩]
  -- 最新100件のみ保持
  let history := if history.length > 100 then history.tail else history
  { s with history := some history }

/-! ## Display labels: `getWorkTypeLabel`, `getCropTypeLabel` -/

/-- The object `labels` of `getWorkTypeLabel`. -/
def workTypeLabels : List (Str × Str) :=
  [ ("seeding".toList, "播種".toList),
    ("planting".toList, "植付".toList),
    ("fertilizing".toList, "施肥".toList),
    ("pesticide".toList, "農薬散布".toList),
    ("weeding".toList, "除草".toList),
    ("harvesting".toList, "収穫".toList),
    ("inspection".toList, "点検".toList) ]

/-- The object `labels` of `getCropTypeLabel`. -/
def cropTypeLabels : List (Str × Str) :=
  [ ("rice".toList, "稲".toList),
    ("wheat".toList, "麦".toList),
    ("corn".toList, "トウモロコシ".toList),
    ("soybean".toList, "大豆".toList),
    ("potato".toList, "ジャガイモ".toList),
    ("tomato".toList, "トマト".toList),
    ("cabbage".toList, "キャベツ".toList),
    ("lettuce".toList, "レタス".toList) ]

/-- The expression `labels[key] || key` over the own properties of `labels`.  (For a
key that names a property every object inherits, such as `constructor`, the source
returns the inherited value; such keys are no work or crop types.) -/
def labelOr (labels : List (Str × Str)) (key : Str) : Str :=
  match labels.lookup key with
  | some label => if label.isEmpty then key else label
  | none => key

/-- `getWorkTypeLabel(workType)`. -/
def getWorkTypeLabel (workType : Str) : Str := labelOr workTypeLabels workType

/-- `getCropTypeLabel(cropType)`. -/
def getCropTypeLabel (cropType : Str) : Str := labelOr cropTypeLabels cropType

/-! ## The rule tables in the words of the specification -/

/-- The work-type rules as the specification lists them: the keyword set and the type
of each rule, in the fixed order. -/
def workTypeRules : List (List Str × Str) :=
  [ (["播種".toList, "種まき".toList], "seeding".toList),
    (["植付".toList, "植え付け".toList], "planting".toList),
    (["施肥".toList, "肥料".toList], "fertilizing".toList),
    (["農薬".toList, "散布".toList], "pesticide".toList),
    (["除草".toList, "草取り".toList], "weeding".toList),
    (["収穫".toList, "刈り".toList], "harvesting".toList),
    (["点検".toList, "確認".toList], "inspection".toList) ]

/-- The crop-type rules as the specification lists them, in the fixed order. -/
def cropTypeRules : List (List Str × Str) :=
  [ (["稲".toList, "米".toList], "rice".toList),
    (["麦".toList], "wheat".toList),
    (["トウモロコシ".toList], "corn".toList),
    (["大豆".toList], "soybean".toList),
    (["ジャガイモ".toList], "potato".toList),
    (["トマト".toList], "tomato".toList),
    (["キャベツ".toList], "cabbage".toList),
    (["レタス".toList], "lettuce".toList) ]

/-- The first rule of `rules`, in order, one of whose keywords occurs in `s`. -/
def firstRule (rules : List (List Str × Str)) (s : Str) : Option (List Str × Str) :=
  rules.find? (fun r => r.1.any (fun k => includes s k))

/-- The field-designator tokens the specification names: `号圃場`, `圃場` and `号`. -/
def fieldDesignatorTokens : List Str := ["号圃場".toList, "圃場".toList, "号".toList]

/-- Does `text` contain an ASCII digit immediately followed by one of `tokens`. -/
def hasDigitBeforeToken (tokens : List Str) : Str → Bool
  | [] => false
  | c :: cs => (isDigit c && tokens.any (fun tok => tok.isPrefixOf cs)) ||
      hasDigitBeforeToken tokens cs

/-- The digit run of the leftmost occurrence, in the text, of a run of ASCII digits
immediately followed by one of `tokens`, taken whole; `run` holds the digits read
just before the head of the text, the last one first. -/
def leftmostDesignatedRun (tokens : List Str) (run : Str) : Str → Option Str
  | [] => none
  | c :: cs =>
    if isDigit c then
      if tokens.any (fun tok => tok.isPrefixOf cs) then some ((c :: run).reverse)
      else leftmostDesignatedRun tokens (c :: run) cs
    else leftmostDesignatedRun tokens [] cs

/-! ## Number-unit pairs in the words of the specification -/

/-- A non-empty run of ASCII digits. -/
def IsDigits (ds : Str) : Prop := ds ≠ [] ∧ ∀ c ∈ ds, isDigit c = true

/-- A decimal number: digits, optionally followed by `.` and digits. -/
def IsDecimal (num : Str) : Prop :=
  ∃ i fr, num = i ++ fr ∧ IsDigits i ∧ (fr = [] ∨ ∃ ds, fr = '.' :: ds ∧ IsDigits ds)

/-- Optional white space and then the unit token `u`, at the head of `s`. -/
def IsSpaceUnit (s u : Str) : Prop :=
  ∃ ws post, s = ws ++ u ++ post ∧ (∀ c ∈ ws, isWhiteSpace c = true) ∧ u ∈ quantityUnits

/-- The text holds, right after its prefix `pre`, the decimal number `num` followed by
optional white space and the unit token `u`. -/
def QuantityOccurrence (text pre num u : Str) : Prop :=
  IsDecimal num ∧ ∃ rest, text = pre ++ num ++ rest ∧ IsSpaceUnit rest u

/-! ## Conditions on a dictionary -/

/-- The normalised form of the entry contains the entry's own spoken form. -/
def selfContained (e : TermEntry) : Bool := includes e.normalized e.term

/-- Replacing the spoken form of `e` by its normalised form cannot bring an occurrence
of `q` into a text: the normalised form is non-empty and shares no character with `q`,
or it is the spoken form followed by one character that `q` does not contain. -/
def CannotCreate (q : Str) (e : TermEntry) : Prop :=
  (e.normalized ≠ [] ∧ ∀ c ∈ q, c ∉ e.normalized) ∨
  (∃ z ∈ e.normalized, e.normalized = e.term ++ [z] ∧ z ∉ q)

instance (q : Str) (e : TermEntry) : Decidable (CannotCreate q e) :=
  inferInstanceAs (Decidable ((e.normalized ≠ [] ∧ ∀ c ∈ q, c ∉ e.normalized) ∨
    (∃ z ∈ e.normalized, e.normalized = e.term ++ [z] ∧ z ∉ q)))

/-! ## Laws of the number arithmetic -/

/-- The sign laws `calculateDistance` relies on, with `neg` the change of sign: a
difference taken the other way round is the same number or its negation, products
and quotients carry the sign of their operands, the sine is odd, and the product
commutes.  IEEE 754 doubles and the real numbers satisfy them. -/
structure SignLaws {F : Type} (A : Arith F) (neg : F → F) : Prop where
  sub_swap : ∀ x y, A.sub x y = neg (A.sub y x) ∨ A.sub x y = A.sub y x
  neg_neg : ∀ x, neg (neg x) = x
  neg_mul : ∀ x y, A.mul (neg x) y = neg (A.mul x y)
  mul_neg : ∀ x y, A.mul x (neg y) = neg (A.mul x y)
  neg_div : ∀ x y, A.div (neg x) y = neg (A.div x y)
  sin_neg : ∀ x, A.sin (neg x) = neg (A.sin x)
  mul_comm : ∀ x y, A.mul x y = A.mul y x

/-- The number `x` is comparable with `Infinity`, that is, it is not `NaN`. -/
def IsNumber {F : Type} (A : Arith F) (x : F) : Prop :=
  A.lt x A.infinity = true ∨ x = A.infinity

/-- The laws of `<` that `findNearestField` relies on: `<` is a strict order, nothing
is above `Infinity`, whatever is below something is below `Infinity`, and a number
that is not above `a` is below everything `a` is below.  The comparison of IEEE 754
doubles satisfies them, `NaN` being comparable with nothing. -/
structure OrderLaws {F : Type} (A : Arith F) : Prop where
  lt_irrefl : ∀ a, A.lt a a = false
  lt_trans : ∀ a b c, A.lt a b = true → A.lt b c = true → A.lt a c = true
  not_infinity_lt : ∀ a, A.lt A.infinity a = false
  lt_infinity : ∀ a b, A.lt a b = true → A.lt a A.infinity = true
  lt_or_lt : ∀ a b c, A.lt a c = true → IsNumber A b → A.lt a b = true ∨ A.lt b c = true

/-- The state of the loop of `findNearestField` after the fields `done`: no field seen
is nearer than `minDistance`, which is a number, and `nearestField` is the first of
the fields seen at that distance. -/
def NearestInv {F : Type} (A : Arith F) (cur : Location F) (done : List (KnownField F))
    (acc : Option (KnownField F) × F) : Prop :=
  (∀ g ∈ done, A.lt (distanceTo A cur g) acc.2 = false) ∧ IsNumber A acc.2 ∧
  ((acc.1 = none ∧ acc.2 = A.infinity) ∨
    ∃ f pre mid, acc.1 = some f ∧ acc.2 = distanceTo A cur f ∧ done = pre ++ f :: mid ∧
      A.lt (distanceTo A cur f) A.infinity = true ∧
      ∀ g ∈ pre, IsNumber A (distanceTo A cur g) →
        A.lt (distanceTo A cur f) (distanceTo A cur g) = true)

/-- A coarse exact arithmetic on the rationals with a point at infinity (`none`): the
sine of `x` is `x`, the cosine is `1`, `atan2 y x` is `y` and the square root is
left out.  It satisfies the sign and the order laws, and the definitions run on it. -/
def coarseArith : Arith (Option ℚ) where
  add x y := x.bind (fun a => y.map (fun b => a + b))
  sub x y := x.bind (fun a => y.map (fun b => a - b))
  mul x y := x.bind (fun a => y.map (fun b => a * b))
  div x y := x.bind (fun a => y.map (fun b => a / b))
  sin x := x
  cos _ := some 1
  sqrt x := x
  atan2 y _ := y
  lit n := some n
  pi := some 3
  tenth := some (1 / 10)
  infinity := none
  lt x y :=
    match x, y with
    | some a, some b => decide (a < b)
    | some _, none => true
    | none, _ => false

/-- The change of sign of `coarseArith`. -/
def coarseNeg (x : Option ℚ) : Option ℚ := x.map (fun a => -a)

/-! ## The constant `a` of `calculateDistance` -/

/-- The value of the constant `a` of `calculateDistance`. -/
def haversineA {F : Type} (A : Arith F) (lat1 lng1 lat2 lng2 : F) : F :=
  let dLat := toRad A (A.sub lat2 lat1)
  let dLng := toRad A (A.sub lng2 lng1)
  A.add
    (A.mul (A.sin (A.div dLat (A.lit 2))) (A.sin (A.div dLat (A.lit 2))))
    (A.mul (A.mul (A.mul (A.cos (toRad A lat1)) (A.cos (toRad A lat2)))
      (A.sin (A.div dLng (A.lit 2)))) (A.sin (A.div dLng (A.lit 2))))

/-! ## Laws of the numbers used by `calculateDistance` -/

/-- The number `x` is `+0` or above it. -/
def NonNeg {F : Type} (A : Arith F) (x : F) : Prop :=
  A.lt (A.lit 0) x = true ∨ x = A.lit 0

/-- The number `x` lies between `0` and `1`: it is `+0` or above it, and not above `1`. -/
def InUnit {F : Type} (A : Arith F) (x : F) : Prop :=
  NonNeg A x ∧ A.lt (A.lit 1) x = false

/-- What `calculateDistance` relies on when it is given the same point twice, and when
its constant `a` lies between `0` and `1`; `finite` singles out the finite numbers.
The difference of a finite number and itself is `+0`; the operations of the function
take `+0` to `+0`; the square of a cosine of a finite angle, times `+0`, is `+0`;
square root and `1 - x` map the numbers between `0` and `1` to such numbers; `atan2` of
two such numbers lies between `+0` and half of `Math.PI`; the products by `2` and by
`6371` keep `+0` and what is above it, and keep the order; and twice the half of
`Math.PI` is `Math.PI`.  IEEE 754 doubles, rounded to nearest, satisfy these laws. -/
structure HaversineLaws {F : Type} (A : Arith F) (finite : F → Prop) : Prop where
  sub_self : ∀ x, finite x → A.sub x x = A.lit 0
  zero_mul_degree : A.mul (A.lit 0) (A.div A.pi (A.lit 180)) = A.lit 0
  zero_div_two : A.div (A.lit 0) (A.lit 2) = A.lit 0
  sin_zero : A.sin (A.lit 0) = A.lit 0
  zero_mul_zero : A.mul (A.lit 0) (A.lit 0) = A.lit 0
  cos_sq_mul_zero : ∀ x, finite x →
    A.mul (A.mul (A.cos (toRad A x)) (A.cos (toRad A x))) (A.lit 0) = A.lit 0
  zero_add_zero : A.add (A.lit 0) (A.lit 0) = A.lit 0
  sqrt_zero : A.sqrt (A.lit 0) = A.lit 0
  one_sub_zero : A.sub (A.lit 1) (A.lit 0) = A.lit 1
  sqrt_one : A.sqrt (A.lit 1) = A.lit 1
  atan2_zero_one : A.atan2 (A.lit 0) (A.lit 1) = A.lit 0
  two_mul_zero : A.mul (A.lit 2) (A.lit 0) = A.lit 0
  radius_mul_zero : A.mul (A.lit 6371) (A.lit 0) = A.lit 0
  sqrt_unit : ∀ x, InUnit A x → InUnit A (A.sqrt x)
  one_sub_unit : ∀ x, InUnit A x → InUnit A (A.sub (A.lit 1) x)
  atan2_unit : ∀ y x, InUnit A y → InUnit A x →
    NonNeg A (A.atan2 y x) ∧ A.lt (A.div A.pi (A.lit 2)) (A.atan2 y x) = false
  two_mul_nonneg : ∀ x, NonNeg A x → NonNeg A (A.mul (A.lit 2) x)
  radius_mul_nonneg : ∀ x, NonNeg A x → NonNeg A (A.mul (A.lit 6371) x)
  two_mul_mono : ∀ x y, A.lt y x = false →
    A.lt (A.mul (A.lit 2) y) (A.mul (A.lit 2) x) = false
  radius_mul_mono : ∀ x y, A.lt y x = false →
    A.lt (A.mul (A.lit 6371) y) (A.mul (A.lit 6371) x) = false
  two_mul_half_pi : A.mul (A.lit 2) (A.div A.pi (A.lit 2)) = A.pi

/-! ## The numbers of the program: IEEE 754 doubles -/

/-- A JavaScript number: `NaN`, an infinity or a finite double.  The finite double
`fin neg m` is `m · 2^-1074`, negated when `neg` holds, so `fin true 0` is `-0`.
Every finite double is such a multiple: `m` has at most 53 significant binary digits
and is at most `maxFinite`. -/
inductive Double where
  | nan
  | inf (neg : Bool)
  | fin (neg : Bool) (m : Nat)
deriving DecidableEq

/-- The number of binary digits of `n`; `fuel` bounds the digits counted. -/
def bitLength : Nat → Nat → Nat
  | 0, _ => 0
  | fuel + 1, n => if n = 0 then 0 else bitLength fuel (n / 2) + 1

/-- The integer nearest to `n / d`, the even one of two equally near. -/
def roundHalfEven (n d : Nat) : Nat :=
  let q := n / d
  let r := n % d
  if 2 * r < d then q else if d < 2 * r then q + 1 else if q % 2 = 0 then q else q + 1

/-- With `2^-1074` as the unit: the multiple nearest to `n / d` among those with at most
53 significant binary digits, ties to the even one. -/
def roundToGrid (n d : Nat) : Nat :=
  let s := bitLength (n / d) (n / d) - 53
  roundHalfEven n (d * 2 ^ s) * 2 ^ s

/-- The largest finite double, `(2^53 - 1) · 2^971`, in units of `2^-1074`. -/
def maxFinite : Nat := (2 ^ 53 - 1) * 2 ^ 2045

/-- The number `1` in units of `2^-1074`. -/
def unitsPerOne : Nat := 2 ^ 1074

/-- The double nearest to `± (n / d) · 2^-1074`: round to nearest, ties to even, and an
infinity when the rounded value exceeds the largest finite double. -/
def nearestDouble (neg : Bool) (n d : Nat) : Double :=
  let m := roundToGrid n d
  if maxFinite < m then Double.inf neg else Double.fin neg m

/-- The number literal `digits / 10 ^ places`, negated when `neg`: the double nearest
to it. -/
def ofDecimal (neg : Bool) (digits places : Nat) : Double :=
  nearestDouble neg (digits * unitsPerOne) (10 ^ places)

/-- The unary `-x`. -/
def Double.negate : Double → Double
  | .nan => .nan
  | .inf a => .inf (!a)
  | .fin a m => .fin (!a) m

/-- The sum `x + y`: the exact sum, rounded; a sum that is exactly zero is `+0` unless
both operands are `-0`. -/
def Double.add : Double → Double → Double
  | .nan, _ => .nan
  | _, .nan => .nan
  | .inf a, .inf b => if a = b then .inf a else .nan
  | .inf a, .fin _ _ => .inf a
  | .fin _ _, .inf b => .inf b
  | .fin a m, .fin b k =>
    if a = b then nearestDouble a (m + k) 1
    else if k < m then nearestDouble a (m - k) 1
    else if m < k then nearestDouble b (k - m) 1
    else .fin false 0

/-- The difference `x - y`, which is `x + (-y)`. -/
def Double.sub (x y : Double) : Double := Double.add x (Double.negate y)

/-- The product `x * y`: the exact product, rounded. -/
def Double.mul : Double → Double → Double
  | .nan, _ => .nan
  | _, .nan => .nan
  | .inf a, .inf b => .inf (xor a b)
  | .inf a, .fin b k => if k = 0 then .nan else .inf (xor a b)
  | .fin a m, .inf b => if m = 0 then .nan else .inf (xor a b)
  | .fin a m, .fin b k => nearestDouble (xor a b) (m * k) unitsPerOne

/-- The quotient `x / y`: the exact quotient, rounded. -/
def Double.div : Double → Double → Double
  | .nan, _ => .nan
  | _, .nan => .nan
  | .inf _, .inf _ => .nan
  | .inf a, .fin b _ => .inf (xor a b)
  | .fin a _, .inf b => .fin (xor a b) 0
  | .fin a m, .fin b k =>
    if k = 0 then (if m = 0 then .nan else .inf (xor a b))
    else nearestDouble (xor a b) (m * unitsPerOne) k

/-- The comparison `x < y`; `NaN` is below nothing and nothing is below it, and the two
zeros are equal. -/
def Double.lt : Double → Double → Bool
  | .nan, _ => false
  | _, .nan => false
  | .inf a, .inf b => a && !b
  | .inf a, .fin _ _ => a
  | .fin _ _, .inf b => !b
  | .fin a m, .fin b k =>
    if a then (if b then decide (k < m) else decide (0 < m) || decide (0 < k))
    else (if b then false else decide (m < k))

/-- The integer part of the square root of `n`, one binary digit at a time from `2 ^ k`
down. -/
def isqrtAux (n : Nat) : Nat → Nat → Nat
  | 0, r => r
  | k + 1, r =>
    if (r + 2 ^ k) * (r + 2 ^ k) ≤ n then isqrtAux n k (r + 2 ^ k) else isqrtAux n k r

/-- The integer part of the square root of `n`. -/
def isqrt (n : Nat) : Nat := isqrtAux n (bitLength n n / 2 + 1) 0

/-- The number with at most 53 significant binary digits nearest to the square root of
`n`: the root lies between `q · 2^s` and `(q + 1) · 2^s`, and is compared with their
midpoint by comparing the squares. -/
def sqrtToGrid (n : Nat) : Nat :=
  let r := isqrt n
  let s := bitLength r r - 53
  let q := r / 2 ^ s
  let mid := (2 * q + 1) * (2 * q + 1) * 4 ^ s
  if 4 * n < mid then q * 2 ^ s
  else if mid < 4 * n then (q + 1) * 2 ^ s
  else if q % 2 = 0 then q * 2 ^ s else (q + 1) * 2 ^ s

/-- `Math.sqrt(x)`: the exact square root, rounded; `NaN` below zero; `-0` for `-0`. -/
def Double.sqrt : Double → Double
  | .nan => .nan
  | .inf a => if a then .nan else .inf false
  | .fin a m =>
    if m = 0 then .fin a 0
    else if a then .nan
    else .fin false (sqrtToGrid (m * unitsPerOne))

/-- For `x = m / d`: the part of the exponential series `Σ x^k / k!`, `k ≤ deg`, with `k`
of the parity of `i`, the terms taken with alternating signs (the cosine series for
`i = 0`, the sine series for `i = 1`); the result is the pair of the sum of the terms
taken with `+` and the sum of the terms taken with `-`, both over the denominator
`d ^ deg * deg!`. -/
def seriesParts (m d deg : Nat) (i : Nat) : Nat × Nat :=
  (List.range (deg + 1)).foldl
    (fun acc k =>
      if k % 2 = i % 2 then
        let t := m ^ k * d ^ (deg - k) * (Nat.factorial deg / Nat.factorial k)
        if (k / 2) % 2 = 0 then (acc.1 + t, acc.2) else (acc.1, acc.2 + t)
      else acc)
    (0, 0)

/-- The degree up to which the series is summed for `|x| = m · 2^-1074`: with
`n = 8 (⌊|x|⌋ + 1) + 40` the rest `|x|^n / n!` is below `2^-200`. -/
def seriesDegree (m : Nat) : Nat := 8 * (m / unitsPerOne + 1) + 40

/-- The double nearest to the series of parity `i` at `m · 2^-1074`, summed up to
`seriesDegree m`; `neg` is the sign the result has when the sum is positive. -/
def ofSeries (neg : Bool) (m i : Nat) : Double :=
  let deg := seriesDegree m
  let parts := seriesParts m unitsPerOne deg i
  let den := unitsPerOne ^ deg * Nat.factorial deg
  if parts.2 ≤ parts.1 then nearestDouble neg ((parts.1 - parts.2) * unitsPerOne) den
  else nearestDouble (!neg) ((parts.2 - parts.1) * unitsPerOne) den

/-- `Math.sin(x)`, which ECMAScript leaves implementation-approximated: here the double
nearest to the sine, `x` itself for a zero, `NaN` for an infinity. -/
def Double.sin : Double → Double
  | .nan => .nan
  | .inf _ => .nan
  | .fin a m => if m = 0 then .fin a 0 else ofSeries a m 1

/-- `Math.cos(x)`, which ECMAScript leaves implementation-approximated: here the double
nearest to the cosine, `NaN` for an infinity. -/
def Double.cos : Double → Double
  | .nan => .nan
  | .inf _ => .nan
  | .fin _ m => ofSeries false m 0

/-- The integer part of `π · 2^256`. -/
def piScaled : Nat := 0x3243F6A8885A308D313198A2E03707344A4093822299F31D0082EFA98EC4E6C89

/-- Euler's series for the arc tangent of `t = p / q`, `0 < p ≤ q`, summed to `terms`
terms and returned as a numerator and a denominator:
`atan t = t / (1 + t²) · Σ c_n z^n` with `z = t² / (1 + t²) ≤ 1/2`, `c_0 = 1` and
`c_n = c_(n-1) · 2n / (2n + 1)`. -/
def atanEuler (p q : Nat) (terms : Nat) : Nat × Nat :=
  let z := (List.range terms).foldr
    (fun n acc =>
      ((2 * n + 3) * (p * p + q * q) * acc.2 + (2 * n + 2) * (p * p) * acc.1,
        (2 * n + 3) * (p * p + q * q) * acc.2))
    (1, 1)
  (p * q * z.1, (p * p + q * q) * z.2)

/-- The number of terms of `atanEuler`: the rest after them is below `2^-200`. -/
def atanTerms : Nat := 200

/-- The angle, between `0` and `π`, of the point with the ordinate `m > 0` and the
abscissa `k`, negated when `xneg`; a numerator and a denominator. -/
def angleOf (m : Nat) (xneg : Bool) (k : Nat) : Nat × Nat :=
  let scale := 2 ^ 256
  let acute : Nat × Nat :=
    if k = 0 then (piScaled, 2 * scale)
    else if m ≤ k then atanEuler m k atanTerms
    else
      let r := atanEuler k m atanTerms
      (piScaled * r.2 - 2 * scale * r.1, 2 * scale * r.2)
  if xneg then (piScaled * acute.2 - scale * acute.1, scale * acute.2) else acute

/-- `Math.atan2(y, x)`, which ECMAScript leaves implementation-approximated: here the
double nearest to the angle of the point `(x, y)`, with the sign of `y`, and the values
ECMAScript lists for zeros and infinities. -/
def Double.atan2 : Double → Double → Double
  | .nan, _ => .nan
  | _, .nan => .nan
  | .inf a, .inf b =>
    if b then nearestDouble a (3 * piScaled * unitsPerOne) (4 * 2 ^ 256)
    else nearestDouble a (piScaled * unitsPerOne) (4 * 2 ^ 256)
  | .inf a, .fin _ _ => nearestDouble a (piScaled * unitsPerOne) (2 * 2 ^ 256)
  | .fin a _, .inf b =>
    if b then nearestDouble a (piScaled * unitsPerOne) (2 ^ 256) else .fin a 0
  | .fin a m, .fin b k =>
    if m = 0 then
      (if b then nearestDouble a (piScaled * unitsPerOne) (2 ^ 256) else .fin a 0)
    else nearestDouble a ((angleOf m b k).1 * unitsPerOne) (angleOf m b k).2

/-- The arithmetic of the program.  `+`, `-`, `*`, `/`, `<` and `Math.sqrt` are those
of IEEE 754 in the format binary64, rounded to nearest with ties to even, as ECMAScript
prescribes; an integer literal and `0.1` are the doubles nearest to them; `Math.PI` is
`884279719003555 · 2^-48`.  `Math.sin`, `Math.cos` and `Math.atan2` return the double
nearest to the exact value. -/
def binary64 : Arith Double where
  add := Double.add
  sub := Double.sub
  mul := Double.mul
  div := Double.div
  sin := Double.sin
  cos := Double.cos
  sqrt := Double.sqrt
  atan2 := Double.atan2
  lit n := nearestDouble false (n * unitsPerOne) 1
  pi := Double.fin false (884279719003555 * 2 ^ 1026)
  tenth := nearestDouble false unitsPerOne 10
  infinity := Double.inf false
  lt := Double.lt

/-! ## The location history in the words of the specification -/

/-- The history after the calls `recordLocationHistory(op.1, op.2.1)` for the `ops`, in
order; `op.2.2` is the time of the call. -/
def recordAll {F : Type} (ops : List (Location F × Str × Str)) (s : HistoryStorage F) :
    HistoryStorage F :=
  ops.foldl (fun s op => recordLocationHistory op.1 op.2.1 op.2.2 s) s

/-- The history entry a call `op` records. -/
def entryOf {F : Type} (op : Location F × Str × Str) : HistoryEntry F :=
  ⟨op.1, op.2.1, op.2.2⟩

/-! ## The registry in the words of the specification -/

/-- The upsert of the specification: the first entry with the name `name` is replaced
where it stands; without such an entry the new entry is appended. -/
def upsert {F : Type} (name : Str) (location : Location F) :
    List (KnownField F) → List (KnownField F)
  | [] => [⟨name, location⟩]
  | f :: fs =>
    if f.name = name then ⟨name, location⟩ :: fs else f :: upsert name location fs

/-- The registry after the calls `saveKnownField(op.1, op.2)` for the `ops`, in order. -/
def saveAll {F : Type} (ops : List (Str × Location F)) (s : Storage F) : Storage F :=
  ops.foldl (fun s op => saveKnownField op.1 op.2 s) s

/-! ## The states the recogniser can reach -/

/-- The states of a recogniser with the fields `env`: the state after the constructor,
the states after a handler of the engine object has run (there are handlers only when
there is an engine object), after `startRecording` or `stopRecording`, and after code
outside the class, which never writes `isRecording`, has changed anything else. -/
inductive Reachable (env : Engine) : State → Prop
  | construct (page : State) : Reachable env (construct env page)
  | onstart (s : State) : env.recognition = true → Reachable env s → Reachable env (onstart s)
  | onresult (event : ResultEvent) (s : State) :
      env.recognition = true → Reachable env s → Reachable env (onresult event s)
  | onerror (error : Str) (s : State) :
      env.recognition = true → Reachable env s → Reachable env (onerror error s)
  | onend (s : State) : env.recognition = true → Reachable env s → Reachable env (onend s)
  | startRecording (s : State) : Reachable env s → Reachable env (startRecording env s).1
  | stopRecording (s : State) : Reachable env s → Reachable env (stopRecording env s).1
  | other (s t : State) : Reachable env s → t.isRecording = s.isRecording → Reachable env t

/-! ## Characters without case -/

theorem ofNat_sub_isAlpha (k : Nat) (h1 : 97 ≤ k) (h2 : k ≤ 122) :
    (Char.ofNat (k - 32)).isAlpha = true := by
  interval_cases k <;> decide

theorem ofNat_add_isAlpha (k : Nat) (h1 : 65 ≤ k) (h2 : k ≤ 90) :
    (Char.ofNat (k + 32)).isAlpha = true := by
  interval_cases k <;> decide

theorem toUpper_eq_or_isAlpha (c : Char) : c.toUpper = c ∨ c.toUpper.isAlpha = true := by
  unfold Char.toUpper
  by_cases h : c.toNat ≥ 97 ∧ c.toNat ≤ 122
  · right; simp only [h, and_self, if_true]; exact ofNat_sub_isAlpha _ h.1 h.2
  · left; simp only [h, if_false]

theorem toLower_eq_or_isAlpha (c : Char) : c.toLower = c ∨ c.toLower.isAlpha = true := by
  unfold Char.toLower
  by_cases h : c.toNat ≥ 65 ∧ c.toNat ≤ 90
  · right; simp only [h, and_self, if_true]; exact ofNat_add_isAlpha _ h.1 h.2
  · left; simp only [h, if_false]

theorem toUpper_of_not_isAlpha (c : Char) (h : c.isAlpha = false) : c.toUpper = c := by
  unfold Char.toUpper
  have h2 : ¬ (c.toNat ≥ 97 ∧ c.toNat ≤ 122) := by
    intro hh
    have : c.isAlpha = true := by
      simp only [Char.isAlpha, Char.isLower, Char.isUpper, Bool.or_eq_true, Bool.and_eq_true,
        decide_eq_true_eq]
      right
      exact ⟨hh.1, hh.2⟩
    rw [h] at this; cases this
  simp only [h2, if_false]

theorem toLower_of_not_isAlpha (c : Char) (h : c.isAlpha = false) : c.toLower = c := by
  unfold Char.toLower
  have h2 : ¬ (c.toNat ≥ 65 ∧ c.toNat ≤ 90) := by
    intro hh
    have : c.isAlpha = true := by
      simp only [Char.isAlpha, Char.isLower, Char.isUpper, Bool.or_eq_true, Bool.and_eq_true,
        decide_eq_true_eq]
      left
      exact ⟨hh.1, hh.2⟩
    rw [h] at this; cases this
  simp only [h2, if_false]

/-- Under the `i` flag a character without case matches itself only. -/
theorem canonicalize_beq (p c : Char) (hp : p.isAlpha = false) :
    (canonicalize p == canonicalize c) = (p == c) := by
  unfold canonicalize
  rw [toUpper_of_not_isAlpha p hp]
  rcases toUpper_eq_or_isAlpha c with h | h
  · rw [h]
  · have hne : p ≠ c.toUpper := by
      intro e; rw [← e, hp] at h; cases h
    have hne2 : p ≠ c := by
      intro e
      rw [← e, toUpper_of_not_isAlpha p hp, hp] at h; cases h
    simp [hne, hne2]

theorem matchesAtCI_eq_isPrefixOf (pat : Str) (hp : ∀ p ∈ pat, p.isAlpha = false) (s : Str) :
    matchesAtCI pat s = pat.isPrefixOf s := by
  induction pat generalizing s with
  | nil => cases s <;> rfl
  | cons p ps ih =>
    cases s with
    | nil => rfl
    | cons c cs =>
      simp only [matchesAtCI, List.isPrefixOf]
      rw [canonicalize_beq p c (hp p (List.mem_cons_self _ _)),
        ih (fun q hq => hp q (List.mem_cons_of_mem _ hq))]

/-! ## Substring search -/

theorem isPrefixOf_iff (pat s : Str) : pat.isPrefixOf s = true ↔ pat <+: s :=
  List.isPrefixOf_iff_prefix

theorem includes_iff (s pat : Str) : includes s pat = true ↔ pat <:+: s := by
  induction s with
  | nil =>
    simp only [includes, List.isEmpty_iff]
    constructor
    · intro h; rw [h]
    · intro h; exact List.eq_nil_of_infix_nil h
  | cons c cs ih =>
    simp only [includes, Bool.or_eq_true, isPrefixOf_iff, ih]
    rw [List.infix_cons_iff]

theorem includes_eq_false_iff (s pat : Str) : includes s pat = false ↔ ¬ pat <:+: s := by
  rw [← includes_iff]; simp

/-! ## Normalisation of a text without spoken forms -/

theorem replaceScan_of_absent (pat rep : Str) (hp : ∀ p ∈ pat, p.isAlpha = false)
    (s : Str) (h : ¬ pat <:+: s) : replaceScan pat rep 0 s = s := by
  induction s with
  | nil => rfl
  | cons c cs ih =>
    have hpre : matchesAtCI pat (c :: cs) = false := by
      rw [matchesAtCI_eq_isPrefixOf pat hp]
      cases hb : pat.isPrefixOf (c :: cs) with
      | false => rfl
      | true => exact absurd ((isPrefixOf_iff _ _).1 hb).isInfix h
    have hcs : ¬ pat <:+: cs := fun hh => h (List.infix_cons hh)
    simp only [replaceScan, hpre, Bool.false_eq_true, if_false, ih hcs]

theorem replaceAllCI_of_absent (pat rep : Str) (hp : ∀ p ∈ pat, p.isAlpha = false)
    (s : Str) (h : ¬ pat <:+: s) : replaceAllCI pat rep s = s := by
  cases pat with
  | nil => exact absurd List.nil_infix h
  | cons p ps => exact replaceScan_of_absent (p :: ps) rep hp s h

theorem normalizeWith_of_absent (terms : List TermEntry)
    (hp : ∀ e ∈ terms, ∀ p ∈ e.term, p.isAlpha = false)
    (s : Str) (h : ∀ e ∈ terms, ¬ e.term <:+: s) : normalizeWith terms s = s := by
  induction terms with
  | nil => rfl
  | cons e es ih =>
    have he : replaceAllCI e.term e.normalized s = s :=
      replaceAllCI_of_absent _ _ (hp e (List.mem_cons_self _ _)) s
        (h e (List.mem_cons_self _ _))
    show normalizeWith es (replaceAllCI e.term e.normalized s) = s
    rw [he]
    exact ih (fun x hx => hp x (List.mem_cons_of_mem _ hx))
      (fun x hx => h x (List.mem_cons_of_mem _ hx))

/-- The spoken forms of the dictionary are made of characters without case. -/
theorem agriculturalTerms_caseless :
    ∀ e ∈ agriculturalTerms, ∀ p ∈ e.term, p.isAlpha = false := by
  decide

/-- C3: a text that contains no spoken form of the dictionary as a substring is its
own normalisation; hence a text whose normalisation contains no spoken form is
normalised to the same text by a second pass. -/
theorem normalize_stable_without_spoken_forms :
    (∀ T : Str, (∀ e ∈ agriculturalTerms, ¬ e.term <:+: T) → normalize T = T) ∧
    (∀ T : Str, (∀ e ∈ agriculturalTerms, ¬ e.term <:+: normalize T) →
      normalize (normalize T) = normalize T) := by
  have key : ∀ T : Str, (∀ e ∈ agriculturalTerms, ¬ e.term <:+: T) → normalize T = T :=
    fun T h => normalizeWith_of_absent agriculturalTerms agriculturalTerms_caseless T h
  exact ⟨key, fun T h => key (normalize T) h⟩

theorem normalize_stable_without_spoken_forms_witness :
    normalize "田んぼ 3号".toList = "田んぼ 3号".toList ∧
    normalize (normalize "いね 5きろ".toList) = normalize "いね 5きろ".toList :=
  ⟨normalize_stable_without_spoken_forms.1 "田んぼ 3号".toList (by decide),
   normalize_stable_without_spoken_forms.2 "いね 5きろ".toList (by decide)⟩

/-! ## The blocks of `autoFillForm`, field by field -/

theorem inferWorkType_frame (l : Str) (f : Form) :
    (inferWorkType l f).cropType = f.cropType ∧ (inferWorkType l f).fieldName = f.fieldName ∧
    (inferWorkType l f).quantity = f.quantity ∧
    (inferWorkType l f).workDetails = f.workDetails := by
  unfold inferWorkType
  split_ifs <;> exact ⟨rfl, rfl, rfl, rfl⟩

theorem inferCropType_frame (l : Str) (f : Form) :
    (inferCropType l f).workType = f.workType ∧ (inferCropType l f).fieldName = f.fieldName ∧
    (inferCropType l f).quantity = f.quantity ∧
    (inferCropType l f).workDetails = f.workDetails := by
  unfold inferCropType
  split_ifs <;> exact ⟨rfl, rfl, rfl, rfl⟩

theorem extractFieldName_frame (t : Str) (f : Form) :
    (extractFieldName t f).workType = f.workType ∧
    (extractFieldName t f).cropType = f.cropType ∧
    (extractFieldName t f).quantity = f.quantity ∧
    (extractFieldName t f).workDetails = f.workDetails := by
  unfold extractFieldName
  cases fieldMatch t <;> exact ⟨rfl, rfl, rfl, rfl⟩

theorem extractQuantity_frame (t : Str) (f : Form) :
    (extractQuantity t f).workType = f.workType ∧
    (extractQuantity t f).cropType = f.cropType ∧
    (extractQuantity t f).fieldName = f.fieldName ∧
    (extractQuantity t f).workDetails = f.workDetails := by
  unfold extractQuantity
  cases quantityMatch t <;> exact ⟨rfl, rfl, rfl, rfl⟩

theorem fillWorkDetails_frame (t : Str) (f : Form) :
    (fillWorkDetails t f).workType = f.workType ∧
    (fillWorkDetails t f).cropType = f.cropType ∧
    (fillWorkDetails t f).fieldName = f.fieldName ∧
    (fillWorkDetails t f).quantity = f.quantity := by
  unfold fillWorkDetails
  split_ifs <;> exact ⟨rfl, rfl, rfl, rfl⟩

theorem autoFillForm_workType (t : Str) (f : Form) :
    (autoFillForm t f).workType = (inferWorkType (toLowerCase t) f).workType := by
  show (fillWorkDetails t (extractQuantity t (extractFieldName t
    (inferCropType (toLowerCase t) (inferWorkType (toLowerCase t) f))))).workType = _
  rw [(fillWorkDetails_frame _ _).1, (extractQuantity_frame _ _).1,
    (extractFieldName_frame _ _).1, (inferCropType_frame _ _).1]

theorem inferCropType_cropType_congr (l : Str) (f g : Form) (h : f.cropType = g.cropType) :
    (inferCropType l f).cropType = (inferCropType l g).cropType := by
  unfold inferCropType
  split_ifs <;> first | rfl | exact h

theorem autoFillForm_cropType (t : Str) (f : Form) :
    (autoFillForm t f).cropType = (inferCropType (toLowerCase t) f).cropType := by
  show (fillWorkDetails t (extractQuantity t (extractFieldName t
    (inferCropType (toLowerCase t) (inferWorkType (toLowerCase t) f))))).cropType = _
  rw [(fillWorkDetails_frame _ _).2.1, (extractQuantity_frame _ _).2.1,
    (extractFieldName_frame _ _).2.1]
  exact inferCropType_cropType_congr _ _ _ (inferWorkType_frame _ _).1

theorem extractFieldName_fieldName_congr (t : Str) (f g : Form)
    (h : f.fieldName = g.fieldName) :
    (extractFieldName t f).fieldName = (extractFieldName t g).fieldName := by
  unfold extractFieldName
  cases fieldMatch t with
  | some n => rfl
  | none => exact h

theorem autoFillForm_fieldName (t : Str) (f : Form) :
    (autoFillForm t f).fieldName = (extractFieldName t f).fieldName := by
  show (fillWorkDetails t (extractQuantity t (extractFieldName t
    (inferCropType (toLowerCase t) (inferWorkType (toLowerCase t) f))))).fieldName = _
  rw [(fillWorkDetails_frame _ _).2.2.1, (extractQuantity_frame _ _).2.2.1]
  apply extractFieldName_fieldName_congr
  rw [(inferCropType_frame _ _).2.1, (inferWorkType_frame _ _).2.1]

theorem extractQuantity_quantity_congr (t : Str) (f g : Form)
    (h : f.quantity = g.quantity) :
    (extractQuantity t f).quantity = (extractQuantity t g).quantity := by
  unfold extractQuantity
  cases quantityMatch t with
  | some r => rfl
  | none => exact h

theorem autoFillForm_quantity (t : Str) (f : Form) :
    (autoFillForm t f).quantity = (extractQuantity t f).quantity := by
  show (fillWorkDetails t (extractQuantity t (extractFieldName t
    (inferCropType (toLowerCase t) (inferWorkType (toLowerCase t) f))))).quantity = _
  rw [(fillWorkDetails_frame _ _).2.2.2]
  apply extractQuantity_quantity_congr
  rw [(extractFieldName_frame _ _).2.2.1, (inferCropType_frame _ _).2.2.1,
    (inferWorkType_frame _ _).2.2.1]

theorem fillWorkDetails_workDetails (t : Str) (f : Form) :
    (fillWorkDetails t f).workDetails = if trim f.workDetails = [] then t else f.workDetails := by
  unfold fillWorkDetails
  split_ifs <;> rfl

theorem autoFillForm_workDetails (t : Str) (f : Form) :
    (autoFillForm t f).workDetails = if trim f.workDetails = [] then t else f.workDetails := by
  show (fillWorkDetails t (extractQuantity t (extractFieldName t
    (inferCropType (toLowerCase t) (inferWorkType (toLowerCase t) f))))).workDetails = _
  rw [fillWorkDetails_workDetails, (extractQuantity_frame _ _).2.2.2,
    (extractFieldName_frame _ _).2.2.2, (inferCropType_frame _ _).2.2.2,
    (inferWorkType_frame _ _).2.2.2]

theorem inferWorkType_workType (l : Str) (f : Form) :
    (inferWorkType l f).workType =
      ((firstRule workTypeRules l).map Prod.snd).getD f.workType := by
  unfold inferWorkType firstRule workTypeRules
  simp only [List.find?, List.any, Bool.or_false]
  generalize (includes l "播種".toList || includes l "種まき".toList) = b1
  generalize (includes l "植付".toList || includes l "植え付け".toList) = b2
  generalize (includes l "施肥".toList || includes l "肥料".toList) = b3
  generalize (includes l "農薬".toList || includes l "散布".toList) = b4
  generalize (includes l "除草".toList || includes l "草取り".toList) = b5
  generalize (includes l "収穫".toList || includes l "刈り".toList) = b6
  generalize (includes l "点検".toList || includes l "確認".toList) = b7
  cases b1 <;> cases b2 <;> cases b3 <;> cases b4 <;> cases b5 <;> cases b6 <;> cases b7 <;> rfl

theorem inferCropType_cropType (l : Str) (f : Form) :
    (inferCropType l f).cropType =
      ((firstRule cropTypeRules l).map Prod.snd).getD f.cropType := by
  unfold inferCropType firstRule cropTypeRules
  simp only [List.find?, List.any, Bool.or_false]
  generalize (includes l "稲".toList || includes l "米".toList) = b1
  generalize (includes l "麦".toList) = b2
  generalize (includes l "トウモロコシ".toList) = b3
  generalize (includes l "大豆".toList) = b4
  generalize (includes l "ジャガイモ".toList) = b5
  generalize (includes l "トマト".toList) = b6
  generalize (includes l "キャベツ".toList) = b7
  generalize (includes l "レタス".toList) = b8
  cases b1 <;> cases b2 <;> cases b3 <;> cases b4 <;> cases b5 <;> cases b6 <;> cases b7 <;>
    cases b8 <;> rfl

/-! ## First-match-wins rule chains -/

theorem firstRule_of_split (rules : List (List Str × Str)) (s : Str)
    (pre : List (List Str × Str)) (r : List Str × Str) (post : List (List Str × Str))
    (hsplit : rules = pre ++ r :: post) (hr : ∃ k ∈ r.1, k <:+: s)
    (hpre : ∀ q ∈ pre, ∀ k ∈ q.1, ¬ k <:+: s) : firstRule rules s = some r := by
  unfold firstRule
  rw [List.find?_eq_some]
  refine ⟨?_, pre, post, hsplit, ?_⟩
  · rw [List.any_eq_true]
    obtain ⟨k, hk, hin⟩ := hr
    exact ⟨k, hk, (includes_iff s k).2 hin⟩
  · intro q hq
    rw [Bool.not_eq_true', List.any_eq_false]
    intro k hk
    rw [Bool.not_eq_true, includes_eq_false_iff]
    exact hpre q hq k hk

theorem firstRule_of_no_match (rules : List (List Str × Str)) (s : Str)
    (h : ∀ q ∈ rules, ∀ k ∈ q.1, ¬ k <:+: s) : firstRule rules s = none := by
  unfold firstRule
  rw [List.find?_eq_none]
  intro q hq
  rw [Bool.not_eq_true, List.any_eq_false]
  intro k hk
  rw [Bool.not_eq_true, includes_eq_false_iff]
  exact h q hq k hk

theorem map_toLower_eq_caseless (k : Str) (hk : ∀ c ∈ k, c.isAlpha = false) (l : Str)
    (h : l.map Char.toLower = k) : l = k := by
  induction l generalizing k with
  | nil => simpa using h
  | cons c cs ih =>
    cases k with
    | nil => simp at h
    | cons p ps =>
      simp only [List.map_cons, List.cons.injEq] at h
      have hp := hk p (List.mem_cons_self _ _)
      have hc : c = p := by
        rcases toLower_eq_or_isAlpha c with e | e
        · rw [← e]; exact h.1
        · rw [h.1, hp] at e; cases e
      rw [hc, ih ps (fun q hq => hk q (List.mem_cons_of_mem _ hq)) h.2]

theorem map_toLower_caseless (k : Str) (hk : ∀ c ∈ k, c.isAlpha = false) :
    k.map Char.toLower = k := by
  induction k with
  | nil => rfl
  | cons p ps ih =>
    rw [List.map_cons, toLower_of_not_isAlpha p (hk p (List.mem_cons_self _ _)),
      ih (fun q hq => hk q (List.mem_cons_of_mem _ hq))]

/-- A keyword made of characters without case occurs in the lower-cased text exactly
when it occurs in the text. -/
theorem infix_toLowerCase_iff (k : Str) (hk : ∀ c ∈ k, c.isAlpha = false) (text : Str) :
    k <:+: toLowerCase text ↔ k <:+: text := by
  unfold toLowerCase
  constructor
  · rintro ⟨a, b, h⟩
    obtain ⟨l1, l2, hl, h1, _⟩ := List.map_eq_append_iff.1 h.symm
    obtain ⟨l3, l4, hl1, _, h4⟩ := List.map_eq_append_iff.1 h1
    have : l4 = k := map_toLower_eq_caseless k hk l4 h4
    exact ⟨l3, l2, by rw [hl, hl1, this]⟩
  · rintro ⟨a, b, h⟩
    refine ⟨a.map Char.toLower, b.map Char.toLower, ?_⟩
    rw [← h, List.map_append, List.map_append, map_toLower_caseless k hk]

theorem getD_map_snd_idem (o : Option (List Str × Str)) (w : Str) :
    (o.map Prod.snd).getD ((o.map Prod.snd).getD w) = (o.map Prod.snd).getD w := by
  cases o <;> rfl

/-- C4: the work type `autoFillForm` writes is the type of the earliest rule, in the
order seeding, planting, fertilizing, pesticide, weeding, harvesting, inspection, one of
whose keywords occurs in the lower-cased text, whatever the later rules do; and a
repeated call with the same text leaves the same work type. -/
theorem workType_first_match_wins (text : Str) (form : Form) :
    (∀ pre r post, workTypeRules = pre ++ r :: post →
      (∃ k ∈ r.1, k <:+: toLowerCase text) →
      (∀ q ∈ pre, ∀ k ∈ q.1, ¬ k <:+: toLowerCase text) →
      (autoFillForm text form).workType = r.2) ∧
    (autoFillForm text (autoFillForm text form)).workType =
      (autoFillForm text form).workType := by
  constructor
  · intro pre r post hsplit hr hpre
    rw [autoFillForm_workType, inferWorkType_workType,
      firstRule_of_split workTypeRules _ pre r post hsplit hr hpre]
    rfl
  · rw [autoFillForm_workType text (autoFillForm text form), inferWorkType_workType,
      autoFillForm_workType, inferWorkType_workType]
    exact getD_map_snd_idem _ _

theorem workType_first_match_wins_witness :
    "収穫".toList <:+: toLowerCase "収穫の前に播種".toList ∧
    (autoFillForm "収穫の前に播種".toList ⟨[], [], [], [], []⟩).workType = "seeding".toList :=
  ⟨by decide,
   (workType_first_match_wins "収穫の前に播種".toList ⟨[], [], [], [], []⟩).1 []
    (["播種".toList, "種まき".toList], "seeding".toList) _ rfl
    ⟨"播種".toList, by decide, by decide⟩ (by simp)⟩

theorem cropTypeRules_caseless :
    ∀ r ∈ cropTypeRules, ∀ k ∈ r.1, ∀ c ∈ k, c.isAlpha = false := by
  decide

/-- C5: the crop type `autoFillForm` writes is the crop of the earliest rule, in the
order rice, wheat, corn, soybean, potato, tomato, cabbage, lettuce, whose keyword occurs
in the text, also when keywords of later crops occur in it. -/
theorem cropType_first_match_wins (text : Str) (form : Form) :
    ∀ pre r post, cropTypeRules = pre ++ r :: post →
      (∃ k ∈ r.1, k <:+: text) →
      (∀ q ∈ pre, ∀ k ∈ q.1, ¬ k <:+: text) →
      (autoFillForm text form).cropType = r.2 := by
  intro pre r post hsplit hr hpre
  have hmem : ∀ q ∈ pre ++ r :: post, q ∈ cropTypeRules := by
    intro q hq; rw [hsplit]; exact hq
  have hr2 : ∃ k ∈ r.1, k <:+: toLowerCase text := by
    obtain ⟨k, hk, hin⟩ := hr
    refine ⟨k, hk, (infix_toLowerCase_iff k ?_ text).2 hin⟩
    exact cropTypeRules_caseless r (hmem r (by simp)) k hk
  have hpre2 : ∀ q ∈ pre, ∀ k ∈ q.1, ¬ k <:+: toLowerCase text := by
    intro q hq k hk hin
    refine hpre q hq k hk ((infix_toLowerCase_iff k ?_ text).1 hin)
    exact cropTypeRules_caseless q (hmem q (by simp [hq])) k hk
  rw [autoFillForm_cropType, inferCropType_cropType,
    firstRule_of_split cropTypeRules _ pre r post hsplit hr2 hpre2]
  rfl

theorem cropType_first_match_wins_witness :
    "トマト".toList <:+: "トマトと麦".toList ∧
    (autoFillForm "トマトと麦".toList ⟨[], [], [], [], []⟩).cropType = "wheat".toList :=
  ⟨by decide,
   cropType_first_match_wins "トマトと麦".toList ⟨[], [], [], [], []⟩
    [(["稲".toList, "米".toList], "rice".toList)] (["麦".toList], "wheat".toList) _ rfl
    ⟨"麦".toList, by decide, by decide⟩ (by decide)⟩

/-! ## The leftmost-match search -/

theorem regexSearch_eq_none {α : Type} (f : Str → Option α) (s : Str) :
    regexSearch f s = none ↔ ∀ pre post, s = pre ++ post → f post = none := by
  induction s with
  | nil =>
    simp only [regexSearch]
    constructor
    · intro h pre post e
      have := List.append_eq_nil.1 e.symm
      rw [this.2]; exact h
    · intro h; exact h [] [] rfl
  | cons c cs ih =>
    simp only [regexSearch]
    cases hf : f (c :: cs) with
    | some r =>
      simp only [false_iff, reduceCtorEq]
      intro h
      have := h [] (c :: cs) rfl
      rw [hf] at this; cases this
    | none =>
      simp only []
      rw [ih]
      constructor
      · intro h pre post e
        cases pre with
        | nil => rw [List.nil_append] at e; rw [← e]; exact hf
        | cons p ps =>
          rw [List.cons_append, List.cons.injEq] at e
          exact h ps post e.2
      · intro h pre post e
        exact h (c :: pre) post (by rw [e]; rfl)

theorem regexSearch_eq_some {α : Type} (f : Str → Option α) (s : Str) (r : α) :
    regexSearch f s = some r ↔
      ∃ pre post, s = pre ++ post ∧ f post = some r ∧
        ∀ pre2 post2, s = pre2 ++ post2 → pre2.length < pre.length → f post2 = none := by
  induction s with
  | nil =>
    simp only [regexSearch]
    constructor
    · intro h
      exact ⟨[], [], rfl, h, fun _ _ _ hl => absurd hl (Nat.not_lt_zero _)⟩
    · rintro ⟨pre, post, e, h, _⟩
      have := List.append_eq_nil.1 e.symm
      rw [this.2] at h; exact h
  | cons c cs ih =>
    simp only [regexSearch]
    cases hf : f (c :: cs) with
    | some r0 =>
      simp only []
      constructor
      · intro h
        refine ⟨[], c :: cs, rfl, ?_, fun _ _ _ hl => absurd hl (Nat.not_lt_zero _)⟩
        rw [hf]; exact h
      · rintro ⟨pre, post, e, h, hmin⟩
        cases pre with
        | nil =>
          rw [List.nil_append] at e; rw [← e, hf] at h; exact h
        | cons p ps =>
          have := hmin [] (c :: cs) rfl (by simp)
          rw [hf] at this; cases this
    | none =>
      simp only []
      rw [ih]
      constructor
      · rintro ⟨pre, post, e, h, hmin⟩
        refine ⟨c :: pre, post, by rw [e]; rfl, h, ?_⟩
        intro pre2 post2 e2 hl
        cases pre2 with
        | nil => rw [List.nil_append] at e2; rw [← e2]; exact hf
        | cons p ps =>
          rw [List.cons_append, List.cons.injEq] at e2
          exact hmin ps post2 e2.2 (by simpa using hl)
      · rintro ⟨pre, post, e, h, hmin⟩
        cases pre with
        | nil =>
          rw [List.nil_append] at e; rw [← e, hf] at h; cases h
        | cons p ps =>
          rw [List.cons_append, List.cons.injEq] at e
          refine ⟨ps, post, e.2, h, ?_⟩
          intro pre2 post2 e2 hl
          exact hmin (c :: pre2) post2 (by rw [e2]; rfl) (by simpa using hl)

/-! ## The field-name pattern -/

theorem isFieldMarker_not_isDigit (m : Char) (h : isFieldMarker m = true) :
    isDigit m = false := by
  simp only [isFieldMarker, Bool.or_eq_true, beq_iff_eq] at h
  rcases h with ((((((h | h) | h) | h) | h) | h) | h) | h <;> subst h <;> decide

theorem fieldMatchAt_of_not_isDigit (c : Char) (cs : Str) (h : isDigit c = false) :
    fieldMatchAt (c :: cs) = none := by
  simp only [fieldMatchAt, h, Bool.false_eq_true, if_false]

theorem fieldMatchAt_eq_some (s ds : Str) :
    fieldMatchAt s = some ds ↔
      ds ≠ [] ∧ (∀ c ∈ ds, isDigit c = true) ∧
        ∃ m post, isFieldMarker m = true ∧ s = ds ++ m :: post := by
  induction s generalizing ds with
  | nil =>
    simp only [fieldMatchAt, false_iff, reduceCtorEq]
    rintro ⟨_, _, m, post, _, e⟩
    cases ds <;> cases e
  | cons c cs ih =>
    by_cases hc : isDigit c = true
    · simp only [fieldMatchAt, hc, if_true]
      cases hrec : fieldMatchAt cs with
      | some ds1 =>
        obtain ⟨hne, hdig, m, post, hm, e⟩ := (ih ds1).1 hrec
        simp only [Option.some.injEq]
        constructor
        · intro h
          subst h
          refine ⟨by simp, ?_, m, post, hm, by rw [e]; rfl⟩
          intro x hx
          rcases List.mem_cons.1 hx with h | h
          · rw [h]; exact hc
          · exact hdig x h
        · rintro ⟨hne2, hdig2, m2, post2, hm2, e2⟩
          cases ds with
          | nil => exact absurd rfl hne2
          | cons d ds2 =>
            rw [List.cons_append, List.cons.injEq] at e2
            cases ds2 with
            | nil =>
              rw [List.nil_append] at e2
              rw [e2.2, fieldMatchAt_of_not_isDigit m2 post2
                (isFieldMarker_not_isDigit m2 hm2)] at hrec
              cases hrec
            | cons d2 ds3 =>
              have : fieldMatchAt cs = some (d2 :: ds3) :=
                (ih (d2 :: ds3)).2 ⟨by simp,
                  fun x hx => hdig2 x (List.mem_cons_of_mem _ hx), m2, post2, hm2, e2.2⟩
              rw [hrec, Option.some.injEq] at this
              rw [e2.1, this]
      | none =>
        simp only []
        constructor
        · intro h
          cases cs with
          | nil => simp at h
          | cons m rest =>
            simp only [] at h
            by_cases hm : isFieldMarker m = true
            · simp only [hm, if_true, Option.some.injEq] at h
              subst h
              refine ⟨by simp, ?_, m, rest, hm, rfl⟩
              intro x hx
              rw [List.mem_singleton.1 hx]; exact hc
            · simp only [hm, if_false, reduceCtorEq] at h
        · rintro ⟨hne2, hdig2, m2, post2, hm2, e2⟩
          cases ds with
          | nil => exact absurd rfl hne2
          | cons d ds2 =>
            rw [List.cons_append, List.cons.injEq] at e2
            cases ds2 with
            | nil =>
              rw [List.nil_append] at e2
              rw [e2.2]
              simp only [hm2, if_true, e2.1]
            | cons d2 ds3 =>
              have : fieldMatchAt cs = some (d2 :: ds3) :=
                (ih (d2 :: ds3)).2 ⟨by simp,
                  fun x hx => hdig2 x (List.mem_cons_of_mem _ hx), m2, post2, hm2, e2.2⟩
              rw [hrec] at this; cases this
    · have hc2 : isDigit c = false := by simpa using hc
      rw [fieldMatchAt_of_not_isDigit c cs hc2]
      simp only [false_iff, reduceCtorEq]
      rintro ⟨hne2, hdig2, m2, post2, hm2, e2⟩
      cases ds with
      | nil => exact absurd rfl hne2
      | cons d ds2 =>
        rw [List.cons_append, List.cons.injEq] at e2
        have := hdig2 d (List.mem_cons_self _ _)
        rw [← e2.1, hc2] at this; cases this

theorem fieldMatchAt_digit_marker (d m : Char) (b : Str) (hd : isDigit d = true)
    (hm : isFieldMarker m = true) : fieldMatchAt (d :: m :: b) = some [d] :=
  (fieldMatchAt_eq_some (d :: m :: b) [d]).2
    ⟨by simp, fun x hx => by rw [List.mem_singleton.1 hx]; exact hd, m, b, hm, rfl⟩

theorem fieldMatch_eq_none_iff (text : Str) :
    fieldMatch text = none ↔
      ¬ ∃ a d m b, text = a ++ d :: m :: b ∧ isDigit d = true ∧ isFieldMarker m = true := by
  unfold fieldMatch
  rw [regexSearch_eq_none]
  constructor
  · rintro h ⟨a, d, m, b, e, hd, hm⟩
    have := h a (d :: m :: b) e
    rw [fieldMatchAt_digit_marker d m b hd hm] at this; cases this
  · intro h pre post e
    cases hf : fieldMatchAt post with
    | none => rfl
    | some ds =>
      exfalso
      obtain ⟨hne, hdig, m, post2, hm, e2⟩ := (fieldMatchAt_eq_some post ds).1 hf
      obtain ⟨ds0, d, hds⟩ : ∃ ds0 d, ds = ds0 ++ [d] :=
        ⟨ds.dropLast, ds.getLast hne, (List.dropLast_append_getLast hne).symm⟩
      refine h ⟨pre ++ ds0, d, m, post2, ?_, hdig d (by simp [hds]), hm⟩
      rw [e, e2, hds]; simp

theorem extractFieldName_of_some (text : Str) (form : Form) (ds : Str)
    (h : fieldMatch text = some ds) :
    (extractFieldName text form).fieldName = "第".toList ++ ds ++ "圃場".toList := by
  unfold extractFieldName; rw [h]

theorem extractFieldName_of_none (text : Str) (form : Form) (h : fieldMatch text = none) :
    extractFieldName text form = form := by
  unfold extractFieldName; rw [h]

/-- The pattern as the code has it: when some ASCII digit of the text is immediately
followed by a character the bracket expression accepts (one of `号`, `圃`, `場`, `|`),
`autoFillForm` writes `第` + N + `圃場` to `fieldName`, where N is the digit run in front
of the leftmost such character, taken whole: the run is not preceded by a further digit,
and no digit anywhere to its left is followed by such a character. -/
theorem fieldName_from_leftmost_occurrence (text : Str) (form : Form)
    (h : ∃ a d m b, text = a ++ d :: m :: b ∧ isDigit d = true ∧ isFieldMarker m = true) :
    ∃ pre ds m post, text = pre ++ ds ++ m :: post ∧ ds ≠ [] ∧
      (∀ c ∈ ds, isDigit c = true) ∧ isFieldMarker m = true ∧
      (∀ p c, pre = p ++ [c] → isDigit c = false) ∧
      (∀ a d k b, text = a ++ d :: k :: b → isDigit d = true → isFieldMarker k = true →
        pre.length + ds.length ≤ a.length + 1) ∧
      (autoFillForm text form).fieldName = "第".toList ++ ds ++ "圃場".toList := by
  cases hfm : fieldMatch text with
  | none => exact absurd h ((fieldMatch_eq_none_iff text).1 hfm)
  | some ds =>
    have hfm2 := hfm
    unfold fieldMatch at hfm2
    obtain ⟨pre, post0, e, hat, hmin⟩ := (regexSearch_eq_some _ _ _).1 hfm2
    obtain ⟨hne, hdig, m, post, hm, e2⟩ := (fieldMatchAt_eq_some post0 ds).1 hat
    have htext : text = pre ++ ds ++ m :: post := by rw [e, e2, List.append_assoc]
    refine ⟨pre, ds, m, post, htext, hne, hdig, hm, ?_, ?_, ?_⟩
    · intro p c hp
      cases hc : isDigit c with
      | false => rfl
      | true =>
        exfalso
        have h1 : fieldMatchAt (c :: post0) = some (c :: ds) :=
          (fieldMatchAt_eq_some (c :: post0) (c :: ds)).2
            ⟨by simp, fun x hx => by
              rcases List.mem_cons.1 hx with hx | hx
              · rw [hx]; exact hc
              · exact hdig x hx, m, post, hm, by rw [e2]; rfl⟩
        have h2 := hmin p (c :: post0) (by rw [e, hp]; simp) (by rw [hp]; simp)
        rw [h1] at h2; cases h2
    · intro a d k b ea hd hk
      by_contra hlt
      rw [Nat.not_le] at hlt
      by_cases hap : a.length < pre.length
      · have h2 := hmin a (d :: k :: b) ea hap
        rw [fieldMatchAt_digit_marker d k b hd hk] at h2; cases h2
      · rw [Nat.not_lt] at hap
        have g1 : text[a.length + 1]? = some k := by
          rw [ea, List.getElem?_append_right (Nat.le_add_right _ _), Nat.add_sub_cancel_left]
          simp
        have hj : a.length + 1 - pre.length < ds.length := by omega
        have g2 : text[a.length + 1]? = some (ds.get ⟨a.length + 1 - pre.length, hj⟩) := by
          rw [htext, List.append_assoc, List.getElem?_append_right (by omega),
            List.getElem?_append_left hj]
          simp
        rw [g1, Option.some.injEq] at g2
        have hkd : isDigit k = true := by
          rw [g2]; exact hdig _ (List.get_mem _ _ _)
        rw [isFieldMarker_not_isDigit k hk] at hkd; cases hkd
    · rw [autoFillForm_fieldName]
      exact extractFieldName_of_some text form ds hfm

theorem fieldName_from_leftmost_occurrence_witness :
    ∃ pre ds m post, "畑12号圃場と4号".toList = pre ++ ds ++ m :: post ∧ ds ≠ [] ∧
      (∀ c ∈ ds, isDigit c = true) ∧ isFieldMarker m = true ∧
      (∀ p c, pre = p ++ [c] → isDigit c = false) ∧
      (∀ a d k b, "畑12号圃場と4号".toList = a ++ d :: k :: b → isDigit d = true →
        isFieldMarker k = true → pre.length + ds.length ≤ a.length + 1) ∧
      (autoFillForm "畑12号圃場と4号".toList ⟨[], [], [], [], []⟩).fieldName =
        "第".toList ++ ds ++ "圃場".toList :=
  fieldName_from_leftmost_occurrence "畑12号圃場と4号".toList ⟨[], [], [], [], []⟩
    ⟨"畑1".toList, '2', '号', "圃場と4号".toList, by decide, by decide, by decide⟩

/-- C7: in the text `3場` no digit is followed by one of the tokens `号圃場`, `圃場`,
`号`, and `autoFillForm` writes `第3圃場` to `fieldName` all the same: the bracket
expression of the pattern accepts the single character `場`. -/
theorem fieldName_written_without_designator_token :
    hasDigitBeforeToken fieldDesignatorTokens "3場".toList = false ∧
    (autoFillForm "3場".toList ⟨[], [], [], [], []⟩).fieldName = "第3圃場".toList := by
  decide

/-! ## Absent matches -/

theorem form_eq_of_fields (f g : Form) (h1 : f.workType = g.workType)
    (h2 : f.cropType = g.cropType) (h3 : f.fieldName = g.fieldName)
    (h4 : f.quantity = g.quantity) (h5 : f.workDetails = g.workDetails) : f = g := by
  cases f; cases g; simp_all

theorem inferWorkType_of_no_match (l : Str) (f : Form)
    (h : firstRule workTypeRules l = none) : inferWorkType l f = f := by
  obtain ⟨h2, h3, h4, h5⟩ := inferWorkType_frame l f
  refine form_eq_of_fields _ _ ?_ h2 h3 h4 h5
  rw [inferWorkType_workType, h]; rfl

theorem inferCropType_of_no_match (l : Str) (f : Form)
    (h : firstRule cropTypeRules l = none) : inferCropType l f = f := by
  obtain ⟨h1, h3, h4, h5⟩ := inferCropType_frame l f
  refine form_eq_of_fields _ _ h1 ?_ h3 h4 h5
  rw [inferCropType_cropType, h]; rfl

theorem extractQuantity_of_none (text : Str) (form : Form) (h : quantityMatch text = none) :
    extractQuantity text form = form := by
  unfold extractQuantity; rw [h]

/-- C9: a pass of `autoFillForm` that finds no match leaves its control as it was, for
each of `workType`, `cropType`, `fieldName` and `quantity`; when no pass finds
anything `autoFillForm` still returns, and the form it returns differs from the prior
one at most in `workDetails`. -/
theorem absence_never_overwrites (text : Str) (form : Form) :
    ((∀ r ∈ workTypeRules, ∀ k ∈ r.1, ¬ k <:+: toLowerCase text) →
      (autoFillForm text form).workType = form.workType) ∧
    ((∀ r ∈ cropTypeRules, ∀ k ∈ r.1, ¬ k <:+: toLowerCase text) →
      (autoFillForm text form).cropType = form.cropType) ∧
    (fieldMatch text = none → (autoFillForm text form).fieldName = form.fieldName) ∧
    (quantityMatch text = none → (autoFillForm text form).quantity = form.quantity) ∧
    ((∀ r ∈ workTypeRules, ∀ k ∈ r.1, ¬ k <:+: toLowerCase text) →
      (∀ r ∈ cropTypeRules, ∀ k ∈ r.1, ¬ k <:+: toLowerCase text) →
      fieldMatch text = none → quantityMatch text = none →
      autoFillForm text form =
        { form with workDetails := if trim form.workDetails = [] then text
                                   else form.workDetails }) := by
  refine ⟨?_, ?_, ?_, ?_, ?_⟩
  · intro h
    rw [autoFillForm_workType, inferWorkType_of_no_match _ _ (firstRule_of_no_match _ _ h)]
  · intro h
    rw [autoFillForm_cropType, inferCropType_of_no_match _ _ (firstRule_of_no_match _ _ h)]
  · intro h
    rw [autoFillForm_fieldName, extractFieldName_of_none _ _ h]
  · intro h
    rw [autoFillForm_quantity, extractQuantity_of_none _ _ h]
  · intro hw hc hf hq
    show fillWorkDetails text (extractQuantity text (extractFieldName text
      (inferCropType (toLowerCase text) (inferWorkType (toLowerCase text) form)))) = _
    rw [inferWorkType_of_no_match _ _ (firstRule_of_no_match _ _ hw),
      inferCropType_of_no_match _ _ (firstRule_of_no_match _ _ hc),
      extractFieldName_of_none _ _ hf, extractQuantity_of_none _ _ hq]
    unfold fillWorkDetails
    split_ifs <;> rfl

theorem absence_never_overwrites_witness :
    autoFillForm "こんにちは".toList
        ⟨"weeding".toList, "rice".toList, "第1圃場".toList, "3kg".toList, "メモ".toList⟩ =
      ⟨"weeding".toList, "rice".toList, "第1圃場".toList, "3kg".toList, "メモ".toList⟩ :=
  (absence_never_overwrites "こんにちは".toList
    ⟨"weeding".toList, "rice".toList, "第1圃場".toList, "3kg".toList, "メモ".toList⟩).2.2.2.2
    (by decide) (by decide) (by decide) (by decide)

/-! ## The work-details control -/

theorem dropWhile_eq_nil_iff_all (s : Str) :
    s.dropWhile isWhiteSpace = [] ↔ ∀ c ∈ s, isWhiteSpace c = true :=
  List.dropWhile_eq_nil_iff

theorem trim_eq_nil_iff (s : Str) : trim s = [] ↔ ∀ c ∈ s, isWhiteSpace c = true := by
  unfold trim
  rw [List.reverse_eq_nil_iff, dropWhile_eq_nil_iff_all]
  constructor
  · intro h
    cases hd : s.dropWhile isWhiteSpace with
    | nil => exact (dropWhile_eq_nil_iff_all s).1 hd
    | cons c cs =>
      exfalso
      have h1 : isWhiteSpace c = true := h c (by rw [hd]; simp)
      have h2 := List.head_dropWhile_not isWhiteSpace s (by rw [hd]; simp)
      simp only [hd, List.head_cons] at h2
      rw [h1] at h2; cases h2
  · intro h c hc
    rw [(dropWhile_eq_nil_iff_all s).2 h] at hc
    simp at hc

/-- C10 as the claim states it fails: a `workDetails` control that holds a single space
holds text, and `autoFillForm` replaces it by the raw text. -/
theorem workDetails_blank_is_overwritten :
    (⟨[], [], [], [], " ".toList⟩ : Form).workDetails ≠ [] ∧
    (autoFillForm "播種".toList ⟨[], [], [], [], " ".toList⟩).workDetails ≠
      (⟨[], [], [], [], " ".toList⟩ : Form).workDetails := by
  decide

/-- C10, amended: when the `workDetails` control is empty or holds white space only
(its trimmed value is empty) it becomes exactly the raw text; when it holds any other
character it is left unchanged. -/
theorem workDetails_filled_when_blank (text : Str) (form : Form) :
    ((∀ c ∈ form.workDetails, isWhiteSpace c = true) →
      (autoFillForm text form).workDetails = text) ∧
    ((∃ c ∈ form.workDetails, isWhiteSpace c = false) →
      (autoFillForm text form).workDetails = form.workDetails) ∧
    (form.workDetails = [] → (autoFillForm text form).workDetails = text) := by
  refine ⟨?_, ?_, ?_⟩
  · intro h
    rw [autoFillForm_workDetails, if_pos ((trim_eq_nil_iff _).2 h)]
  · rintro ⟨c, hc, hw⟩
    have : ¬ trim form.workDetails = [] := by
      intro ht
      have := (trim_eq_nil_iff _).1 ht c hc
      rw [hw] at this; cases this
    rw [autoFillForm_workDetails, if_neg this]
  · intro h
    rw [autoFillForm_workDetails, h]; rfl

theorem workDetails_filled_when_blank_witness :
    (autoFillForm "播種".toList ⟨[], [], [], [], " \n".toList⟩).workDetails = "播種".toList ∧
    (autoFillForm "播種".toList ⟨[], [], [], [], " メモ".toList⟩).workDetails = " メモ".toList ∧
    (autoFillForm "播種".toList ⟨[], [], [], [], []⟩).workDetails = "播種".toList :=
  ⟨(workDetails_filled_when_blank "播種".toList ⟨[], [], [], [], " \n".toList⟩).1 (by decide),
   (workDetails_filled_when_blank "播種".toList ⟨[], [], [], [], " メモ".toList⟩).2.1
     ⟨'メ', by decide, by decide⟩,
   (workDetails_filled_when_blank "播種".toList ⟨[], [], [], [], []⟩).2.2 rfl⟩

/-! ## The result handler -/

theorem processAgriculturalTerms_form (t : Str) (s : State) :
    (processAgriculturalTerms t s).form = s.form := by
  simp only [processAgriculturalTerms]
  generalize normalize t = processedText
  split_ifs <;> rfl

theorem onresult_form (event : ResultEvent) (s : State) :
    (onresult event s).form =
      if (collectTranscripts event).2.isEmpty then s.form
      else autoFillForm (collectTranscripts event).2 s.form := by
  unfold onresult
  cases h : (collectTranscripts event).2.isEmpty with
  | true => simp only [h, Bool.not_true, Bool.false_eq_true, if_false, if_true]; rfl
  | false =>
    simp only [h, Bool.not_false, if_true, Bool.false_eq_true, if_false]
    rw [processAgriculturalTerms_form]
    rfl

/-- C1: on the final fragment `いね はしゅ 3号圃場 5きろ` the handler runs `autoFillForm`
on the transcript as received, not on its normalisation: only `fieldName` is inferred,
`workType`, `cropType` and `quantity` stay empty, while the normalised text
`稲 播種 3号圃場 5kg`, which goes to `currentText`, would have given all four. -/
theorem onresult_infers_from_raw_transcript :
    (onresult ⟨0, [⟨"いね はしゅ 3号圃場 5きろ".toList, true⟩]⟩
        ⟨true, [], [], true, ⟨[], [], [], [], []⟩⟩).form =
      ⟨[], [], "第3圃場".toList, [], "いね はしゅ 3号圃場 5きろ".toList⟩ ∧
    (onresult ⟨0, [⟨"いね はしゅ 3号圃場 5きろ".toList, true⟩]⟩
        ⟨true, [], [], true, ⟨[], [], [], [], []⟩⟩).currentText =
      "稲 播種 3号圃場 5kg".toList ∧
    autoFillForm (normalize "いね はしゅ 3号圃場 5きろ".toList) ⟨[], [], [], [], []⟩ =
      ⟨"seeding".toList, "rice".toList, "第3圃場".toList, "5kg".toList,
        "稲 播種 3号圃場 5kg".toList⟩ := by
  decide

/-! ## The quantity pattern -/

theorem isWhiteSpace_not_isDigit (c : Char) (h : isWhiteSpace c = true) :
    isDigit c = false ∧ c ≠ '.' := by
  have h46 : ('.' : Char).toNat = 46 := by decide
  constructor
  · simp only [isWhiteSpace, Bool.or_eq_true, Bool.and_eq_true, beq_iff_eq,
      decide_eq_true_eq] at h
    simp only [isDigit, Bool.and_eq_false_iff, decide_eq_false_iff_not]
    omega
  · intro e
    rw [e] at h
    revert h; decide

theorem isDigit_ne_dot (c : Char) (h : isDigit c = true) : c ≠ '.' := by
  intro e; rw [e] at h; revert h; decide

theorem quantityUnits_head :
    ∀ u ∈ quantityUnits, ∃ c cs, u = c :: cs ∧ isWhiteSpace c = false ∧ isDigit c = false ∧
      c ≠ '.' := by
  intro u hu
  simp only [quantityUnits, List.mem_cons, List.mem_singleton, List.not_mem_nil,
    or_false] at hu
  rcases hu with h | h | h | h | h | h | h | h <;> subst h <;>
    exact ⟨_, _, rfl, by decide, by decide, by decide⟩

theorem quantityUnits_prefix_free :
    ∀ u ∈ quantityUnits, ∀ v ∈ quantityUnits, u.isPrefixOf v = true → u = v := by
  decide

theorem unitAt_eq_some (s u : Str) :
    unitAt s = some u ↔ u ∈ quantityUnits ∧ u <+: s := by
  unfold unitAt
  constructor
  · intro h
    have h1 : u.isPrefixOf s = true := List.find?_some (p := fun (u : Str) => u.isPrefixOf s) h
    exact ⟨List.mem_of_find?_eq_some h, (isPrefixOf_iff _ _).1 h1⟩
  · rintro ⟨hu, hp⟩
    cases hf : quantityUnits.find? (fun u => u.isPrefixOf s) with
    | none =>
      have := List.find?_eq_none.1 hf u hu
      exact absurd ((isPrefixOf_iff _ _).2 hp) this
    | some v =>
      have hv := List.mem_of_find?_eq_some hf
      have hvq : v.isPrefixOf s = true :=
        List.find?_some (p := fun (u : Str) => u.isPrefixOf s) hf
      have hvp : v <+: s := (isPrefixOf_iff _ _).1 hvq
      rcases Nat.le_total v.length u.length with hl | hl
      · have : v <+: u := List.prefix_of_prefix_length_le hvp hp hl
        rw [quantityUnits_prefix_free v hv u hu ((isPrefixOf_iff _ _).2 this)]
      · have : u <+: v := List.prefix_of_prefix_length_le hp hvp hl
        rw [quantityUnits_prefix_free u hu v hv ((isPrefixOf_iff _ _).2 this)]

theorem unitAt_head (c : Char) (cs u : Str) (h : unitAt (c :: cs) = some u) :
    isWhiteSpace c = false ∧ isDigit c = false ∧ c ≠ '.' := by
  obtain ⟨hu, hp⟩ := (unitAt_eq_some _ _).1 h
  obtain ⟨d, ds, e, h1, h2, h3⟩ := quantityUnits_head u hu
  rw [e] at hp
  obtain ⟨t, ht⟩ := hp
  rw [List.cons_append, List.cons.injEq] at ht
  rw [← ht.1]; exact ⟨h1, h2, h3⟩

theorem unitAt_nil : unitAt [] = none := by decide

theorem spaceUnitAt_eq_some (s u : Str) : spaceUnitAt s = some u ↔ IsSpaceUnit s u := by
  unfold IsSpaceUnit
  induction s with
  | nil =>
    simp only [spaceUnitAt, unitAt_nil, false_iff, reduceCtorEq]
    rintro ⟨ws, post, e, _, hu⟩
    obtain ⟨d, ds, e2, _⟩ := quantityUnits_head u hu
    rw [e2] at e
    cases ws <;> cases e
  | cons c cs ih =>
    by_cases hc : isWhiteSpace c = true
    · have hun : unitAt (c :: cs) = none := by
        cases hx : unitAt (c :: cs) with
        | none => rfl
        | some v =>
          have := (unitAt_head c cs v hx).1
          rw [hc] at this; cases this
      have hstep : spaceUnitAt (c :: cs) = spaceUnitAt cs := by
        simp only [spaceUnitAt, hc, if_true, hun]
        cases spaceUnitAt cs <;> rfl
      rw [hstep, ih]
      constructor
      · rintro ⟨ws, post, e, hws, hu⟩
        refine ⟨c :: ws, post, by rw [e]; rfl, ?_, hu⟩
        intro x hx
        rcases List.mem_cons.1 hx with h | h
        · rw [h]; exact hc
        · exact hws x h
      · rintro ⟨ws, post, e, hws, hu⟩
        cases ws with
        | nil =>
          exfalso
          obtain ⟨d, ds, e2, h1, _⟩ := quantityUnits_head u hu
          rw [e2] at e
          simp only [List.nil_append, List.cons_append, List.cons.injEq] at e
          rw [e.1, h1] at hc; cases hc
        | cons w ws2 =>
          simp only [List.cons_append, List.cons.injEq] at e
          exact ⟨ws2, post, e.2, fun x hx => hws x (List.mem_cons_of_mem _ hx), hu⟩
    · have hc2 : isWhiteSpace c = false := by simpa using hc
      have hstep : spaceUnitAt (c :: cs) = unitAt (c :: cs) := by
        simp only [spaceUnitAt, hc2, Bool.false_eq_true, if_false]
      rw [hstep, unitAt_eq_some]
      constructor
      · rintro ⟨hu, post, e⟩
        exact ⟨[], post, by rw [← e]; rfl, by simp, hu⟩
      · rintro ⟨ws, post, e, hws, hu⟩
        cases ws with
        | nil => exact ⟨hu, post, by rw [e]; rfl⟩
        | cons w ws2 =>
          exfalso
          simp only [List.cons_append, List.cons.injEq] at e
          have := hws w (List.mem_cons_self _ _)
          rw [← e.1, hc2] at this; cases this

theorem IsSpaceUnit_head (s u : Str) (h : IsSpaceUnit s u) :
    ∃ c cs, s = c :: cs ∧ isDigit c = false ∧ c ≠ '.' := by
  obtain ⟨ws, post, e, hws, hu⟩ := h
  cases ws with
  | nil =>
    obtain ⟨d, ds, e2, _, h2, h3⟩ := quantityUnits_head u hu
    exact ⟨d, ds ++ post, by rw [e, e2]; rfl, h2, h3⟩
  | cons w ws2 =>
    have := isWhiteSpace_not_isDigit w (hws w (List.mem_cons_self _ _))
    exact ⟨w, ws2 ++ u ++ post, by rw [e]; simp, this.1, this.2⟩

/-- A greedy `\d+` in front of a continuation that never starts with a digit: the
matcher takes the whole digit run and hands the rest to the continuation. -/
theorem greedy_digits_eq_some {α : Type} (g : Str → Option (Str × Str))
    (K : Str → Option α) (φ ψ : α → Str)
    (hnil : g [] = none)
    (hnd : ∀ c cs, isDigit c = false → g (c :: cs) = none)
    (hsome : ∀ c cs x u, isDigit c = true → g cs = some (x, u) →
      g (c :: cs) = some (c :: x, u))
    (hnone : ∀ c cs, isDigit c = true → g cs = none →
      g (c :: cs) = (K cs).map (fun a => (c :: φ a, ψ a)))
    (hK : ∀ s a, K s = some a → ∃ c cs, s = c :: cs ∧ isDigit c = false)
    (s x u : Str) :
    g s = some (x, u) ↔
      ∃ ds a rest, IsDigits ds ∧ s = ds ++ rest ∧ K rest = some a ∧ x = ds ++ φ a ∧
        u = ψ a := by
  constructor
  · induction s generalizing x u with
    | nil => intro h; rw [hnil] at h; cases h
    | cons c cs ih =>
      intro h
      cases hc : isDigit c with
      | false => rw [hnd c cs hc] at h; cases h
      | true =>
        cases hrec : g cs with
        | some r =>
          obtain ⟨x1, u1⟩ := r
          rw [hsome c cs x1 u1 hc hrec, Option.some.injEq, Prod.mk.injEq] at h
          obtain ⟨ds, a, rest, hds, e, hk, hx, hu⟩ := ih x1 u1 hrec
          refine ⟨c :: ds, a, rest, ⟨by simp, ?_⟩, by rw [e]; rfl, hk, ?_, ?_⟩
          · intro y hy
            rcases List.mem_cons.1 hy with hy | hy
            · rw [hy]; exact hc
            · exact hds.2 y hy
          · rw [← h.1, hx]; rfl
          · rw [← h.2, hu]
        | none =>
          rw [hnone c cs hc hrec] at h
          cases hk : K cs with
          | none => rw [hk] at h; cases h
          | some a =>
            rw [hk, Option.map_some', Option.some.injEq, Prod.mk.injEq] at h
            refine ⟨[c], a, cs, ⟨by simp, ?_⟩, rfl, hk, h.1.symm, h.2.symm⟩
            intro y hy
            rw [List.mem_singleton.1 hy]; exact hc
  · rintro ⟨ds, a, rest, hds, e, hk, hx, hu⟩
    subst hx hu e
    obtain ⟨hne, hdig⟩ := hds
    induction ds with
    | nil => exact absurd rfl hne
    | cons d ds2 ih =>
      have hd : isDigit d = true := hdig d (List.mem_cons_self _ _)
      cases ds2 with
      | nil =>
        obtain ⟨c, cs, e2, hc⟩ := hK rest a hk
        have hg : g rest = none := by rw [e2]; exact hnd c cs hc
        show g (d :: rest) = _
        rw [hnone d rest hd hg, hk]; rfl
      | cons d2 ds3 =>
        have := ih (by simp) (fun y hy => hdig y (List.mem_cons_of_mem _ hy))
        show g (d :: (d2 :: ds3 ++ rest)) = _
        rw [hsome d _ _ _ hd this]; rfl

theorem digitsSpaceUnitAt_eq_some (s ds u : Str) :
    digitsSpaceUnitAt s = some (ds, u) ↔
      IsDigits ds ∧ ∃ rest, s = ds ++ rest ∧ IsSpaceUnit rest u := by
  rw [greedy_digits_eq_some digitsSpaceUnitAt spaceUnitAt (fun _ => []) (fun u => u) rfl
    (fun c cs h => by simp only [digitsSpaceUnitAt, h, Bool.false_eq_true, if_false])
    (fun c cs x u h hr => by simp only [digitsSpaceUnitAt, h, if_true, hr])
    (fun c cs h hr => by simp only [digitsSpaceUnitAt, h, if_true, hr])
    (fun s a h => by
      obtain ⟨c, cs, e, hc, _⟩ := IsSpaceUnit_head s a ((spaceUnitAt_eq_some s a).1 h)
      exact ⟨c, cs, e, hc⟩)]
  constructor
  · rintro ⟨ds1, a, rest, hds, e, hk, hx, hu⟩
    rw [List.append_nil] at hx
    subst hx hu
    exact ⟨hds, rest, e, (spaceUnitAt_eq_some _ _).1 hk⟩
  · rintro ⟨hds, rest, e, hk⟩
    exact ⟨ds, u, rest, hds, e, (spaceUnitAt_eq_some _ _).2 hk, by simp, rfl⟩

theorem fractionSpaceUnitAt_eq_some (s fr u : Str) :
    fractionSpaceUnitAt s = some (fr, u) ↔
      (fr = [] ∨ ∃ ds, fr = '.' :: ds ∧ IsDigits ds) ∧
        ∃ rest, s = fr ++ rest ∧ IsSpaceUnit rest u := by
  have hplain : ∀ t : Str, (spaceUnitAt t).map (fun u => (([] : Str), u)) = some (fr, u) ↔
      fr = [] ∧ IsSpaceUnit t u := by
    intro t
    rw [← spaceUnitAt_eq_some]
    cases spaceUnitAt t with
    | none => simp
    | some v =>
      simp only [Option.map_some', Option.some.injEq, Prod.mk.injEq]
      constructor
      · rintro ⟨h1, h2⟩; exact ⟨h1.symm, h2⟩
      · rintro ⟨h1, h2⟩; exact ⟨h1.symm, h2⟩
  cases s with
  | nil =>
    simp only [fractionSpaceUnitAt]
    rw [hplain]
    constructor
    · rintro ⟨h1, h2⟩; exact ⟨Or.inl h1, [], by rw [h1]; rfl, h2⟩
    · rintro ⟨_, rest, e, h2⟩
      have := List.append_eq_nil.1 e.symm
      rw [this.2] at h2
      exact ⟨this.1, h2⟩
  | cons c cs =>
    by_cases hc : c = '.'
    · subst hc
      have hsp : spaceUnitAt ('.' :: cs) = none := by
        cases hx : spaceUnitAt ('.' :: cs) with
        | none => rfl
        | some v =>
          obtain ⟨c, cs2, e, _, hne⟩ := IsSpaceUnit_head _ v ((spaceUnitAt_eq_some _ v).1 hx)
          rw [List.cons.injEq] at e
          exact absurd e.1.symm hne
      simp only [fractionSpaceUnitAt, if_true]
      cases hrec : digitsSpaceUnitAt cs with
      | some r =>
        obtain ⟨ds1, u1⟩ := r
        obtain ⟨hds1, rest1, e1, hk1⟩ := (digitsSpaceUnitAt_eq_some cs ds1 u1).1 hrec
        simp only [Option.some.injEq, Prod.mk.injEq]
        constructor
        · rintro ⟨h1, h2⟩
          subst h1 h2
          exact ⟨Or.inr ⟨ds1, rfl, hds1⟩, rest1, by rw [e1]; rfl, hk1⟩
        · rintro ⟨hfr, rest, e, hk⟩
          rcases hfr with h | ⟨ds, h, hds⟩
          · subst h
            rw [List.nil_append] at e
            rw [← e, ← spaceUnitAt_eq_some, hsp] at hk; cases hk
          · subst h
            rw [List.cons_append, List.cons.injEq] at e
            have := (digitsSpaceUnitAt_eq_some cs ds u).2 ⟨hds, rest, e.2, hk⟩
            rw [hrec, Option.some.injEq, Prod.mk.injEq] at this
            exact ⟨by rw [this.1], this.2⟩
      | none =>
        simp only [hsp, Option.map_none', false_iff, reduceCtorEq]
        rintro ⟨hfr, rest, e, hk⟩
        rcases hfr with h | ⟨ds, h, hds⟩
        · subst h
          rw [List.nil_append] at e
          rw [← e, ← spaceUnitAt_eq_some, hsp] at hk; cases hk
        · subst h
          rw [List.cons_append, List.cons.injEq] at e
          have := (digitsSpaceUnitAt_eq_some cs ds u).2 ⟨hds, rest, e.2, hk⟩
          rw [hrec] at this; cases this
    · simp only [fractionSpaceUnitAt, hc, if_false]
      rw [hplain]
      constructor
      · rintro ⟨h1, h2⟩; exact ⟨Or.inl h1, c :: cs, by rw [h1]; rfl, h2⟩
      · rintro ⟨hfr, rest, e, hk⟩
        rcases hfr with h | ⟨ds, h, hds⟩
        · subst h
          rw [List.nil_append] at e
          rw [e]; exact ⟨rfl, hk⟩
        · subst h
          rw [List.cons_append, List.cons.injEq] at e
          exact absurd e.1 hc

theorem fractionSpaceUnitAt_head (s : Str) (a : Str × Str)
    (h : fractionSpaceUnitAt s = some a) : ∃ c cs, s = c :: cs ∧ isDigit c = false := by
  obtain ⟨fr, u⟩ := a
  obtain ⟨hfr, rest, e, hk⟩ := (fractionSpaceUnitAt_eq_some s fr u).1 h
  rcases hfr with h1 | ⟨ds, h1, _⟩
  · subst h1
    obtain ⟨c, cs, e2, hc, _⟩ := IsSpaceUnit_head rest u hk
    exact ⟨c, cs, by rw [e, e2]; rfl, hc⟩
  · subst h1
    exact ⟨'.', ds ++ rest, by rw [e]; rfl, by decide⟩

theorem quantityMatchAt_eq_some (s num u : Str) :
    quantityMatchAt s = some (num, u) ↔
      IsDecimal num ∧ ∃ rest, s = num ++ rest ∧ IsSpaceUnit rest u := by
  rw [greedy_digits_eq_some quantityMatchAt fractionSpaceUnitAt Prod.fst Prod.snd rfl
    (fun c cs h => by simp only [quantityMatchAt, h, Bool.false_eq_true, if_false])
    (fun c cs x u h hr => by simp only [quantityMatchAt, h, if_true, hr])
    (fun c cs h hr => by simp only [quantityMatchAt, h, if_true, hr])
    fractionSpaceUnitAt_head]
  constructor
  · rintro ⟨ds, a, rest, hds, e, hk, hx, hu⟩
    obtain ⟨fr, u1⟩ := a
    obtain ⟨hfr, rest2, e2, hk2⟩ := (fractionSpaceUnitAt_eq_some rest fr u1).1 hk
    simp only at hx hu
    subst hx hu
    exact ⟨⟨ds, fr, rfl, hds, hfr⟩, rest2, by rw [e, e2, List.append_assoc], hk2⟩
  · rintro ⟨⟨i, fr, e1, hi, hfr⟩, rest, e, hk⟩
    refine ⟨i, (fr, u), fr ++ rest, hi, by rw [e, e1, List.append_assoc], ?_, e1, rfl⟩
    exact (fractionSpaceUnitAt_eq_some _ fr u).2 ⟨hfr, rest, rfl, hk⟩

theorem quantityMatchAt_of_occurrence (text pre num u : Str)
    (h : QuantityOccurrence text pre num u) :
    ∃ post, text = pre ++ post ∧ quantityMatchAt post = some (num, u) := by
  obtain ⟨hdec, rest, e, hk⟩ := h
  exact ⟨num ++ rest, by rw [e, List.append_assoc],
    (quantityMatchAt_eq_some _ num u).2 ⟨hdec, rest, rfl, hk⟩⟩

theorem occurrence_of_quantityMatchAt (text pre post num u : Str) (e : text = pre ++ post)
    (h : quantityMatchAt post = some (num, u)) : QuantityOccurrence text pre num u := by
  obtain ⟨hdec, rest, e2, hk⟩ := (quantityMatchAt_eq_some post num u).1 h
  exact ⟨hdec, rest, by rw [e, e2, List.append_assoc], hk⟩

theorem quantityMatch_eq_none_iff (text : Str) :
    quantityMatch text = none ↔ ¬ ∃ pre num u, QuantityOccurrence text pre num u := by
  unfold quantityMatch
  rw [regexSearch_eq_none]
  constructor
  · rintro h ⟨pre, num, u, hocc⟩
    obtain ⟨post, e, hat⟩ := quantityMatchAt_of_occurrence text pre num u hocc
    rw [h pre post e] at hat; cases hat
  · intro h pre post e
    cases hat : quantityMatchAt post with
    | none => rfl
    | some r =>
      obtain ⟨num, u⟩ := r
      exact absurd ⟨pre, num, u, occurrence_of_quantityMatchAt text pre post num u e hat⟩ h

theorem extractQuantity_of_some (text : Str) (form : Form) (num u : Str)
    (h : quantityMatch text = some (num, u)) :
    (extractQuantity text form).quantity = num ++ u := by
  unfold extractQuantity; rw [h]

/-- C8: `autoFillForm` writes `quantity` exactly when the text holds a decimal number
(digits, optionally `.` and digits) followed by optional white space and one of the
unit tokens kg, キロ, ha, ヘクタール, a, アール, 反, 坪.  The value written is the number
followed directly by the unit, both as they stand in the text, of the occurrence that
starts leftmost (at one start position number and unit are determined); a text without
such a pair leaves `quantity` as it was, and `3.5 kg` gives `3.5kg`. -/
theorem quantity_from_leftmost_match (text : Str) (form : Form) :
    ((∃ pre num u, QuantityOccurrence text pre num u) →
      ∃ pre num u, QuantityOccurrence text pre num u ∧
        (∀ pre2 num2 u2, QuantityOccurrence text pre2 num2 u2 →
          pre.length ≤ pre2.length ∧ (pre2.length = pre.length → num2 = num ∧ u2 = u)) ∧
        (autoFillForm text form).quantity = num ++ u) ∧
    ((¬ ∃ pre num u, QuantityOccurrence text pre num u) →
      (autoFillForm text form).quantity = form.quantity) ∧
    (autoFillForm "3.5 kg".toList form).quantity = "3.5kg".toList := by
  refine ⟨?_, ?_, ?_⟩
  · intro h
    cases hq : quantityMatch text with
    | none => exact absurd h ((quantityMatch_eq_none_iff text).1 hq)
    | some r =>
      obtain ⟨num, u⟩ := r
      have hq2 := hq
      unfold quantityMatch at hq2
      obtain ⟨pre, post, e, hat, hmin⟩ := (regexSearch_eq_some _ _ _).1 hq2
      refine ⟨pre, num, u, occurrence_of_quantityMatchAt text pre post num u e hat, ?_, ?_⟩
      · intro pre2 num2 u2 hocc
        obtain ⟨post2, e2, hat2⟩ := quantityMatchAt_of_occurrence text pre2 num2 u2 hocc
        constructor
        · by_contra hlt
          rw [Nat.not_le] at hlt
          rw [hmin pre2 post2 e2 hlt] at hat2; cases hat2
        · intro hlen
          have := List.append_inj (e.symm.trans e2) hlen.symm
          rw [this.2, hat2, Option.some.injEq, Prod.mk.injEq] at hat
          exact hat
      · rw [autoFillForm_quantity]
        exact extractQuantity_of_some text form num u hq
  · intro h
    rw [autoFillForm_quantity, extractQuantity_of_none _ _ ((quantityMatch_eq_none_iff text).2 h)]
  · rw [autoFillForm_quantity]
    exact extractQuantity_of_some _ form "3.5".toList "kg".toList (by decide)

theorem quantity_from_leftmost_match_witness :
    (∃ pre num u, QuantityOccurrence "肥料を 3.5 kg まいた".toList pre num u ∧
      (∀ pre2 num2 u2, QuantityOccurrence "肥料を 3.5 kg まいた".toList pre2 num2 u2 →
        pre.length ≤ pre2.length ∧ (pre2.length = pre.length → num2 = num ∧ u2 = u)) ∧
      (autoFillForm "肥料を 3.5 kg まいた".toList ⟨[], [], [], [], []⟩).quantity = num ++ u) ∧
    (autoFillForm "こんにちは".toList ⟨[], [], [], "2ha".toList, []⟩).quantity = "2ha".toList :=
  ⟨(quantity_from_leftmost_match "肥料を 3.5 kg まいた".toList ⟨[], [], [], [], []⟩).1
    ⟨"肥料を ".toList, "3.5".toList, "kg".toList,
      ⟨"3".toList, ".5".toList, rfl, ⟨by decide, by decide⟩,
        Or.inr ⟨"5".toList, rfl, by decide, by decide⟩⟩,
      " kg まいた".toList, by decide, " ".toList, " まいた".toList, by decide, by decide,
      by decide⟩,
   (quantity_from_leftmost_match "こんにちは".toList ⟨[], [], [], "2ha".toList, []⟩).2.1
    ((quantityMatch_eq_none_iff _).1 (by decide))⟩

/-! ## The shape of a replace-all -/

theorem replaceScan_skip (pat rep : Str) (k : Nat) (l : Str) :
    replaceScan pat rep k l = replaceScan pat rep 0 (l.drop k) := by
  induction k generalizing l with
  | zero => rfl
  | succ k ih =>
    cases l with
    | nil => rfl
    | cons c cs => simp only [replaceScan, List.drop_succ_cons]; exact ih cs

theorem replaceScan_nil (pat rep : Str) : replaceScan pat rep 0 [] = [] := rfl

theorem replaceScan_cons_copy (pat rep : Str) (hp : ∀ p ∈ pat, p.isAlpha = false)
    (c : Char) (cs : Str) (h : ¬ pat <+: c :: cs) :
    replaceScan pat rep 0 (c :: cs) = c :: replaceScan pat rep 0 cs := by
  have hm : matchesAtCI pat (c :: cs) = false := by
    rw [matchesAtCI_eq_isPrefixOf pat hp]
    cases hb : pat.isPrefixOf (c :: cs) with
    | false => rfl
    | true => exact absurd ((isPrefixOf_iff _ _).1 hb) h
  simp only [replaceScan, hm, Bool.false_eq_true, if_false]

theorem replaceScan_append (pat rep : Str) (hp : ∀ p ∈ pat, p.isAlpha = false)
    (hne : pat ≠ []) (v : Str) :
    replaceScan pat rep 0 (pat ++ v) = rep ++ replaceScan pat rep 0 v := by
  cases pat with
  | nil => exact absurd rfl hne
  | cons p ps =>
    have hm : matchesAtCI (p :: ps) (p :: (ps ++ v)) = true := by
      rw [matchesAtCI_eq_isPrefixOf _ hp, isPrefixOf_iff]
      exact ⟨v, rfl⟩
    show replaceScan (p :: ps) rep 0 (p :: (ps ++ v)) = _
    simp only [replaceScan, hm, if_true]
    rw [replaceScan_skip]
    simp

/-- Induction along the scan of a replace-all: at each position the pattern either
does not match, and one character is copied, or it matches and is consumed whole. -/
theorem scan_induction (pat : Str) (hne : pat ≠ []) (motive : Str → Prop)
    (nil : motive [])
    (copy : ∀ c cs, ¬ pat <+: c :: cs → motive cs → motive (c :: cs))
    (consume : ∀ v, motive v → motive (pat ++ v)) : ∀ T, motive T := by
  have key : ∀ n, ∀ T : Str, T.length = n → motive T := by
    intro n
    induction n using Nat.strong_induction_on with
    | _ n ih =>
      intro T hn
      cases T with
      | nil => exact nil
      | cons c cs =>
        by_cases h : pat <+: c :: cs
        · obtain ⟨v, hv⟩ := h
          rw [← hv]
          refine consume v (ih v.length ?_ v rfl)
          have hl : (pat ++ v).length = (c :: cs).length := by rw [hv]
          have hpl : 0 < pat.length := List.length_pos.2 hne
          rw [List.length_append] at hl
          omega
        · exact copy c cs h (ih cs.length (by rw [← hn]; simp) cs rfl)
  exact fun T => key T.length T rfl

/-! ## Occurrences across a seam -/

theorem infix_of_infix_append_disjoint (q a X : Str) (hd : ∀ c ∈ q, c ∉ a)
    (h : q <:+: a ++ X) : q <:+: X := by
  induction a with
  | nil => exact h
  | cons z a2 ih =>
    rw [List.cons_append, List.infix_cons_iff] at h
    rcases h with h | h
    · rcases List.prefix_cons_iff.1 h with e | ⟨t, e, _⟩
      · rw [e]; exact List.nil_infix
      · exact absurd (List.mem_cons_self z a2) (hd z (by rw [e]; exact List.mem_cons_self _ _))
    · exact ih (fun c hc hm => hd c hc (List.mem_cons_of_mem _ hm)) h

theorem prefix_of_prefix_append_disjoint (q a X : Str) (hne : a ≠ [])
    (hd : ∀ c ∈ q, c ∉ a) (h : q <+: a ++ X) : q = [] := by
  cases a with
  | nil => exact absurd rfl hne
  | cons z a2 =>
    rcases List.prefix_cons_iff.1 h with e | ⟨t, e, _⟩
    · exact e
    · exact absurd (List.mem_cons_self z a2) (hd z (by rw [e]; exact List.mem_cons_self _ _))

theorem prefix_of_prefix_append_cons (q a b : Str) (z : Char) (hz : z ∉ q)
    (h : q <+: a ++ z :: b) : q <+: a := by
  rcases List.prefix_or_prefix_of_prefix h (List.prefix_append a (z :: b)) with h1 | ⟨t, ht⟩
  · exact h1
  · rw [← ht, List.prefix_append_right_inj] at h
    rcases List.prefix_cons_iff.1 h with e | ⟨t2, e, _⟩
    · rw [← ht, e, List.append_nil]
    · exact absurd (by rw [← ht, e]; simp) hz

theorem infix_of_infix_append_cons (q a b : Str) (z : Char) (hz : z ∉ q)
    (h : q <:+: a ++ z :: b) : q <:+: a ∨ q <:+: b := by
  induction a with
  | nil =>
    rw [List.nil_append, List.infix_cons_iff] at h
    rcases h with h | h
    · left
      exact (prefix_of_prefix_append_cons q [] b z hz h).isInfix
    · exact Or.inr h
  | cons x a2 ih =>
    rw [List.cons_append, List.infix_cons_iff] at h
    rcases h with h | h
    · left
      exact (prefix_of_prefix_append_cons q (x :: a2) b z hz h).isInfix
    · rcases ih h with h1 | h1
      · exact Or.inl (List.infix_cons h1)
      · exact Or.inr h1

/-! ## Occurrences in a rewritten text -/

/-- When occurrences of `q` cannot straddle or sit inside an inserted `rep`, an
occurrence of `q` in the rewritten text comes from one in the text. -/
theorem infix_of_infix_replaceScan (pat rep : Str) (hp : ∀ p ∈ pat, p.isAlpha = false)
    (hne : pat ≠ []) (G : Str → Prop) (htail : ∀ c q, G (c :: q) → G q)
    (hP : ∀ q X v, G q → q <+: rep ++ X → q <+: pat ++ v)
    (hS : ∀ q X v, G q → q <:+: rep ++ X → q <:+: pat ++ v ∨ q <:+: X) :
    ∀ T q, G q →
      (q <+: replaceScan pat rep 0 T → q <+: T) ∧
      (q <:+: replaceScan pat rep 0 T → q <:+: T) := by
  refine scan_induction pat hne _ ?_ ?_ ?_
  · intro q _
    rw [replaceScan_nil]
    exact ⟨id, id⟩
  · intro c cs hnm ih q hq
    rw [replaceScan_cons_copy pat rep hp c cs hnm]
    have hpre : q <+: c :: replaceScan pat rep 0 cs → q <+: c :: cs := by
      intro h
      rcases List.prefix_cons_iff.1 h with e | ⟨t, e, ht⟩
      · rw [e]; exact List.nil_prefix
      · rw [e] at hq ⊢
        exact List.cons_prefix_cons.2 ⟨rfl, (ih t (htail c t hq)).1 ht⟩
    refine ⟨hpre, ?_⟩
    intro h
    rcases List.infix_cons_iff.1 h with h1 | h1
    · exact (hpre h1).isInfix
    · exact List.infix_cons ((ih q hq).2 h1)
  · intro v ih q hq
    rw [replaceScan_append pat rep hp hne v]
    refine ⟨hP q _ v hq, ?_⟩
    intro h
    rcases hS q _ v hq h with h1 | h1
    · exact h1
    · exact ((ih q hq).2 h1).trans (List.suffix_append pat v).isInfix

theorem infix_of_infix_replaceScan_disjoint (pat rep : Str)
    (hp : ∀ p ∈ pat, p.isAlpha = false) (hne : pat ≠ []) (hrep : rep ≠ []) (T q : Str)
    (hq : ∀ c ∈ q, c ∉ rep) :
    (q <+: replaceScan pat rep 0 T → q <+: T) ∧
    (q <:+: replaceScan pat rep 0 T → q <:+: T) := by
  refine infix_of_infix_replaceScan pat rep hp hne (fun q => ∀ c ∈ q, c ∉ rep) ?_ ?_ ?_ T q hq
  · intro c q h x hx
    exact h x (List.mem_cons_of_mem _ hx)
  · intro q X v h hpre
    rw [prefix_of_prefix_append_disjoint q rep X hrep h hpre]
    exact List.nil_prefix
  · intro q X v h hin
    exact Or.inr (infix_of_infix_append_disjoint q rep X h hin)

theorem infix_of_infix_replaceScan_extend (pat : Str) (z : Char)
    (hp : ∀ p ∈ pat, p.isAlpha = false) (hne : pat ≠ []) (T q : Str) (hq : z ∉ q) :
    (q <+: replaceScan pat (pat ++ [z]) 0 T → q <+: T) ∧
    (q <:+: replaceScan pat (pat ++ [z]) 0 T → q <:+: T) := by
  refine infix_of_infix_replaceScan pat (pat ++ [z]) hp hne (fun q => z ∉ q) ?_ ?_ ?_ T q hq
  · intro c q h hx
    exact h (List.mem_cons_of_mem _ hx)
  · intro q X v h hpre
    rw [List.append_assoc, List.singleton_append] at hpre
    exact (prefix_of_prefix_append_cons q pat X z h hpre).trans (List.prefix_append pat v)
  · intro q X v h hin
    rw [List.append_assoc, List.singleton_append] at hin
    rcases infix_of_infix_append_cons q pat X z h hin with h1 | h1
    · exact Or.inl (h1.trans (List.prefix_append pat v).isInfix)
    · exact Or.inr h1

/-- A replace-all whose replacement shares no character with the pattern leaves no
occurrence of the pattern. -/
theorem not_infix_replaceScan_self (pat rep : Str) (hp : ∀ p ∈ pat, p.isAlpha = false)
    (hne : pat ≠ []) (hrep : rep ≠ []) (hd : ∀ c ∈ pat, c ∉ rep) :
    ∀ T, ¬ pat <:+: replaceScan pat rep 0 T := by
  refine scan_induction pat hne _ ?_ ?_ ?_
  · rw [replaceScan_nil]
    intro h
    exact hne (List.infix_nil.1 h)
  · intro c cs hnm ih
    rw [replaceScan_cons_copy pat rep hp c cs hnm]
    intro h
    rcases List.infix_cons_iff.1 h with h1 | h1
    · rcases List.prefix_cons_iff.1 h1 with e | ⟨t, e, ht⟩
      · exact hne e
      · have ht2 : t <+: cs :=
          (infix_of_infix_replaceScan_disjoint pat rep hp hne hrep cs t
            (fun x hx => hd x (by rw [e]; exact List.mem_cons_of_mem _ hx))).1 ht
        exact hnm (by rw [e]; exact List.cons_prefix_cons.2 ⟨rfl, ht2⟩)
    · exact ih h1
  · intro v ih
    rw [replaceScan_append pat rep hp hne v]
    intro h
    exact ih (infix_of_infix_append_disjoint pat rep _ hd h)

theorem replaceAllCI_eq_replaceScan (pat rep T : Str) (hne : pat ≠ []) :
    replaceAllCI pat rep T = replaceScan pat rep 0 T := by
  cases pat with
  | nil => exact absurd rfl hne
  | cons p ps => rfl

theorem infix_of_infix_replaceAllCI (q : Str) (e : TermEntry) (T : Str)
    (hp : ∀ p ∈ e.term, p.isAlpha = false) (hne : e.term ≠ []) (h : CannotCreate q e)
    (hq : q <:+: replaceAllCI e.term e.normalized T) : q <:+: T := by
  rw [replaceAllCI_eq_replaceScan _ _ _ hne] at hq
  rcases h with ⟨hrep, hd⟩ | ⟨z, _, hz, hzq⟩
  · exact (infix_of_infix_replaceScan_disjoint e.term e.normalized hp hne hrep T q hd).2 hq
  · rw [hz] at hq
    exact (infix_of_infix_replaceScan_extend e.term z hp hne T q hzq).2 hq

theorem not_infix_normalizeWith (terms : List TermEntry) (q : Str)
    (hc : ∀ e ∈ terms, e.term ≠ [] ∧ ∀ p ∈ e.term, p.isAlpha = false)
    (hcc : ∀ e ∈ terms, CannotCreate q e) (X : Str) (h : ¬ q <:+: X) :
    ¬ q <:+: normalizeWith terms X := by
  induction terms generalizing X with
  | nil => exact h
  | cons e es ih =>
    show ¬ q <:+: normalizeWith es (replaceAllCI e.term e.normalized X)
    apply ih (fun x hx => hc x (List.mem_cons_of_mem _ hx))
      (fun x hx => hcc x (List.mem_cons_of_mem _ hx))
    intro hq
    have he := hc e (List.mem_cons_self _ _)
    exact h (infix_of_infix_replaceAllCI q e X he.2 he.1 (hcc e (List.mem_cons_self _ _)) hq)

/-- In a dictionary where no later entry can bring back an earlier spoken form, the
normalised text holds no spoken form but those contained in their own normalised form. -/
theorem absent_after_normalizeWith (terms : List TermEntry)
    (hc : ∀ e ∈ terms, e.term ≠ [] ∧ ∀ p ∈ e.term, p.isAlpha = false)
    (hpair : terms.Pairwise (fun e e2 => selfContained e = true ∨ CannotCreate e.term e2))
    (helim : ∀ e ∈ terms, selfContained e = true ∨
      (e.normalized ≠ [] ∧ ∀ c ∈ e.term, c ∉ e.normalized))
    (T : Str) :
    ∀ e ∈ terms, selfContained e = false → ¬ e.term <:+: normalizeWith terms T := by
  induction terms generalizing T with
  | nil => intro e he; cases he
  | cons e0 rest ih =>
    rw [List.pairwise_cons] at hpair
    intro e he hself
    show ¬ e.term <:+: normalizeWith rest (replaceAllCI e0.term e0.normalized T)
    rcases List.mem_cons.1 he with h0 | hr
    · subst h0
      have hce := hc e (List.mem_cons_self _ _)
      apply not_infix_normalizeWith rest e.term
        (fun x hx => hc x (List.mem_cons_of_mem _ hx))
      · intro x hx
        rcases hpair.1 x hx with h1 | h1
        · rw [hself] at h1; cases h1
        · exact h1
      · rw [replaceAllCI_eq_replaceScan _ _ _ hce.1]
        rcases helim e (List.mem_cons_self _ _) with h1 | ⟨h1, h2⟩
        · rw [hself] at h1; cases h1
        · exact not_infix_replaceScan_self e.term e.normalized hce.2 hce.1 h1 h2 T
    · exact ih (fun x hx => hc x (List.mem_cons_of_mem _ hx)) hpair.2
        (fun x hx => helim x (List.mem_cons_of_mem _ hx)) _ e hr hself

/-! ## The shipped dictionary -/

theorem agriculturalTerms_nonempty_caseless :
    ∀ e ∈ agriculturalTerms, e.term ≠ [] ∧ ∀ p ∈ e.term, p.isAlpha = false := by
  decide

theorem agriculturalTerms_pairwise :
    agriculturalTerms.Pairwise
      (fun e e2 => selfContained e = true ∨ CannotCreate e.term e2) := by
  decide

theorem agriculturalTerms_eliminated :
    ∀ e ∈ agriculturalTerms, selfContained e = true ∨
      (e.normalized ≠ [] ∧ ∀ c ∈ e.term, c ∉ e.normalized) := by
  decide

theorem agriculturalTerms_selfContained :
    ∀ e ∈ agriculturalTerms, selfContained e = false ∨
      (e.term = "いもち".toList ∨ e.term = "うどんこ".toList) := by
  decide

/-- After one pass the only spoken forms a text can still hold are `いもち` and
`うどんこ`. -/
theorem spoken_forms_left_by_normalize (T : Str) :
    ∀ e ∈ agriculturalTerms, e.term <:+: normalize T →
      e.term = "いもち".toList ∨ e.term = "うどんこ".toList := by
  intro e he hin
  rcases agriculturalTerms_selfContained e he with h | h
  · exact absurd hin (absent_after_normalizeWith agriculturalTerms
      agriculturalTerms_nonempty_caseless agriculturalTerms_pairwise
      agriculturalTerms_eliminated T e he h)
  · exact h

/-- C2 as the claim states it fails: the second pass over `いもち` appends `病` once
more. -/
theorem normalize_not_idempotent :
    normalize "いもち".toList = "いもち病".toList ∧
    normalize (normalize "いもち".toList) = "いもち病病".toList ∧
    normalize (normalize "いもち".toList) ≠ normalize "いもち".toList := by
  decide

/-- C2, amended: no entry's spoken form is a substring of the normalised form of a
different entry; the spoken forms `いもち` and `うどんこ` are substrings of their own
normalised forms; and normalising twice equals normalising once for every text whose
normalisation contains neither `いもち` nor `うどんこ`. -/
theorem normalize_idempotent_without_residue :
    (∀ e1 ∈ agriculturalTerms, ∀ e2 ∈ agriculturalTerms, e1.term <:+: e2.normalized →
      e1 = e2 ∧ (e1.term = "いもち".toList ∨ e1.term = "うどんこ".toList)) ∧
    (∀ T : Str, ¬ "いもち".toList <:+: normalize T → ¬ "うどんこ".toList <:+: normalize T →
      normalize (normalize T) = normalize T) := by
  refine ⟨by decide, ?_⟩
  intro T h1 h2
  apply normalizeWith_of_absent agriculturalTerms agriculturalTerms_caseless
  intro e he hin
  rcases spoken_forms_left_by_normalize T e he hin with h | h
  · rw [h] at hin; exact h1 hin
  · rw [h] at hin; exact h2 hin

theorem normalize_idempotent_without_residue_witness :
    normalize (normalize "いね はしゅ 3号圃場 5きろ".toList) =
      normalize "いね はしゅ 3号圃場 5きろ".toList :=
  normalize_idempotent_without_residue.2 "いね はしゅ 3号圃場 5きろ".toList
    (by decide) (by decide)

/-! ## The recording flag -/

theorem processAgriculturalTerms_isRecording (t : Str) (s : State) :
    (processAgriculturalTerms t s).isRecording = s.isRecording := by
  simp only [processAgriculturalTerms]
  generalize normalize t = processedText
  split_ifs <;> rfl

theorem onresult_isRecording (event : ResultEvent) (s : State) :
    (onresult event s).isRecording = s.isRecording := by
  unfold onresult
  cases h : (collectTranscripts event).2.isEmpty with
  | true => simp only [h, Bool.not_true, Bool.false_eq_true, if_false]; rfl
  | false =>
    simp only [h, Bool.not_false, if_true]
    rw [processAgriculturalTerms_isRecording]
    rfl

theorem startRecording_isRecording (env : Engine) (s : State) :
    (startRecording env s).1.isRecording = s.isRecording := by
  unfold startRecording
  split_ifs <;> rfl

theorem stopRecording_state (env : Engine) (s : State) : (stopRecording env s).1 = s := by
  unfold stopRecording
  split_ifs <;> rfl

theorem construct_isRecording (env : Engine) (page : State) :
    (construct env page).isRecording = false := by
  unfold construct
  simp only []
  split_ifs <;> rfl

theorem init_isSupported (w st : Bool) : (init w st).isSupported = (init w st).recognition := by
  cases w <;> cases st <;> rfl

/-- A recogniser that is recording has an engine object. -/
theorem recognition_of_reachable_recording (env : Engine) (s : State)
    (h : Reachable env s) : s.isRecording = true → env.recognition = true := by
  induction h with
  | construct page => intro h; rw [construct_isRecording] at h; cases h
  | onstart s hr _ _ => intro _; exact hr
  | onresult event s hr _ _ => intro _; exact hr
  | onerror error s hr _ _ => intro _; exact hr
  | onend s hr _ _ => intro _; exact hr
  | startRecording s _ ih => intro h; rw [startRecording_isRecording] at h; exact ih h
  | stopRecording s _ ih => intro h; rw [stopRecording_state] at h; exact ih h
  | other s t _ ht ih => intro h; rw [ht] at h; exact ih h

/-- C18 as the claim states it fails: the error handler leaves a recogniser that is
recording in the recording state. -/
theorem onerror_keeps_recording :
    (onerror "network".toList ⟨true, [], [], true, ⟨[], [], [], [], []⟩⟩).isRecording = true := by
  decide

/-- C18, amended: for every state and every error code the error handler leaves
`isRecording` as it was and hides the listening indicator; `isRecording` is `false`
once the `onend` handler has run after it. -/
theorem onerror_then_onend_idle (error : Str) (s : State) :
    (onerror error s).isRecording = s.isRecording ∧
    (onerror error s).listening = false ∧
    (onend (onerror error s)).isRecording = false :=
  ⟨rfl, rfl, rfl⟩

/-! ## Interim results -/

theorem collectTranscripts_foldl_interim (rs : List SpeechResult)
    (h : ∀ r ∈ rs, r.isFinal = false) (acc : Str × Str) :
    rs.foldl (fun acc r => if r.isFinal then (acc.1, acc.2 ++ r.transcript)
        else (acc.1 ++ r.transcript, acc.2)) acc =
      (acc.1 ++ (rs.map (fun r => r.transcript)).flatten, acc.2) := by
  induction rs generalizing acc with
  | nil => simp
  | cons r rs ih =>
    have hr : r.isFinal = false := h r (List.mem_cons_self _ _)
    rw [List.foldl_cons, ih (fun x hx => h x (List.mem_cons_of_mem _ hx))]
    simp [hr]

theorem collectTranscripts_interim (event : ResultEvent)
    (h : ∀ r ∈ event.results.drop event.resultIndex, r.isFinal = false) :
    collectTranscripts event =
      (((event.results.drop event.resultIndex).map (fun r => r.transcript)).flatten, []) := by
  unfold collectTranscripts
  rw [collectTranscripts_foldl_interim _ h]
  rfl

/-- C19 as the claim states it fails: an event with one interim fragment empties the
transcript stored in `currentText`. -/
theorem onresult_interim_clears_currentText :
    (onresult ⟨0, [⟨"いね".toList, false⟩]⟩
      ⟨true, "稲".toList, "稲".toList, true, ⟨[], [], [], [], []⟩⟩).currentText = [] ∧
    (⟨true, "稲".toList, "稲".toList, true, ⟨[], [], [], [], []⟩⟩ : State).currentText ≠ [] := by
  decide

/-- C19, amended: a result event whose fragments are all interim changes the display,
which shows the interim text (the placeholder when it is empty), and empties
`currentText`; `isRecording`, the listening indicator and every form field are the
same after the event as before it. -/
theorem onresult_interim_only (event : ResultEvent) (s : State)
    (h : ∀ r ∈ event.results.drop event.resultIndex, r.isFinal = false) :
    onresult event s =
      { s with
        currentText := []
        recognizedText :=
          if ((event.results.drop event.resultIndex).map (fun r => r.transcript)).flatten.isEmpty
          then placeholderText
          else ((event.results.drop event.resultIndex).map (fun r => r.transcript)).flatten } := by
  unfold onresult
  rw [collectTranscripts_interim event h]
  rfl

theorem onresult_interim_only_witness :
    onresult ⟨1, [⟨"こめ".toList, true⟩, ⟨"いね".toList, false⟩]⟩
        ⟨true, "稲".toList, "稲".toList, true, ⟨"seeding".toList, [], [], [], []⟩⟩ =
      ⟨true, [], "いね".toList, true, ⟨"seeding".toList, [], [], [], []⟩⟩ :=
  onresult_interim_only ⟨1, [⟨"こめ".toList, true⟩, ⟨"いね".toList, false⟩]⟩
    ⟨true, "稲".toList, "稲".toList, true, ⟨"seeding".toList, [], [], [], []⟩⟩ (by decide)

/-- C20: `isRecording` is `false` after the constructor, `true` after `onstart` and
`false` after `onend`; the result and error handlers, `startRecording` and
`stopRecording` leave it as it is; `startRecording` on a reachable state that is
recording and `stopRecording` on a state that is not recording change nothing, the
transcript in `currentText` included, and call nothing on the engine. -/
theorem isRecording_state_machine (webkit std : Bool) :
    (∀ page, (construct (init webkit std) page).isRecording = false) ∧
    (∀ s, (onstart s).isRecording = true) ∧
    (∀ s, (onend s).isRecording = false) ∧
    (∀ event s, (onresult event s).isRecording = s.isRecording) ∧
    (∀ error s, (onerror error s).isRecording = s.isRecording) ∧
    (∀ s, (startRecording (init webkit std) s).1.isRecording = s.isRecording) ∧
    (∀ s, (stopRecording (init webkit std) s).1.isRecording = s.isRecording) ∧
    (∀ s, Reachable (init webkit std) s → s.isRecording = true →
      startRecording (init webkit std) s = (s, none)) ∧
    (∀ s, s.isRecording = false → stopRecording (init webkit std) s = (s, none)) := by
  refine ⟨construct_isRecording _, fun _ => rfl, fun _ => rfl, onresult_isRecording,
    fun _ _ => rfl, startRecording_isRecording _, ?_, ?_, ?_⟩
  · intro s; rw [stopRecording_state]
  · intro s hr hrec
    have h1 := recognition_of_reachable_recording _ s hr hrec
    have h2 : (init webkit std).isSupported = true := by rw [init_isSupported]; exact h1
    unfold startRecording
    simp [h2, hrec]
  · intro s hrec
    unfold stopRecording
    simp [hrec]

theorem isRecording_state_machine_witness :
    startRecording (init true false)
        (onstart (construct (init true false) ⟨false, [], [], false, ⟨[], [], [], [], []⟩⟩)) =
      (onstart (construct (init true false) ⟨false, [], [], false, ⟨[], [], [], [], []⟩⟩), none) ∧
    stopRecording (init true false)
        (construct (init true false) ⟨false, [], [], false, ⟨[], [], [], [], []⟩⟩) =
      (construct (init true false) ⟨false, [], [], false, ⟨[], [], [], [], []⟩⟩, none) :=
  ⟨(isRecording_state_machine true false).2.2.2.2.2.2.2.1 _
      (Reachable.onstart _ rfl (Reachable.construct _)) rfl,
   (isRecording_state_machine true false).2.2.2.2.2.2.2.2 _ rfl⟩

/-! ## The registry -/

theorem getKnownFields_storage {F : Type} (s : Storage F) : (getKnownFields s).2 = s := by
  unfold getKnownFields
  cases s.fields <;> rfl

theorem set_findIndex_eq_upsert {F : Type} (name : Str) (location : Location F)
    (fs : List (KnownField F)) :
    (match findIndex (fun f => f.name == name) fs with
      | some i => fs.set i ⟨name, location⟩
      | none => fs ++ [⟨name, location⟩]) = upsert name location fs := by
  induction fs with
  | nil => rfl
  | cons f fs ih =>
    by_cases h : f.name = name
    · have hb : (f.name == name) = true := by simpa using h
      rw [upsert, if_pos h]
      simp only [findIndex]
      rw [if_pos hb]
      rfl
    · have hb : ¬ (f.name == name) = true := by simpa using h
      rw [upsert, if_neg h, ← ih]
      simp only [findIndex]
      rw [if_neg hb]
      cases findIndex (fun f => f.name == name) fs <;> rfl

theorem saveKnownField_fields {F : Type} (name : Str) (location : Location F)
    (s : Storage F) :
    (getKnownFields (saveKnownField name location s)).1 =
      upsert name location (getKnownFields s).1 := by
  rw [← set_findIndex_eq_upsert]
  unfold saveKnownField getKnownFields
  cases s.fields <;> rfl

/-- The shape of an upsert: the first entry with the name is replaced where it stands,
or there is none and the new entry is appended. -/
theorem upsert_shape {F : Type} (name : Str) (location : Location F)
    (fs : List (KnownField F)) :
    (∃ pre f post, fs = pre ++ f :: post ∧ f.name = name ∧ (∀ g ∈ pre, g.name ≠ name) ∧
      upsert name location fs = pre ++ ⟨name, location⟩ :: post) ∨
    ((∀ g ∈ fs, g.name ≠ name) ∧ upsert name location fs = fs ++ [⟨name, location⟩]) := by
  induction fs with
  | nil => exact Or.inr ⟨fun g hg => absurd hg (List.not_mem_nil g), rfl⟩
  | cons f fs ih =>
    by_cases h : f.name = name
    · left
      exact ⟨[], f, fs, rfl, h, fun g hg => absurd hg (List.not_mem_nil g),
        by rw [upsert, if_pos h]; rfl⟩
    · rcases ih with ⟨pre, f2, post, e, hf, hpre, hu⟩ | ⟨hall, hu⟩
      · left
        refine ⟨f :: pre, f2, post, by rw [e]; rfl, hf, ?_, by simp [upsert, h, hu]⟩
        intro g hg
        rcases List.mem_cons.1 hg with hg | hg
        · rw [hg]; exact h
        · exact hpre g hg
      · right
        refine ⟨?_, by simp [upsert, h, hu]⟩
        intro g hg
        rcases List.mem_cons.1 hg with hg | hg
        · rw [hg]; exact h
        · exact hall g hg

/-- C14: `findNearestField` and `suggestFieldName` leave the stored registry as it
was. -/
theorem lookup_leaves_registry {F : Type} (A : Arith F) (location : Location F)
    (s : Storage F) :
    (findNearestField A location s).2 = s ∧ (suggestFieldName A location s).2 = s := by
  have h1 : (findNearestField A location s).2 = s := by
    unfold findNearestField getKnownFields
    cases s.fields with
    | none => rfl
    | some fields =>
      simp only []
      split_ifs <;> rfl
  refine ⟨h1, ?_⟩
  unfold suggestFieldName
  rcases hfn : findNearestField A location s with ⟨n, s2⟩
  rw [hfn] at h1
  cases n <;> exact h1

/-- C15: when the registry holds an entry with exactly the name given,
`saveKnownField` keeps the length of the registry and the entry found under that name
carries the new location; otherwise the length grows by exactly one. -/
theorem saveKnownField_length {F : Type} (name : Str) (location : Location F)
    (s : Storage F) :
    ((∃ f ∈ (getKnownFields s).1, f.name = name) →
      (getKnownFields (saveKnownField name location s)).1.length =
        (getKnownFields s).1.length ∧
      (getKnownFields (saveKnownField name location s)).1.find? (fun f => f.name == name) =
        some ⟨name, location⟩) ∧
    ((¬ ∃ f ∈ (getKnownFields s).1, f.name = name) →
      (getKnownFields (saveKnownField name location s)).1.length =
        (getKnownFields s).1.length + 1) := by
  rw [saveKnownField_fields]
  generalize (getKnownFields s).1 = fs
  rcases upsert_shape name location fs with ⟨pre, f, post, e, hf, hpre, hu⟩ | ⟨hall, hu⟩
  · constructor
    · intro _
      rw [hu, e]
      refine ⟨by simp, ?_⟩
      rw [List.find?_append, List.find?_eq_none.2, Option.none_or, List.find?_cons_of_pos]
      · simp
      · intro g hg
        simpa using hpre g hg
    · intro hno
      exact absurd ⟨f, by rw [e]; simp, hf⟩ hno
  · constructor
    · rintro ⟨f, hf, hn⟩
      exact absurd hn (hall f hf)
    · intro _
      rw [hu]; simp


theorem upsert_getElem_of_ne {F : Type} (name : Str) (location : Location F)
    (fs : List (KnownField F)) (i : Nat) (e : KnownField F) (h : fs[i]? = some e)
    (hne : e.name ≠ name) : (upsert name location fs)[i]? = some e := by
  induction fs generalizing i with
  | nil => simp at h
  | cons f fs ih =>
    by_cases hf : f.name = name
    · rw [upsert, if_pos hf]
      cases i with
      | zero =>
        simp only [List.getElem?_cons_zero, Option.some.injEq] at h
        rw [h] at hf; exact absurd hf hne
      | succ i => simpa using h
    · rw [upsert, if_neg hf]
      cases i with
      | zero => simpa using h
      | succ i =>
        simp only [List.getElem?_cons_succ] at h ⊢
        exact ih i h

/-- C17: `saveKnownField` leaves every entry with another name where it stands; an
entry it updates stays at the position of the first entry with that name, and an entry
it adds goes to the end. -/
theorem saveKnownField_keeps_positions {F : Type} (name : Str) (location : Location F)
    (s : Storage F) :
    (∀ (i : Nat) (e : KnownField F), (getKnownFields s).1[i]? = some e → e.name ≠ name →
      (getKnownFields (saveKnownField name location s)).1[i]? = some e) ∧
    ((∃ f ∈ (getKnownFields s).1, f.name = name) →
      ∃ pre f post, (getKnownFields s).1 = pre ++ f :: post ∧ f.name = name ∧
        (∀ g ∈ pre, g.name ≠ name) ∧
        (getKnownFields (saveKnownField name location s)).1 =
          pre ++ ⟨name, location⟩ :: post) ∧
    ((¬ ∃ f ∈ (getKnownFields s).1, f.name = name) →
      (getKnownFields (saveKnownField name location s)).1 =
        (getKnownFields s).1 ++ [⟨name, location⟩]) := by
  rw [saveKnownField_fields]
  generalize (getKnownFields s).1 = fs
  refine ⟨fun i e h hne => upsert_getElem_of_ne name location fs i e h hne, ?_, ?_⟩
  · rintro ⟨f0, hf0, hn0⟩
    rcases upsert_shape name location fs with ⟨pre, f, post, e, hf, hpre, hu⟩ | ⟨hall, _⟩
    · exact ⟨pre, f, post, e, hf, hpre, hu⟩
    · exact absurd hn0 (hall f0 hf0)
  · intro hno
    rcases upsert_shape name location fs with ⟨pre, f, post, e, hf, _, _⟩ | ⟨_, hu⟩
    · exact absurd ⟨f, by rw [e]; simp, hf⟩ hno
    · exact hu

theorem upsert_names_nodup {F : Type} (name : Str) (location : Location F)
    (fs : List (KnownField F)) (h : (fs.map (fun f => f.name)).Nodup) :
    ((upsert name location fs).map (fun f => f.name)).Nodup := by
  rcases upsert_shape name location fs with ⟨pre, f, post, e, hf, _, hu⟩ | ⟨hall, hu⟩
  · rw [hu]
    rw [e] at h
    simpa [hf] using h
  · rw [hu, List.map_append, List.nodup_append]
    refine ⟨h, by simp, ?_⟩
    intro x hx hx2
    simp only [List.map_cons, List.map_nil, List.mem_singleton] at hx2
    obtain ⟨g, hg, hgn⟩ := List.mem_map.1 hx
    exact hall g hg (hgn.trans hx2)

theorem mem_upsert {F : Type} (name : Str) (location : Location F)
    (fs : List (KnownField F)) (h : (fs.map (fun f => f.name)).Nodup)
    (x : KnownField F) (hx : x ∈ upsert name location fs) :
    x = ⟨name, location⟩ ∨ (x ∈ fs ∧ x.name ≠ name) := by
  rcases upsert_shape name location fs with ⟨pre, f, post, e, hf, hpre, hu⟩ | ⟨hall, hu⟩
  · rw [hu] at hx
    rw [e, List.map_append, List.map_cons, List.nodup_append] at h
    obtain ⟨_, hfp, hdis⟩ := h
    rcases List.mem_append.1 hx with hx | hx
    · exact Or.inr ⟨by rw [e]; simp [hx], hpre x hx⟩
    · rcases List.mem_cons.1 hx with hx | hx
      · exact Or.inl hx
      · refine Or.inr ⟨by rw [e]; simp [hx], ?_⟩
        intro hxn
        have := (List.nodup_cons.1 hfp).1
        exact this (List.mem_map.2 ⟨x, hx, by rw [hxn, hf]⟩)
  · rw [hu] at hx
    rcases List.mem_append.1 hx with hx | hx
    · exact Or.inr ⟨hx, hall x hx⟩
    · exact Or.inl (List.mem_singleton.1 hx)

theorem upsert_mem_new {F : Type} (name : Str) (location : Location F)
    (fs : List (KnownField F)) : (⟨name, location⟩ : KnownField F) ∈ upsert name location fs := by
  rcases upsert_shape name location fs with ⟨pre, f, post, _, _, _, hu⟩ | ⟨_, hu⟩ <;>
    rw [hu] <;> simp

theorem upsert_mem_old {F : Type} (name : Str) (location : Location F)
    (fs : List (KnownField F)) (g : KnownField F) (hg : g ∈ fs) (hne : g.name ≠ name) :
    g ∈ upsert name location fs := by
  rcases upsert_shape name location fs with ⟨pre, f, post, e, hf, _, hu⟩ | ⟨_, hu⟩
  · rw [hu]
    rw [e] at hg
    rcases List.mem_append.1 hg with h | h
    · exact List.mem_append_left _ h
    · rcases List.mem_cons.1 h with h | h
      · rw [h, hf] at hne; exact absurd rfl hne
      · exact List.mem_append_right _ (List.mem_cons_of_mem _ h)
  · rw [hu]; exact List.mem_append_left _ hg

theorem saveAll_append {F : Type} (ops : List (Str × Location F)) (op : Str × Location F)
    (s : Storage F) :
    saveAll (ops ++ [op]) s = saveKnownField op.1 op.2 (saveAll ops s) := by
  unfold saveAll
  rw [List.foldl_append]
  rfl

/-- C16: from an empty registry, after any sequence of `saveKnownField` calls no two
entries of the registry have the same name, the location of every entry is the one
given by the last call for its name, and every name given has its entry. -/
theorem registry_one_entry_per_name {F : Type} (ops : List (Str × Location F))
    (s0 : Storage F) (h0 : (getKnownFields s0).1 = []) :
    ((getKnownFields (saveAll ops s0)).1.map (fun f => f.name)).Nodup ∧
    (∀ f ∈ (getKnownFields (saveAll ops s0)).1,
      ∃ pre post, ops = pre ++ (f.name, f.location) :: post ∧ ∀ op ∈ post, op.1 ≠ f.name) ∧
    (∀ op ∈ ops, ∃ f ∈ (getKnownFields (saveAll ops s0)).1, f.name = op.1) := by
  induction ops using List.reverseRecOn with
  | nil =>
    have : saveAll ([] : List (Str × Location F)) s0 = s0 := rfl
    rw [this, h0]
    exact ⟨by simp, fun f hf => absurd hf (List.not_mem_nil f),
      fun op hop => absurd hop (List.not_mem_nil op)⟩
  | append_singleton ops op ih =>
    obtain ⟨hnd, hlast, hall⟩ := ih
    rw [saveAll_append, saveKnownField_fields]
    refine ⟨upsert_names_nodup _ _ _ hnd, ?_, ?_⟩
    · intro f hf
      rcases mem_upsert _ _ _ hnd f hf with h | ⟨h, hne⟩
      · refine ⟨ops, [], ?_, fun x hx => absurd hx (List.not_mem_nil x)⟩
        rw [h]
      · obtain ⟨pre, post, e, hpost⟩ := hlast f h
        refine ⟨pre, post ++ [op], by rw [e]; simp, ?_⟩
        intro x hx
        rcases List.mem_append.1 hx with hx | hx
        · exact hpost x hx
        · rw [List.mem_singleton.1 hx]; exact fun hh => hne hh.symm
    · intro x hx
      rcases List.mem_append.1 hx with hx | hx
      · obtain ⟨f, hf, hfn⟩ := hall x hx
        by_cases hxo : x.1 = op.1
        · exact ⟨⟨op.1, op.2⟩, upsert_mem_new _ _ _, hxo.symm⟩
        · exact ⟨f, upsert_mem_old _ _ _ f hf (by rw [hfn]; exact hxo), hfn⟩
      · rw [List.mem_singleton.1 hx]
        exact ⟨⟨op.1, op.2⟩, upsert_mem_new _ _ _, rfl⟩



theorem saveKnownField_length_witness :
    ((getKnownFields (saveKnownField "北田".toList ⟨36, 140, 5, []⟩
        (⟨some [⟨"北田".toList, ⟨35, 139, 5, []⟩⟩]⟩ : Storage Nat))).1.length =
        (getKnownFields (⟨some [⟨"北田".toList, ⟨35, 139, 5, []⟩⟩]⟩ : Storage Nat)).1.length ∧
      (getKnownFields (saveKnownField "北田".toList ⟨36, 140, 5, []⟩
        (⟨some [⟨"北田".toList, ⟨35, 139, 5, []⟩⟩]⟩ : Storage Nat))).1.find?
          (fun f => f.name == "北田".toList) = some ⟨"北田".toList, ⟨36, 140, 5, []⟩⟩) ∧
    (getKnownFields (saveKnownField "南田".toList ⟨36, 140, 5, []⟩
        (⟨some [⟨"北田".toList, ⟨35, 139, 5, []⟩⟩]⟩ : Storage Nat))).1.length =
      (getKnownFields (⟨some [⟨"北田".toList, ⟨35, 139, 5, []⟩⟩]⟩ : Storage Nat)).1.length + 1 :=
  ⟨(saveKnownField_length "北田".toList ⟨36, 140, 5, []⟩
      (⟨some [⟨"北田".toList, ⟨35, 139, 5, []⟩⟩]⟩ : Storage Nat)).1
      ⟨⟨"北田".toList, ⟨35, 139, 5, []⟩⟩, List.mem_cons_self _ _, rfl⟩,
   (saveKnownField_length "南田".toList ⟨36, 140, 5, []⟩
      (⟨some [⟨"北田".toList, ⟨35, 139, 5, []⟩⟩]⟩ : Storage Nat)).2 (by decide)⟩

theorem saveKnownField_keeps_positions_witness :
    (∃ pre f post,
      (getKnownFields (⟨some [⟨"東田".toList, ⟨34, 138, 5, []⟩⟩,
        ⟨"北田".toList, ⟨35, 139, 5, []⟩⟩]⟩ : Storage Nat)).1 = pre ++ f :: post ∧
      f.name = "北田".toList ∧ (∀ g ∈ pre, g.name ≠ "北田".toList) ∧
      (getKnownFields (saveKnownField "北田".toList ⟨36, 140, 5, []⟩
        (⟨some [⟨"東田".toList, ⟨34, 138, 5, []⟩⟩,
          ⟨"北田".toList, ⟨35, 139, 5, []⟩⟩]⟩ : Storage Nat))).1 =
        pre ++ ⟨"北田".toList, ⟨36, 140, 5, []⟩⟩ :: post) ∧
    (getKnownFields (saveKnownField "南田".toList ⟨36, 140, 5, []⟩
        (⟨some [⟨"北田".toList, ⟨35, 139, 5, []⟩⟩]⟩ : Storage Nat))).1 =
      (getKnownFields (⟨some [⟨"北田".toList, ⟨35, 139, 5, []⟩⟩]⟩ : Storage Nat)).1 ++
        [⟨"南田".toList, ⟨36, 140, 5, []⟩⟩] :=
  ⟨(saveKnownField_keeps_positions "北田".toList ⟨36, 140, 5, []⟩
      (⟨some [⟨"東田".toList, ⟨34, 138, 5, []⟩⟩,
        ⟨"北田".toList, ⟨35, 139, 5, []⟩⟩]⟩ : Storage Nat)).2.1
      ⟨⟨"北田".toList, ⟨35, 139, 5, []⟩⟩, List.mem_cons_of_mem _ (List.mem_cons_self _ _), rfl⟩,
   (saveKnownField_keeps_positions "南田".toList ⟨36, 140, 5, []⟩
      (⟨some [⟨"北田".toList, ⟨35, 139, 5, []⟩⟩]⟩ : Storage Nat)).2.2 (by decide)⟩

theorem registry_one_entry_per_name_witness :
    ((getKnownFields (saveAll [("北田".toList, ⟨35, 139, 5, []⟩),
        ("南田".toList, ⟨34, 139, 5, []⟩), ("北田".toList, ⟨36, 140, 7, []⟩)]
        (⟨none⟩ : Storage Nat))).1.map (fun f => f.name)).Nodup ∧
    (∀ f ∈ (getKnownFields (saveAll [("北田".toList, ⟨35, 139, 5, []⟩),
        ("南田".toList, ⟨34, 139, 5, []⟩), ("北田".toList, ⟨36, 140, 7, []⟩)]
        (⟨none⟩ : Storage Nat))).1,
      ∃ pre post, [("北田".toList, (⟨35, 139, 5, []⟩ : Location Nat)),
        ("南田".toList, ⟨34, 139, 5, []⟩), ("北田".toList, ⟨36, 140, 7, []⟩)] =
          pre ++ (f.name, f.location) :: post ∧ ∀ op ∈ post, op.1 ≠ f.name) ∧
    (∀ op ∈ [("北田".toList, (⟨35, 139, 5, []⟩ : Location Nat)),
        ("南田".toList, ⟨34, 139, 5, []⟩), ("北田".toList, ⟨36, 140, 7, []⟩)],
      ∃ f ∈ (getKnownFields (saveAll [("北田".toList, ⟨35, 139, 5, []⟩),
        ("南田".toList, ⟨34, 139, 5, []⟩), ("北田".toList, ⟨36, 140, 7, []⟩)]
        (⟨none⟩ : Storage Nat))).1, f.name = op.1) :=
  registry_one_entry_per_name _ (⟨none⟩ : Storage Nat) rfl

/-! ## Symmetry of the distance -/

theorem half_sin_neg {F : Type} (A : Arith F) (neg : F → F) (h : SignLaws A neg) (x t : F) :
    A.sin (A.div (toRad A (neg x)) t) = neg (A.sin (A.div (toRad A x) t)) := by
  unfold toRad
  rw [h.neg_mul, h.neg_div, h.sin_neg]

theorem mul_neg_neg {F : Type} (A : Arith F) (neg : F → F) (h : SignLaws A neg) (u v : F) :
    A.mul (A.mul u (neg v)) (neg v) = A.mul (A.mul u v) v := by
  rw [h.mul_neg, h.mul_neg, h.neg_mul, h.neg_neg]

theorem neg_mul_neg {F : Type} (A : Arith F) (neg : F → F) (h : SignLaws A neg) (v : F) :
    A.mul (neg v) (neg v) = A.mul v v := by
  rw [h.neg_mul, h.mul_neg, h.neg_neg]

theorem half_sin_square_swap {F : Type} (A : Arith F) (neg : F → F) (h : SignLaws A neg)
    (x y t : F) :
    A.mul (A.sin (A.div (toRad A (A.sub x y)) t)) (A.sin (A.div (toRad A (A.sub x y)) t)) =
      A.mul (A.sin (A.div (toRad A (A.sub y x)) t))
        (A.sin (A.div (toRad A (A.sub y x)) t)) := by
  rcases h.sub_swap x y with e | e
  · rw [e, half_sin_neg A neg h, neg_mul_neg A neg h]
  · rw [e]

theorem half_sin_product_swap {F : Type} (A : Arith F) (neg : F → F) (h : SignLaws A neg)
    (u x y t : F) :
    A.mul (A.mul u (A.sin (A.div (toRad A (A.sub x y)) t)))
        (A.sin (A.div (toRad A (A.sub x y)) t)) =
      A.mul (A.mul u (A.sin (A.div (toRad A (A.sub y x)) t)))
        (A.sin (A.div (toRad A (A.sub y x)) t)) := by
  rcases h.sub_swap x y with e | e
  · rw [e, half_sin_neg A neg h, mul_neg_neg A neg h]
  · rw [e]

/-- C13: in every number arithmetic that satisfies the sign laws, `calculateDistance`
gives the same number for a pair of points and for the pair taken the other way
round. -/
theorem calculateDistance_symmetric {F : Type} (A : Arith F) (neg : F → F)
    (h : SignLaws A neg) (lat1 lng1 lat2 lng2 : F) :
    calculateDistance A lat1 lng1 lat2 lng2 = calculateDistance A lat2 lng2 lat1 lng1 := by
  simp only [calculateDistance]
  rw [half_sin_square_swap A neg h lat2 lat1, half_sin_product_swap A neg h _ lng2 lng1,
    h.mul_comm (A.cos (toRad A lat1)) (A.cos (toRad A lat2))]

/-! ## The coarse arithmetic -/

theorem coarseArith_signLaws : SignLaws coarseArith coarseNeg where
  sub_swap x y := by
    left
    cases x <;> cases y <;> simp [coarseArith, coarseNeg]
  neg_neg x := by cases x <;> simp [coarseNeg]
  neg_mul x y := by cases x <;> cases y <;> simp [coarseArith, coarseNeg]
  mul_neg x y := by cases x <;> cases y <;> simp [coarseArith, coarseNeg]
  neg_div x y := by cases x <;> cases y <;> simp [coarseArith, coarseNeg, neg_div]
  sin_neg x := rfl
  mul_comm x y := by cases x <;> cases y <;> simp [coarseArith, mul_comm]

theorem coarseArith_orderLaws : OrderLaws coarseArith where
  lt_irrefl a := by cases a <;> simp [coarseArith]
  lt_trans a b c := by
    cases a <;> cases b <;> cases c <;> simp [coarseArith]
    exact fun h1 h2 => lt_trans h1 h2
  not_infinity_lt a := rfl
  lt_infinity a b := by cases a <;> cases b <;> simp [coarseArith]
  lt_or_lt a b c := by
    cases a <;> cases b <;> cases c <;> simp [coarseArith, IsNumber]
    exact fun h => h.lt_or_lt _

theorem calculateDistance_symmetric_witness :
    calculateDistance coarseArith (some 35) (some 139) (some 36) (some 140) =
      calculateDistance coarseArith (some 36) (some 140) (some 35) (some 139) :=
  calculateDistance_symmetric coarseArith coarseNeg coarseArith_signLaws _ _ _ _

/-! ## The loop of `findNearestField` -/

theorem nearestInv_start {F : Type} (A : Arith F) (cur : Location F) :
    NearestInv A cur [] (none, A.infinity) :=
  ⟨fun g hg => absurd hg (List.not_mem_nil g), Or.inr rfl, Or.inl ⟨rfl, rfl⟩⟩

theorem nearestInv_step {F : Type} (A : Arith F) (hL : OrderLaws A) (cur : Location F)
    (done : List (KnownField F)) (acc : Option (KnownField F) × F) (x : KnownField F)
    (hI : NearestInv A cur done acc) :
    NearestInv A cur (done ++ [x]) (nearestStep A cur acc x) := by
  obtain ⟨hmin, hnum, hshape⟩ := hI
  unfold nearestStep
  simp only []
  cases hlt : A.lt (distanceTo A cur x) acc.2 with
  | true =>
    simp only [if_true]
    refine ⟨?_, Or.inl (hL.lt_infinity _ _ hlt), Or.inr ⟨x, done, [], rfl, rfl, rfl,
      hL.lt_infinity _ _ hlt, ?_⟩⟩
    · intro g hg
      rcases List.mem_append.1 hg with hg | hg
      · cases hgx : A.lt (distanceTo A cur g) (distanceTo A cur x) with
        | false => rfl
        | true =>
          have := hL.lt_trans _ _ _ hgx hlt
          rw [hmin g hg] at this; cases this
      · rw [List.mem_singleton.1 hg]; exact hL.lt_irrefl _
    · intro g hg hgn
      rcases hL.lt_or_lt _ _ _ hlt hgn with h | h
      · exact h
      · rw [hmin g hg] at h; cases h
  | false =>
    simp only [Bool.false_eq_true, if_false]
    refine ⟨?_, hnum, ?_⟩
    · intro g hg
      rcases List.mem_append.1 hg with hg | hg
      · exact hmin g hg
      · rw [List.mem_singleton.1 hg]; exact hlt
    · rcases hshape with h | ⟨f, pre, mid, h1, h2, h3, h4, h5⟩
      · exact Or.inl h
      · exact Or.inr ⟨f, pre, mid ++ [x], h1, h2, by rw [h3]; simp, h4, h5⟩

theorem nearestInv_foldl {F : Type} (A : Arith F) (hL : OrderLaws A) (cur : Location F)
    (rest done : List (KnownField F)) (acc : Option (KnownField F) × F)
    (hI : NearestInv A cur done acc) :
    NearestInv A cur (done ++ rest) (rest.foldl (nearestStep A cur) acc) := by
  induction rest generalizing done acc with
  | nil => simpa using hI
  | cons x rest ih =>
    have := ih (done ++ [x]) (nearestStep A cur acc x) (nearestInv_step A hL cur done acc x hI)
    simpa using this

theorem nearestInv_fields {F : Type} (A : Arith F) (hL : OrderLaws A) (cur : Location F)
    (fields : List (KnownField F)) :
    NearestInv A cur fields (fields.foldl (nearestStep A cur) (none, A.infinity)) := by
  have := nearestInv_foldl A hL cur fields [] _ (nearestInv_start A cur)
  simpa using this

theorem findNearestField_result {F : Type} (A : Arith F) (cur : Location F) (s : Storage F) :
    (findNearestField A cur s).1 =
      if (getKnownFields s).1.length = 0 then none
      else if A.lt ((getKnownFields s).1.foldl (nearestStep A cur) (none, A.infinity)).2
          A.tenth = true
        then ((getKnownFields s).1.foldl (nearestStep A cur) (none, A.infinity)).1
        else none := by
  unfold findNearestField
  simp only []
  split_ifs <;> rfl

theorem suggestFieldName_result {F : Type} (A : Arith F) (cur : Location F) (s : Storage F) :
    (suggestFieldName A cur s).1 = (findNearestField A cur s).1.map (fun f => f.name) := by
  unfold suggestFieldName
  rcases findNearestField A cur s with ⟨n, s2⟩
  cases n <;> rfl

/-- What a field returned by `findNearestField` satisfies. -/
theorem findNearestField_some {F : Type} (A : Arith F) (hL : OrderLaws A) (cur : Location F)
    (s : Storage F) (f : KnownField F) (h : (findNearestField A cur s).1 = some f) :
    ∃ pre post, (getKnownFields s).1 = pre ++ f :: post ∧
      (∀ g ∈ (getKnownFields s).1,
        A.lt (distanceTo A cur g) (distanceTo A cur f) = false) ∧
      (∀ g ∈ pre, IsNumber A (distanceTo A cur g) →
        A.lt (distanceTo A cur f) (distanceTo A cur g) = true) ∧
      A.lt (distanceTo A cur f) A.tenth = true := by
  rw [findNearestField_result] at h
  obtain ⟨hmin, _, hshape⟩ := nearestInv_fields A hL cur (getKnownFields s).1
  generalize (getKnownFields s).1.foldl (nearestStep A cur) (none, A.infinity) = r at h hmin hshape
  split_ifs at h with h0 hlt
  rcases hshape with ⟨h1, _⟩ | ⟨f2, pre, mid, h1, h2, h3, _, h5⟩
  · rw [h1] at h; cases h
  · rw [h1, Option.some.injEq] at h
    subst h
    rw [h2] at hmin hlt
    exact ⟨pre, mid, h3, hmin, h5, hlt⟩

/-- When some field is within the threshold, `findNearestField` returns a field. -/
theorem findNearestField_isSome {F : Type} (A : Arith F) (hL : OrderLaws A)
    (cur : Location F) (s : Storage F) (f : KnownField F) (hf : f ∈ (getKnownFields s).1)
    (hlt : A.lt (distanceTo A cur f) A.tenth = true) :
    (findNearestField A cur s).1.isSome = true := by
  rw [findNearestField_result]
  obtain ⟨hmin, hnum, hshape⟩ := nearestInv_fields A hL cur (getKnownFields s).1
  generalize (getKnownFields s).1.foldl (nearestStep A cur) (none, A.infinity) = r
    at hmin hnum hshape
  have hlen : ¬ (getKnownFields s).1.length = 0 := by
    intro h0
    rw [List.length_eq_zero] at h0
    rw [h0] at hf; cases hf
  have hr : A.lt r.2 A.tenth = true := by
    rcases hL.lt_or_lt _ _ _ hlt hnum with h | h
    · rw [hmin f hf] at h; cases h
    · exact h
  rw [if_neg hlen, if_pos hr]
  rcases hshape with ⟨_, h2⟩ | ⟨f2, _, _, h1, _⟩
  · rw [h2, hL.not_infinity_lt] at hr; cases hr
  · rw [h1]; rfl



/-- C11: `findNearestField` and `suggestFieldName` return something exactly when the
distance computed for some registered field is below `0.1`; when no registered field
has a distance below `0.1`, and so when the registry is empty, they return `null`;
and when a single entry of the registry has a distance below `0.1`,
`suggestFieldName` returns the name of that entry. -/
theorem suggestion_iff_within_threshold {F : Type} (A : Arith F) (hL : OrderLaws A)
    (cur : Location F) (s : Storage F) :
    ((findNearestField A cur s).1.isSome = true ↔
      ∃ f ∈ (getKnownFields s).1, A.lt (distanceTo A cur f) A.tenth = true) ∧
    ((suggestFieldName A cur s).1.isSome = true ↔
      ∃ f ∈ (getKnownFields s).1, A.lt (distanceTo A cur f) A.tenth = true) ∧
    ((∀ f ∈ (getKnownFields s).1, A.lt (distanceTo A cur f) A.tenth = false) →
      (findNearestField A cur s).1 = none ∧ (suggestFieldName A cur s).1 = none) ∧
    ((getKnownFields s).1 = [] → (suggestFieldName A cur s).1 = none) ∧
    (∀ pre f post, (getKnownFields s).1 = pre ++ f :: post →
      A.lt (distanceTo A cur f) A.tenth = true →
      (∀ g ∈ pre ++ post, A.lt (distanceTo A cur g) A.tenth = false) →
      (suggestFieldName A cur s).1 = some f.name) := by
  have hiff : (findNearestField A cur s).1.isSome = true ↔
      ∃ f ∈ (getKnownFields s).1, A.lt (distanceTo A cur f) A.tenth = true := by
    constructor
    · intro h
      obtain ⟨f, hf⟩ := Option.isSome_iff_exists.1 h
      obtain ⟨pre, post, e, _, _, hlt⟩ := findNearestField_some A hL cur s f hf
      exact ⟨f, by rw [e]; simp, hlt⟩
    · rintro ⟨f, hf, hlt⟩
      exact findNearestField_isSome A hL cur s f hf hlt
  have hnone : (∀ f ∈ (getKnownFields s).1, A.lt (distanceTo A cur f) A.tenth = false) →
      (findNearestField A cur s).1 = none := by
    intro hall
    cases hr : (findNearestField A cur s).1 with
    | none => rfl
    | some f =>
      obtain ⟨g, hg, hlt⟩ := hiff.1 (by rw [hr]; rfl)
      rw [hall g hg] at hlt; cases hlt
  refine ⟨hiff, ?_, ?_, ?_, ?_⟩
  · rw [suggestFieldName_result, Option.isSome_map']
    exact hiff
  · intro hall
    refine ⟨hnone hall, ?_⟩
    rw [suggestFieldName_result, hnone hall]; rfl
  · intro hnil
    rw [suggestFieldName_result, hnone (by rw [hnil]; intro f hf; cases hf)]; rfl
  · intro pre f post e hlt hothers
    have hsome := hiff.2 ⟨f, by rw [e]; simp, hlt⟩
    obtain ⟨g, hg⟩ := Option.isSome_iff_exists.1 hsome
    obtain ⟨pre2, post2, e2, _, _, hglt⟩ := findNearestField_some A hL cur s g hg
    have hgmem : g ∈ pre ++ f :: post := by rw [← e, e2]; simp
    have hgf : g = f := by
      rcases List.mem_append.1 hgmem with h | h
      · rw [hothers g (List.mem_append_left _ h)] at hglt; cases hglt
      · rcases List.mem_cons.1 h with h | h
        · exact h
        · rw [hothers g (List.mem_append_right _ h)] at hglt; cases hglt
    rw [suggestFieldName_result, hg, hgf]; rfl

/-- C12: a field `findNearestField` returns has a distance that no registered field
undercuts, and every field in front of it in the registry whose distance is a number
is strictly farther away, so it is the first field at the least distance. -/
theorem nearest_is_first_minimum {F : Type} (A : Arith F) (hL : OrderLaws A)
    (cur : Location F) (s : Storage F) (f : KnownField F)
    (h : (findNearestField A cur s).1 = some f) :
    ∃ pre post, (getKnownFields s).1 = pre ++ f :: post ∧
      (∀ g ∈ (getKnownFields s).1,
        A.lt (distanceTo A cur g) (distanceTo A cur f) = false) ∧
      (∀ g ∈ pre, IsNumber A (distanceTo A cur g) →
        A.lt (distanceTo A cur f) (distanceTo A cur g) = true) := by
  obtain ⟨pre, post, e, h1, h2, _⟩ := findNearestField_some A hL cur s f h
  exact ⟨pre, post, e, h1, h2⟩

theorem suggestion_iff_within_threshold_witness :
    (suggestFieldName coarseArith ⟨some 35, some 139, some 5, []⟩
      ⟨some [⟨"南田".toList, ⟨some 36, some 139, some 5, []⟩⟩,
             ⟨"北田".toList, ⟨some 35, some 139, some 5, []⟩⟩]⟩).1 = some "北田".toList ∧
    (suggestFieldName coarseArith ⟨some 35, some 139, some 5, []⟩
      ⟨some [⟨"南田".toList, ⟨some 36, some 139, some 5, []⟩⟩]⟩).1 = none :=
  ⟨(suggestion_iff_within_threshold coarseArith coarseArith_orderLaws
      ⟨some 35, some 139, some 5, []⟩
      ⟨some [⟨"南田".toList, ⟨some 36, some 139, some 5, []⟩⟩,
             ⟨"北田".toList, ⟨some 35, some 139, some 5, []⟩⟩]⟩).2.2.2.2
      [⟨"南田".toList, ⟨some 36, some 139, some 5, []⟩⟩]
      ⟨"北田".toList, ⟨some 35, some 139, some 5, []⟩⟩ [] rfl
      (by norm_num [coarseArith, distanceTo, calculateDistance, toRad])
      (by norm_num [coarseArith, distanceTo, calculateDistance, toRad]),
   ((suggestion_iff_within_threshold coarseArith coarseArith_orderLaws
      ⟨some 35, some 139, some 5, []⟩
      ⟨some [⟨"南田".toList, ⟨some 36, some 139, some 5, []⟩⟩]⟩).2.2.1
      (by norm_num [getKnownFields, coarseArith, distanceTo, calculateDistance, toRad])).2⟩

theorem nearest_is_first_minimum_witness :
    ∃ pre post,
      (getKnownFields (⟨some [⟨"北田".toList, ⟨some 35, some 139, some 5, []⟩⟩,
        ⟨"北田2".toList, ⟨some 35, some 139, some 9, []⟩⟩]⟩ : Storage (Option ℚ))).1 =
        pre ++ ⟨"北田".toList, ⟨some 35, some 139, some 5, []⟩⟩ :: post ∧
      (∀ g ∈ (getKnownFields (⟨some [⟨"北田".toList, ⟨some 35, some 139, some 5, []⟩⟩,
          ⟨"北田2".toList, ⟨some 35, some 139, some 9, []⟩⟩]⟩ : Storage (Option ℚ))).1,
        coarseArith.lt (distanceTo coarseArith ⟨some 35, some 139, some 5, []⟩ g)
          (distanceTo coarseArith ⟨some 35, some 139, some 5, []⟩
            ⟨"北田".toList, ⟨some 35, some 139, some 5, []⟩⟩) = false) ∧
      (∀ g ∈ pre, IsNumber coarseArith (distanceTo coarseArith ⟨some 35, some 139, some 5, []⟩ g) →
        coarseArith.lt (distanceTo coarseArith ⟨some 35, some 139, some 5, []⟩
            ⟨"北田".toList, ⟨some 35, some 139, some 5, []⟩⟩)
          (distanceTo coarseArith ⟨some 35, some 139, some 5, []⟩ g) = true) :=
  nearest_is_first_minimum coarseArith coarseArith_orderLaws
    ⟨some 35, some 139, some 5, []⟩ _ _
    (by simp [findNearestField, getKnownFields, nearestStep, coarseArith, distanceTo,
      calculateDistance, toRad])

/-! ## Error messages -/

theorem handleRecognitionError_recognizedText (error : Str) (s : State) :
    (handleRecognitionError error s).recognizedText =
      errorPrefix ++
        (if error = "no-speech".toList then "音声が検出されませんでした。".toList
         else if error = "audio-capture".toList then "マイクへのアクセスができませんでした。".toList
         else if error = "not-allowed".toList then "マイクの使用が許可されていません。".toList
         else if error = "network".toList then "ネットワークエラーが発生しました。".toList
         else error) := by
  unfold handleRecognitionError hideListeningIndicator displayRecognitionResult
  simp only []
  rw [if_neg]
  intro h
  have : (errorPrefix ++ (if error = "no-speech".toList then "音声が検出されませんでした。".toList
         else if error = "audio-capture".toList then "マイクへのアクセスができませんでした。".toList
         else if error = "not-allowed".toList then "マイクの使用が許可されていません。".toList
         else if error = "network".toList then "ネットワークエラーが発生しました。".toList
         else error)).length = 0 := by
    rw [List.isEmpty_iff] at h; rw [h]; rfl
  rw [List.length_append] at this
  have hp : errorPrefix.length = 16 := by decide
  omega

/-- C21: `handleRecognitionError` displays, for each of the codes `no-speech`,
`audio-capture`, `not-allowed` and `network`, the common prefix followed by a fixed
text of its own, the four texts being pairwise distinct; for every other code it
displays the prefix followed by the code itself; so every message displayed starts
with the prefix. -/
theorem handleRecognitionError_categorized (s : State) :
    (handleRecognitionError "no-speech".toList s).recognizedText =
      errorPrefix ++ "音声が検出されませんでした。".toList ∧
    (handleRecognitionError "audio-capture".toList s).recognizedText =
      errorPrefix ++ "マイクへのアクセスができませんでした。".toList ∧
    (handleRecognitionError "not-allowed".toList s).recognizedText =
      errorPrefix ++ "マイクの使用が許可されていません。".toList ∧
    (handleRecognitionError "network".toList s).recognizedText =
      errorPrefix ++ "ネットワークエラーが発生しました。".toList ∧
    ["音声が検出されませんでした。".toList, "マイクへのアクセスができませんでした。".toList,
      "マイクの使用が許可されていません。".toList, "ネットワークエラーが発生しました。".toList].Nodup ∧
    (∀ error : Str, error ≠ "no-speech".toList → error ≠ "audio-capture".toList →
      error ≠ "not-allowed".toList → error ≠ "network".toList →
      (handleRecognitionError error s).recognizedText = errorPrefix ++ error) ∧
    (∀ error : Str, errorPrefix <+: (handleRecognitionError error s).recognizedText) := by
  refine ⟨?_, ?_, ?_, ?_, by decide, ?_, ?_⟩
  · rw [handleRecognitionError_recognizedText]; rfl
  · rw [handleRecognitionError_recognizedText]; rfl
  · rw [handleRecognitionError_recognizedText]; rfl
  · rw [handleRecognitionError_recognizedText]; rfl
  · intro error h1 h2 h3 h4
    rw [handleRecognitionError_recognizedText, if_neg h1, if_neg h2, if_neg h3, if_neg h4]
  · intro error
    rw [handleRecognitionError_recognizedText]
    exact List.prefix_append _ _

theorem handleRecognitionError_categorized_witness :
    (handleRecognitionError "aborted".toList
      ⟨true, [], [], true, ⟨[], [], [], [], []⟩⟩).recognizedText =
      errorPrefix ++ "aborted".toList :=
  (handleRecognitionError_categorized ⟨true, [], [], true, ⟨[], [], [], [], []⟩⟩).2.2.2.2.2.1
    "aborted".toList (by decide) (by decide) (by decide) (by decide)

/-! ## Keywords and labels -/

theorem firstRule_label_of_work_entries :
    ∀ e ∈ agriculturalTerms, e.category = Category.work →
      (firstRule workTypeRules (toLowerCase e.normalized)).map
        (fun r => getWorkTypeLabel r.2) = some e.normalized := by
  decide

theorem firstRule_label_of_crop_entries :
    ∀ e ∈ agriculturalTerms, e.category = Category.crop →
      (firstRule cropTypeRules (toLowerCase e.normalized)).map
        (fun r => getCropTypeLabel r.2) = some e.normalized := by
  decide

/-- C22: for every dictionary entry of category work, `autoFillForm` on the entry's
normalised form writes to `workType`, whatever the form held, a type whose label by
`getWorkTypeLabel` is that normalised form; and likewise for the entries of category
crop, `cropType` and `getCropTypeLabel`. -/
theorem keywords_use_normalized_vocabulary :
    ∀ e ∈ agriculturalTerms,
      (e.category = Category.work →
        ∃ t, (∀ form, (autoFillForm e.normalized form).workType = t) ∧
          getWorkTypeLabel t = e.normalized) ∧
      (e.category = Category.crop →
        ∃ t, (∀ form, (autoFillForm e.normalized form).cropType = t) ∧
          getCropTypeLabel t = e.normalized) := by
  intro e he
  constructor
  · intro hc
    have h := firstRule_label_of_work_entries e he hc
    cases hr : firstRule workTypeRules (toLowerCase e.normalized) with
    | none => rw [hr] at h; cases h
    | some r =>
      rw [hr, Option.map_some', Option.some.injEq] at h
      refine ⟨r.2, ?_, h⟩
      intro form
      rw [autoFillForm_workType, inferWorkType_workType, hr]; rfl
  · intro hc
    have h := firstRule_label_of_crop_entries e he hc
    cases hr : firstRule cropTypeRules (toLowerCase e.normalized) with
    | none => rw [hr] at h; cases h
    | some r =>
      rw [hr, Option.map_some', Option.some.injEq] at h
      refine ⟨r.2, ?_, h⟩
      intro form
      rw [autoFillForm_cropType, inferCropType_cropType, hr]; rfl

theorem keywords_use_normalized_vocabulary_witness :
    (∃ t, (∀ form, (autoFillForm "農薬散布".toList form).workType = t) ∧
      getWorkTypeLabel t = "農薬散布".toList) ∧
    (∃ t, (∀ form, (autoFillForm "稲".toList form).cropType = t) ∧
      getCropTypeLabel t = "稲".toList) :=
  ⟨(keywords_use_normalized_vocabulary
      ⟨"さんぷ".toList, "農薬散布".toList, Category.work⟩ (by decide)).1 rfl,
   (keywords_use_normalized_vocabulary
      ⟨"こめ".toList, "稲".toList, Category.crop⟩ (by decide)).2 rfl⟩

/-! ## The location history -/

theorem readHistory_recordLocationHistory {F : Type} (location : Location F)
    (workType now : Str) (s : HistoryStorage F) :
    readHistory (recordLocationHistory location workType now s) =
      if (readHistory s ++ [(⟨location, workType, now⟩ : HistoryEntry F)]).length > 100
      then (readHistory s ++ [(⟨location, workType, now⟩ : HistoryEntry F)]).tail
      else readHistory s ++ [(⟨location, workType, now⟩ : HistoryEntry F)] := rfl

theorem recordAll_append {F : Type} (ops : List (Location F × Str × Str))
    (op : Location F × Str × Str) (s : HistoryStorage F) :
    recordAll (ops ++ [op]) s = recordLocationHistory op.1 op.2.1 op.2.2 (recordAll ops s) := by
  unfold recordAll
  rw [List.foldl_append]
  rfl

/-- One more entry on a list cut to its last hundred, cut again. -/
theorem drop_push_shift {α : Type} (l : List α) (e : α) :
    (if (l.drop (l.length - 100) ++ [e]).length > 100
      then (l.drop (l.length - 100) ++ [e]).tail
      else l.drop (l.length - 100) ++ [e]) =
      (l ++ [e]).drop ((l ++ [e]).length - 100) := by
  by_cases h : l.length < 100
  · have h0 : l.length - 100 = 0 := by omega
    have h1 : (l ++ [e]).length - 100 = 0 := by
      rw [List.length_append, List.length_singleton]; omega
    rw [h0, h1, List.drop_zero, List.drop_zero, if_neg]
    rw [List.length_append, List.length_singleton]; omega
  · have hlen : (l.drop (l.length - 100)).length = 100 := by
      rw [List.length_drop]; omega
    have h1 : (l ++ [e]).length - 100 = (l.length - 100) + 1 := by
      rw [List.length_append, List.length_singleton]; omega
    have hne : l.drop (l.length - 100) ≠ [] := by
      intro hnil; rw [hnil] at hlen; cases hlen
    have hle : l.length - 100 + 1 ≤ l.length := by omega
    rw [if_pos (by rw [List.length_append, hlen]; simp), h1,
      List.drop_append_of_le_length hle, List.tail_append_of_ne_nil hne, List.tail_drop]

/-- C23: from an empty history, after `n` calls of `recordLocationHistory` the stored
history has `min n 100` entries, and they are the entries of the last `min n 100`
calls, in the order of the calls. -/
theorem history_keeps_latest_hundred {F : Type} (ops : List (Location F × Str × Str))
    (s0 : HistoryStorage F) (h0 : readHistory s0 = []) :
    (readHistory (recordAll ops s0)).length = min ops.length 100 ∧
    readHistory (recordAll ops s0) = (ops.map entryOf).drop (ops.length - 100) := by
  have key : readHistory (recordAll ops s0) = (ops.map entryOf).drop (ops.length - 100) := by
    induction ops using List.reverseRecOn with
    | nil =>
      have : recordAll ([] : List (Location F × Str × Str)) s0 = s0 := rfl
      rw [this, h0]; rfl
    | append_singleton ops op ih =>
      rw [recordAll_append, readHistory_recordLocationHistory, ih]
      have hl : ops.length = (ops.map entryOf).length := (List.length_map _ _).symm
      have hl2 : (ops ++ [op]).length = (ops.map entryOf ++ [entryOf op]).length := by
        simp
      rw [List.map_append, List.map_singleton, hl, hl2]
      exact drop_push_shift (ops.map entryOf) (entryOf op)
  refine ⟨?_, key⟩
  rw [key, List.length_drop, List.length_map]
  omega

theorem history_keeps_latest_hundred_witness :
    (readHistory (recordAll
        [((⟨35, 139, 5, []⟩ : Location Nat), "seeding".toList, "t1".toList),
         (⟨36, 140, 7, []⟩, "weeding".toList, "t2".toList)] ⟨none⟩)).length =
      min [((⟨35, 139, 5, []⟩ : Location Nat), "seeding".toList, "t1".toList),
         (⟨36, 140, 7, []⟩, "weeding".toList, "t2".toList)].length 100 ∧
    readHistory (recordAll
        [((⟨35, 139, 5, []⟩ : Location Nat), "seeding".toList, "t1".toList),
         (⟨36, 140, 7, []⟩, "weeding".toList, "t2".toList)] ⟨none⟩) =
      ([((⟨35, 139, 5, []⟩ : Location Nat), "seeding".toList, "t1".toList),
         (⟨36, 140, 7, []⟩, "weeding".toList, "t2".toList)].map entryOf).drop
        ([((⟨35, 139, 5, []⟩ : Location Nat), "seeding".toList, "t1".toList),
         (⟨36, 140, 7, []⟩, "weeding".toList, "t2".toList)].length - 100) :=
  history_keeps_latest_hundred
    [((⟨35, 139, 5, []⟩ : Location Nat), "seeding".toList, "t1".toList),
     (⟨36, 140, 7, []⟩, "weeding".toList, "t2".toList)] ⟨none⟩ rfl

/-! ## Each entry on its own spoken form -/

/-- C24: normalising the text that consists of exactly the spoken form of a dictionary
entry yields exactly the normalised form of that entry; in dictionary order no earlier
entry's spoken form occurs inside a later entry's spoken form, and no later entry's
spoken form occurs inside an earlier entry's normalised form. -/
theorem entry_normalizes_to_own_normalized :
    (∀ e ∈ agriculturalTerms, normalize e.term = e.normalized) ∧
    agriculturalTerms.Pairwise
      (fun e1 e2 => ¬ e1.term <:+: e2.term ∧ ¬ e2.term <:+: e1.normalized) := by
  constructor <;> decide

theorem entry_normalizes_to_own_normalized_witness :
    normalize "いもち".toList = "いもち病".toList ∧
    normalize "キロ".toList = "kg".toList :=
  ⟨entry_normalizes_to_own_normalized.1
      ⟨"いもち".toList, "いもち病".toList, Category.disease⟩ (by decide),
   entry_normalizes_to_own_normalized.1
      ⟨"キロ".toList, "kg".toList, Category.unit⟩ (by decide)⟩

/-! ## Spoken forms left after one pass -/

/-- C25: for every text `T` a dictionary spoken form that occurs in `normalize T` is
`いもち` or `うどんこ`; these two are exactly the spoken forms contained in their own
normalised form, and both do occur after a pass; and `normalize (normalize T)` equals
`normalize T` for every `T` whose normalisation contains neither of the two. -/
theorem residual_spoken_forms :
    (∀ T : Str, ∀ e ∈ agriculturalTerms, e.term <:+: normalize T →
      e.term = "いもち".toList ∨ e.term = "うどんこ".toList) ∧
    (∀ e ∈ agriculturalTerms, (e.term <:+: e.normalized ↔
      e.term = "いもち".toList ∨ e.term = "うどんこ".toList)) ∧
    "いもち".toList <:+: normalize "いもち".toList ∧
    "うどんこ".toList <:+: normalize "うどんこ".toList ∧
    (∀ T : Str, ¬ "いもち".toList <:+: normalize T → ¬ "うどんこ".toList <:+: normalize T →
      normalize (normalize T) = normalize T) := by
  refine ⟨fun T => spoken_forms_left_by_normalize T, by decide, by decide, by decide, ?_⟩
  intro T h1 h2
  apply normalizeWith_of_absent agriculturalTerms agriculturalTerms_caseless
  intro e he hin
  rcases spoken_forms_left_by_normalize T e he hin with h | h
  · rw [h] at hin; exact h1 hin
  · rw [h] at hin; exact h2 hin

theorem residual_spoken_forms_witness :
    ("いもち".toList = "いもち".toList ∨ "いもち".toList = "うどんこ".toList) ∧
    normalize (normalize "こめ しゅうかく 20たん".toList) =
      normalize "こめ しゅうかく 20たん".toList :=
  ⟨residual_spoken_forms.1 "いもち が でた".toList
      ⟨"いもち".toList, "いもち病".toList, Category.disease⟩ (by decide) (by decide),
   residual_spoken_forms.2.2.2.2 "こめ しゅうかく 20たん".toList (by decide) (by decide)⟩

/-! ## The field-name pattern against the designator tokens -/

/-- C6: in the text `1場2号` the leftmost run of digits that is immediately followed by
one of the designator tokens `号圃場`, `圃場`, `号` is `2`, so the canonical name of the
claim is `第2圃場`; `autoFillForm` writes `第1圃場`, because the bracket expression of the
pattern accepts the single character `場` after the `1`.  On `畑12号圃場と4号`, where the
leftmost digit run in front of a token is `12`, it writes `第12圃場`. -/
theorem fieldName_leftmost_designator_missed :
    leftmostDesignatedRun fieldDesignatorTokens [] "1場2号".toList = some "2".toList ∧
    (autoFillForm "1場2号".toList ⟨[], [], [], [], []⟩).fieldName = "第1圃場".toList ∧
    leftmostDesignatedRun fieldDesignatorTokens [] "畑12号圃場と4号".toList =
      some "12".toList ∧
    (autoFillForm "畑12号圃場と4号".toList ⟨[], [], [], [], []⟩).fieldName =
      "第12圃場".toList := by
  decide

/-! ## The distance from a point to itself, and the distance when `a` is in range -/

theorem calculateDistance_eq_haversineA {F : Type} (A : Arith F) (lat1 lng1 lat2 lng2 : F) :
    calculateDistance A lat1 lng1 lat2 lng2 =
      A.mul (A.lit 6371) (A.mul (A.lit 2)
        (A.atan2 (A.sqrt (haversineA A lat1 lng1 lat2 lng2))
          (A.sqrt (A.sub (A.lit 1) (haversineA A lat1 lng1 lat2 lng2))))) := rfl

theorem haversineA_self {F : Type} (A : Arith F) (finite : F → Prop)
    (h : HaversineLaws A finite) (lat lng : F) (hlat : finite lat) (hlng : finite lng) :
    haversineA A lat lng lat lng = A.lit 0 := by
  unfold haversineA
  simp only []
  rw [h.sub_self lat hlat, h.sub_self lng hlng]
  have e : toRad A (A.lit 0) = A.lit 0 := h.zero_mul_degree
  rw [e, h.zero_div_two, h.sin_zero, h.zero_mul_zero, h.cos_sq_mul_zero lat hlat,
    h.zero_mul_zero, h.zero_add_zero]

/-- C26, amended: in every arithmetic with the laws of `HaversineLaws`, the distance from
a point with finite coordinates to itself is `+0`; and whenever the constant `a` lies
between `0` and `1`, so does `1 - a`, both square roots are of numbers in that range,
and the distance returned is `+0` or above it and not above `6371 * Math.PI`. -/
theorem calculateDistance_bounded_when_a_in_unit {F : Type} (A : Arith F)
    (finite : F → Prop) (h : HaversineLaws A finite) :
    (∀ lat lng, finite lat → finite lng → calculateDistance A lat lng lat lng = A.lit 0) ∧
    (∀ lat1 lng1 lat2 lng2, InUnit A (haversineA A lat1 lng1 lat2 lng2) →
      InUnit A (A.sub (A.lit 1) (haversineA A lat1 lng1 lat2 lng2)) ∧
      NonNeg A (calculateDistance A lat1 lng1 lat2 lng2) ∧
      A.lt (A.mul (A.lit 6371) A.pi) (calculateDistance A lat1 lng1 lat2 lng2) = false) := by
  constructor
  · intro lat lng hlat hlng
    rw [calculateDistance_eq_haversineA, haversineA_self A finite h lat lng hlat hlng,
      h.sqrt_zero, h.one_sub_zero, h.sqrt_one, h.atan2_zero_one, h.two_mul_zero,
      h.radius_mul_zero]
  · intro lat1 lng1 lat2 lng2 ha
    have h1 := h.one_sub_unit _ ha
    obtain ⟨t0, t1⟩ := h.atan2_unit _ _ (h.sqrt_unit _ ha) (h.sqrt_unit _ h1)
    refine ⟨h1, ?_, ?_⟩
    · rw [calculateDistance_eq_haversineA]
      exact h.radius_mul_nonneg _ (h.two_mul_nonneg _ t0)
    · rw [calculateDistance_eq_haversineA]
      have t2 := h.two_mul_mono _ _ t1
      rw [h.two_mul_half_pi] at t2
      exact h.radius_mul_mono _ _ t2

/-! ## The coarse arithmetic and the laws of the distance -/

theorem coarseArith_haversineLaws :
    HaversineLaws coarseArith (fun x => x.isSome = true) where
  sub_self x hx := by
    cases x with
    | none => cases hx
    | some a => simp [coarseArith]
  zero_mul_degree := by simp [coarseArith]
  zero_div_two := by simp [coarseArith]
  sin_zero := rfl
  zero_mul_zero := by simp [coarseArith]
  cos_sq_mul_zero x _ := by simp [coarseArith]
  zero_add_zero := by simp [coarseArith]
  sqrt_zero := rfl
  one_sub_zero := by simp [coarseArith]
  sqrt_one := rfl
  atan2_zero_one := rfl
  two_mul_zero := by simp [coarseArith]
  radius_mul_zero := by simp [coarseArith]
  sqrt_unit x hx := hx
  one_sub_unit x hx := by
    cases x with
    | none => simp [InUnit, coarseArith] at hx
    | some a =>
      simp only [InUnit, NonNeg, coarseArith] at hx ⊢
      simp at hx ⊢
      obtain ⟨h0, h1⟩ := hx
      refine ⟨?_, ?_⟩
      · rcases lt_or_eq_of_le h1 with h2 | h2
        · left; linarith
        · right; rw [h2]; norm_num
      · rcases h0 with h0 | h0
        · linarith
        · rw [h0]
  atan2_unit y x hy _ := by
    refine ⟨hy.1, ?_⟩
    cases y with
    | none => simp [InUnit, coarseArith] at hy
    | some a =>
      have h1 := hy.2
      simp [coarseArith] at h1 ⊢
      linarith
  two_mul_nonneg x hx := by
    cases x with
    | none => left; rfl
    | some a =>
      simp only [NonNeg, coarseArith] at hx ⊢
      simp at hx ⊢
      rcases hx with h0 | h0
      · left; exact h0
      · right; exact h0
  radius_mul_nonneg x hx := by
    cases x with
    | none => left; rfl
    | some a =>
      simp only [NonNeg, coarseArith] at hx ⊢
      simp at hx ⊢
      rcases hx with h0 | h0
      · left; exact h0
      · right; exact h0
  two_mul_mono x y hxy := by
    cases x <;> cases y <;> simp [coarseArith] at hxy ⊢
    exact hxy
  radius_mul_mono x y hxy := by
    cases x <;> cases y <;> simp [coarseArith] at hxy ⊢
    exact hxy
  two_mul_half_pi := by norm_num [coarseArith]

theorem calculateDistance_bounded_when_a_in_unit_witness :
    calculateDistance coarseArith (some 35) (some 139) (some 35) (some 139) =
      coarseArith.lit 0 ∧
    NonNeg coarseArith
      (calculateDistance coarseArith (some 35) (some 139) (some 36) (some 140)) ∧
    coarseArith.lt (coarseArith.mul (coarseArith.lit 6371) coarseArith.pi)
      (calculateDistance coarseArith (some 35) (some 139) (some 36) (some 140)) = false :=
  ⟨(calculateDistance_bounded_when_a_in_unit coarseArith _ coarseArith_haversineLaws).1
      (some 35) (some 139) rfl rfl,
   ((calculateDistance_bounded_when_a_in_unit coarseArith _ coarseArith_haversineLaws).2
      (some 35) (some 139) (some 36) (some 140)
      (by norm_num [InUnit, NonNeg, haversineA, toRad, coarseArith])).2⟩

/-! ## The distance in doubles -/

/-- The laws of `HaversineLaws` that speak of particular numbers, evaluated in
`binary64`. -/
theorem binary64_particular_laws :
    binary64.mul (binary64.lit 0) (binary64.div binary64.pi (binary64.lit 180)) =
      binary64.lit 0 ∧
    binary64.div (binary64.lit 0) (binary64.lit 2) = binary64.lit 0 ∧
    binary64.sin (binary64.lit 0) = binary64.lit 0 ∧
    binary64.mul (binary64.lit 0) (binary64.lit 0) = binary64.lit 0 ∧
    binary64.add (binary64.lit 0) (binary64.lit 0) = binary64.lit 0 ∧
    binary64.sqrt (binary64.lit 0) = binary64.lit 0 ∧
    binary64.sub (binary64.lit 1) (binary64.lit 0) = binary64.lit 1 ∧
    binary64.sqrt (binary64.lit 1) = binary64.lit 1 ∧
    binary64.atan2 (binary64.lit 0) (binary64.lit 1) = binary64.lit 0 ∧
    binary64.mul (binary64.lit 2) (binary64.lit 0) = binary64.lit 0 ∧
    binary64.mul (binary64.lit 6371) (binary64.lit 0) = binary64.lit 0 ∧
    binary64.mul (binary64.lit 2) (binary64.div binary64.pi (binary64.lit 2)) =
      binary64.pi := by
  decide!

/-- In `binary64` the distance from the point `(35.6812, 139.7671)` to itself is `+0`, and
to `(34.7025, 135.4959)` it is `403.5...`, the constant `a` being in range. -/
theorem binary64_distance_examples :
    calculateDistance binary64 (ofDecimal false 356812 4) (ofDecimal false 1397671 4)
      (ofDecimal false 356812 4) (ofDecimal false 1397671 4) = Double.fin false 0 ∧
    binary64.lt (binary64.lit 0) (haversineA binary64 (ofDecimal false 356812 4)
      (ofDecimal false 1397671 4) (ofDecimal false 347025 4)
      (ofDecimal false 1354959 4)) = true ∧
    binary64.lt (binary64.lit 1) (haversineA binary64 (ofDecimal false 356812 4)
      (ofDecimal false 1397671 4) (ofDecimal false 347025 4)
      (ofDecimal false 1354959 4)) = false ∧
    binary64.lt (calculateDistance binary64 (ofDecimal false 356812 4)
      (ofDecimal false 1397671 4) (ofDecimal false 347025 4)
      (ofDecimal false 1354959 4)) (binary64.lit 404) = true ∧
    binary64.lt (binary64.lit 403) (calculateDistance binary64 (ofDecimal false 356812 4)
      (ofDecimal false 1397671 4) (ofDecimal false 347025 4)
      (ofDecimal false 1354959 4)) = true := by
  decide!

/-- C26: in doubles, for the points `(-21.191232204437256, -35.86087703704834)` and
`(21.191232204437256, 144.13912296295166)`, which lie opposite each other on the globe,
the constant `a` of `calculateDistance` is `1 + 2^-52`, above `1`; `1 - a` is below `0`,
its square root is `NaN`, and so is the distance returned. -/
theorem haversine_exceeds_one_in_doubles :
    haversineA binary64 (ofDecimal true 21191232204437256 15)
      (ofDecimal true 3586087703704834 14) (ofDecimal false 21191232204437256 15)
      (ofDecimal false 14413912296295166 14) = Double.fin false (2 ^ 1074 + 2 ^ 1022) ∧
    binary64.lt (binary64.lit 1) (haversineA binary64 (ofDecimal true 21191232204437256 15)
      (ofDecimal true 3586087703704834 14) (ofDecimal false 21191232204437256 15)
      (ofDecimal false 14413912296295166 14)) = true ∧
    binary64.lt (binary64.sub (binary64.lit 1)
      (haversineA binary64 (ofDecimal true 21191232204437256 15)
        (ofDecimal true 3586087703704834 14) (ofDecimal false 21191232204437256 15)
        (ofDecimal false 14413912296295166 14))) (binary64.lit 0) = true ∧
    calculateDistance binary64 (ofDecimal true 21191232204437256 15)
      (ofDecimal true 3586087703704834 14) (ofDecimal false 21191232204437256 15)
      (ofDecimal false 14413912296295166 14) = Double.nan := by
  decide!

end AgriVoice
